import Mathlib

/-!
# Verification of the `mazegenerator` program (src/main.rs)

Shallow embedding of the maze generator: the grid/wall data model, the three
maze-construction algorithms (randomized Kruskal with union-find, randomized
Prim frontier expansion, randomized backtracking DFS) and the quality metrics
(dead ends, exhaustive longest-path search, branching factor, quality index).

Conventions of the embedding:
* `usize` values become `Nat`; the `i32` coordinate arithmetic in neighbor
  enumeration becomes `Int` with explicit bounds checks, exactly as in the
  source (`nx >= 0 && nx < width ...`).
* Rust `f64` arithmetic on the metrics is modelled over `ℚ` (exact field
  arithmetic); divisions keep the source's operand structure.
* `Vec` indexing becomes `List.getD` / `List.set` (all uses are in bounds).
* The unseeded `thread_rng` becomes an explicit parameter: Kruskal receives
  the shuffled wall list (an arbitrary permutation of the wall list it built),
  Prim and DFS receive an arbitrary stream `picks : ℕ → ℕ` of random numbers,
  reduced modulo the current candidate count exactly where `gen_range` /
  `choose` draw a uniform index.
* The recursions that Rust runs unboundedly (`dfs_longest_path`, union-find
  `find`, the two generator `while` loops) are embedded with an explicit fuel
  counter returning `Option`; sufficiency of the chosen fuel is proved, so on
  the stated inputs the embedding computes exactly what the source computes.
-/

/-- One grid cell: coordinates, generation-time `visited` flag and the four
wall flags indexed `0 = North, 1 = East, 2 = South, 3 = West`
(`true` = wall present).  Mirrors `struct Cell`. -/
structure Cell where
  x : ℕ
  y : ℕ
  visited : Bool
  walls : Fin 4 → Bool

/-- The maze grid: `width * height` cells in row-major order.
Mirrors `struct Maze`. -/
structure Maze where
  width : ℕ
  height : ℕ
  cells : List Cell

/-- The metric snapshot; `f64` fields are modelled over `ℚ`.
Mirrors `struct MazeQuality`. -/
structure MazeQuality where
  dead_ends : ℕ
  longest_path : ℕ
  avg_path_length : ℚ
  branching_factor : ℚ

/-- Out-of-bounds placeholder for `getD`; every access proved about is in
bounds, where the source would index the `Vec` directly. -/
def defaultCell : Cell := ⟨0, 0, false, fun _ => true⟩

/-- `Maze::new`: all cells with all four walls up and `visited = false`,
built row by row (`y` outer, `x` inner). -/
def Maze.new (width height : ℕ) : Maze :=
  { width := width
    height := height
    cells := (List.range height).flatMap fun y =>
      (List.range width).map fun x => ⟨x, y, false, fun _ => true⟩ }

/-- `Maze::get_index`: row-major index `y * width + x`. -/
def Maze.get_index (m : Maze) (x y : ℕ) : ℕ :=
  y * m.width + x

/-- The cell stored at coordinates `(x, y)`. -/
def Maze.cellAt (m : Maze) (x y : ℕ) : Cell :=
  m.cells.getD (m.get_index x y) defaultCell

/-- Clear one wall flag of a cell. -/
def clearWall (c : Cell) (i : Fin 4) : Cell :=
  { c with walls := Function.update c.walls i false }

/-- Clear wall `i` of the cell at list index `idx`. -/
def Maze.clearWallAt (m : Maze) (idx : ℕ) (i : Fin 4) : Maze :=
  { m with cells := m.cells.set idx (clearWall (m.cells.getD idx defaultCell) i) }

/-- `Maze::remove_wall`: clears the two facing wall flags of the two cells,
branching on the relative position exactly as the source does. -/
def Maze.remove_wall (m : Maze) (x1 y1 x2 y2 : ℕ) : Maze :=
  let idx1 := m.get_index x1 y1
  let idx2 := m.get_index x2 y2
  if y1 < y2 then (m.clearWallAt idx1 2).clearWallAt idx2 0
  else if y2 < y1 then (m.clearWallAt idx1 0).clearWallAt idx2 2
  else if x1 < x2 then (m.clearWallAt idx1 1).clearWallAt idx2 3
  else (m.clearWallAt idx1 3).clearWallAt idx2 1

/-- `cell.walls.iter().filter(|&&wall| wall).count()`: number of wall flags
that are `true`. -/
def wallCount (c : Cell) : ℕ :=
  (List.finRange 4).countP fun i => c.walls i

/-- `Maze::count_dead_ends`: cells with exactly 3 of their 4 walls present. -/
def Maze.count_dead_ends (m : Maze) : ℕ :=
  (m.cells.filter fun c => wallCount c == 3).length

/-- `total_branches` of `Maze::calculate_branching_factor`: the open-passage
count `4 - #walls` summed over all cells. -/
def Maze.totalBranches (m : Maze) : ℕ :=
  (m.cells.map fun c => 4 - wallCount c).sum

/-- `Maze::calculate_branching_factor` (`f64` modelled over `ℚ`). -/
def Maze.calculate_branching_factor (m : Maze) : ℚ :=
  (m.totalBranches : ℚ) / ((m.width * m.height : ℕ) : ℚ)

/-- `calculate_quality_index` (`f64` modelled over `ℚ`); the `let` names
follow the source (`dead_end_ratio` is shortened to `deFrac`, and so on). -/
def calculate_quality_index (quality : MazeQuality) (maze_size : ℕ) : ℚ :=
  let deFrac : ℚ := (quality.dead_ends : ℚ) / (maze_size : ℚ)
  let plFrac : ℚ := (quality.longest_path : ℚ) / (maze_size : ℚ)
  let normalized_avg_path : ℚ := quality.avg_path_length / (maze_size : ℚ)
  let w_dead_ends : ℚ := 25 / 100
  let w_longest_path : ℚ := 3 / 10
  let w_avg_path : ℚ := 25 / 100
  let w_branching : ℚ := 2 / 10
  (1 - deFrac) * w_dead_ends
    + plFrac * w_longest_path
    + normalized_avg_path * w_avg_path
    + quality.branching_factor * w_branching

/-! ## Longest-path search (`Maze::longest_path_from` / `dfs_longest_path`)

The `visited` matrix `Vec<Vec<bool>>` becomes `List (List Bool)`, indexed
`[y][x]`.  The unbounded Rust recursion carries an explicit fuel; `none`
marks fuel exhaustion (proved unreachable for fuel `width * height`). -/

/-- `visited[y][x]` (out of bounds reads `false`; all uses are in bounds). -/
def visGet (vis : List (List Bool)) (y x : ℕ) : Bool :=
  (vis.getD y []).getD x false

/-- `visited[y][x] = b`. -/
def visSet (vis : List (List Bool)) (y x : ℕ) (b : Bool) : List (List Bool) :=
  vis.set y ((vis.getD y []).set x b)

/-- The direction table `[(0, -1), (1, 0), (0, 1), (-1, 0)]` shared by
`dfs_longest_path` and `dfs`; index `i` is also the wall index. -/
def dirDelta : Fin 4 → ℤ × ℤ
  | 0 => (0, -1)
  | 1 => (1, 0)
  | 2 => (0, 1)
  | 3 => (-1, 0)

mutual

/-- `Maze::dfs_longest_path`: marks `(x, y)` visited, explores the four
directions, unmarks, and returns `(max_length, path_count)` together with the
final visited matrix (the source mutates it in place). -/
def dfsLP (m : Maze) (fuel x y : ℕ) (visited : List (List Bool)) (length : ℕ) :
    Option (ℕ × ℕ × List (List Bool)) :=
  match fuel with
  | 0 => none
  | fuel' + 1 =>
    match dfsDirs m fuel' x y length (List.finRange 4) length 0 (visSet visited y x true) with
    | none => none
    | some (maxLen, cnt, visited2) =>
      some (maxLen, (if cnt = 0 then 1 else cnt), visSet visited2 y x false)
termination_by (fuel, 0)

/-- The `for (i, &(dx, dy)) in directions.iter().enumerate()` loop body of
`dfs_longest_path`, threading `(max_length, path_count, visited)`. -/
def dfsDirs (m : Maze) (fuel x y length : ℕ) (dirs : List (Fin 4))
    (maxLen cnt : ℕ) (visited : List (List Bool)) :
    Option (ℕ × ℕ × List (List Bool)) :=
  match dirs with
  | [] => some (maxLen, cnt, visited)
  | i :: rest =>
    let nx : ℤ := (x : ℤ) + (dirDelta i).1
    let ny : ℤ := (y : ℤ) + (dirDelta i).2
    if 0 ≤ nx ∧ nx < (m.width : ℤ) ∧ 0 ≤ ny ∧ ny < (m.height : ℤ) then
      if (m.cellAt x y).walls i = false ∧ visGet visited ny.toNat nx.toNat = false then
        match dfsLP m fuel nx.toNat ny.toNat visited (length + 1) with
        | none => none
        | some (subLen, subCnt, visited2) =>
          dfsDirs m fuel x y length rest (max maxLen subLen) (cnt + subCnt) visited2
      else dfsDirs m fuel x y length rest maxLen cnt visited
    else dfsDirs m fuel x y length rest maxLen cnt visited
termination_by (fuel, dirs.length + 1)

end

/-- `Maze::longest_path_from`: fresh all-`false` visited matrix, then the
recursive search; fuel `width * height` (proved sufficient). -/
def Maze.longest_path_from (m : Maze) (start_x start_y : ℕ) : Option (ℕ × ℕ) :=
  let visited := List.replicate m.height (List.replicate m.width false)
  (dfsLP m (m.width * m.height) start_x start_y visited 0).map fun r => (r.1, r.2.1)

/-- The `for start_cell in &self.cells` loop of `Maze::measure_paths`,
threading `(longest_path, total_path_length, total_paths)`. -/
def measurePathsAux (m : Maze) : List Cell → ℕ → ℕ → ℕ → Option (ℕ × ℕ × ℕ)
  | [], longest, totalLen, totalPaths => some (longest, totalLen, totalPaths)
  | c :: rest, longest, totalLen, totalPaths =>
    match m.longest_path_from c.x c.y with
    | none => none
    | some (pl, pc) =>
      measurePathsAux m rest (max longest pl) (totalLen + pl) (totalPaths + pc)

/-- `Maze::measure_paths`. -/
def Maze.measure_paths (m : Maze) : Option (ℕ × ℕ × ℕ) :=
  measurePathsAux m m.cells 0 0 0

/-- `Maze::measure_quality` (`f64` division modelled over `ℚ`). -/
def Maze.measure_quality (m : Maze) : Option MazeQuality :=
  m.measure_paths.map fun r =>
    { dead_ends := m.count_dead_ends
      longest_path := r.1
      avg_path_length := (r.2.1 : ℚ) / (r.2.2 : ℚ)
      branching_factor := m.calculate_branching_factor }

/-! ## The Kruskal generator and its union-find -/

/-- `find`: path-compressing root lookup, fuel-bounded (the source recursion
is unbounded; fuel `sets.len() + 1` is proved sufficient on rooted forests).
Returns the updated `sets` and the root. -/
def findF : ℕ → List ℕ → ℕ → Option (List ℕ × ℕ)
  | 0, _, _ => none
  | fuel + 1, sets, x =>
    if sets.getD x x = x then some (sets, x)
    else
      match findF fuel sets (sets.getD x x) with
      | none => none
      | some (sets2, r) => some (sets2.set x r, r)

/-- `union`: two root lookups, then point one root at the other. -/
def unionF (sets : List ℕ) (x y : ℕ) : Option (List ℕ) :=
  match findF (sets.length + 1) sets x with
  | none => none
  | some (s1, root_x) =>
    match findF (s1.length + 1) s1 y with
    | none => none
    | some (s2, root_y) => some (s2.set root_x root_y)

/-- The candidate wall list built by `kruskal`: for each cell (row-major) its
East wall (if `x < width - 1`) then its South wall (if `y < height - 1`). -/
def wallList (width height : ℕ) : List (ℕ × ℕ × ℕ × ℕ) :=
  (List.range height).flatMap fun y =>
    (List.range width).flatMap fun x =>
      (if x < width - 1 then [(x, y, x + 1, y)] else [])
        ++ (if y < height - 1 then [(x, y, x, y + 1)] else [])

/-- One iteration of the `for (x1, y1, x2, y2) in walls` loop of `kruskal`. -/
def kruskalStep (st : Maze × List ℕ) (e : ℕ × ℕ × ℕ × ℕ) : Option (Maze × List ℕ) :=
  let idx1 := st.1.get_index e.1 e.2.1
  let idx2 := st.1.get_index e.2.2.1 e.2.2.2
  match findF (st.2.length + 1) st.2 idx1 with
  | none => none
  | some (s1, set1) =>
    match findF (s1.length + 1) s1 idx2 with
    | none => none
    | some (s2, set2) =>
      if set1 ≠ set2 then
        match unionF s2 set1 set2 with
        | none => none
        | some s3 => some (st.1.remove_wall e.1 e.2.1 e.2.2.1 e.2.2.2, s3)
      else some (st.1, s2)

/-- The shuffled-wall loop of `kruskal`. -/
def kruskalLoop : List (ℕ × ℕ × ℕ × ℕ) → Maze × List ℕ → Option (Maze × List ℕ)
  | [], st => some st
  | e :: rest, st =>
    match kruskalStep st e with
    | none => none
    | some st2 => kruskalLoop rest st2

/-- `kruskal`, parameterized by the result `shuffled` of the uniform shuffle
(theorems quantify over every permutation of `wallList width height`).
`sets` starts as the identity on `0 .. width * height`. -/
def kruskal (m : Maze) (shuffled : List (ℕ × ℕ × ℕ × ℕ)) : Option Maze :=
  (kruskalLoop shuffled (m, List.range (m.width * m.height))).map (·.1)

/-! ## The Prim generator -/

/-- Mark the cell at list index `idx` visited. -/
def Maze.setVisitedAt (m : Maze) (idx : ℕ) : Maze :=
  { m with
    cells := m.cells.set idx { m.cells.getD idx defaultCell with visited := true } }

/-- `Vec::swap_remove(i)`: returns the element at `i`; the remaining list has
the last element moved into slot `i`. -/
def swapRemove (l : List (ℕ × ℕ)) (i : ℕ) : (ℕ × ℕ) × List (ℕ × ℕ) :=
  (l.getD i (0, 0), (l.set i (l.getLast?.getD (0, 0))).dropLast)

/-- The `for &(nx, ny) in &neighbors` loop of `prim`: every in-bounds
unvisited neighbor gets its wall removed, is marked visited and is pushed on
the frontier.  `usize::wrapping_sub(1)` at 0 yields a huge value failing
`< width`; modelled by signed candidate coordinates with a `0 ≤` check. -/
def primNb (st : Maze × List (ℕ × ℕ)) (x y : ℕ) :
    List (ℤ × ℤ) → Maze × List (ℕ × ℕ)
  | [] => st
  | (nxi, nyi) :: rest =>
    if 0 ≤ nxi ∧ nxi < (st.1.width : ℤ) ∧ 0 ≤ nyi ∧ nyi < (st.1.height : ℤ) then
      let nx := nxi.toNat
      let ny := nyi.toNat
      let n_idx := st.1.get_index nx ny
      if (st.1.cells.getD n_idx defaultCell).visited = false then
        primNb ((st.1.remove_wall x y nx ny).setVisitedAt n_idx, st.2 ++ [(nx, ny)])
          x y rest
      else primNb st x y rest
    else primNb st x y rest

/-- The `while !frontier.is_empty()` loop of `prim`; `picks t % len` models
`rng.gen_range(0..len)` (every sequence of valid draws is realized by some
`picks`).  Fuel-bounded, `none` = fuel exhaustion (proved unreachable). -/
def primLoop (picks : ℕ → ℕ) : ℕ → ℕ → Maze → List (ℕ × ℕ) → Option Maze
  | 0, _, _, _ => none
  | fuel + 1, t, m, frontier =>
    if frontier.isEmpty then some m
    else
      let p := swapRemove frontier (picks t % frontier.length)
      let x := p.1.1
      let y := p.1.2
      let st := primNb (m, p.2) x y
        [((x : ℤ), (y : ℤ) - 1), ((x : ℤ) + 1, (y : ℤ)),
         ((x : ℤ), (y : ℤ) + 1), ((x : ℤ) - 1, (y : ℤ))]
      primLoop picks fuel (t + 1) st.1 st.2

/-- `prim`: random start cell `(start_x, start_y)`, marked visited and seeded
as the frontier. -/
def prim (m : Maze) (start_x start_y : ℕ) (picks : ℕ → ℕ) : Option Maze :=
  let m0 := m.setVisitedAt (m.get_index start_x start_y)
  primLoop picks (2 * (m.width * m.height) + 1) 0 m0 [(start_x, start_y)]

/-! ## The DFS (randomized backtracker) generator -/

/-- The unvisited in-bounds neighbor list built each iteration of `dfs`. -/
def dfsNeighbors (m : Maze) (x y : ℕ) : List (ℕ × ℕ) :=
  (List.finRange 4).filterMap fun i =>
    let nx : ℤ := (x : ℤ) + (dirDelta i).1
    let ny : ℤ := (y : ℤ) + (dirDelta i).2
    if 0 ≤ nx ∧ nx < (m.width : ℤ) ∧ 0 ≤ ny ∧ ny < (m.height : ℤ) then
      if (m.cells.getD (m.get_index nx.toNat ny.toNat) defaultCell).visited = false
      then some (nx.toNat, ny.toNat) else none
    else none

/-- The `while let Some(&(x, y)) = stack.last()` loop of `dfs`; the `Vec`
stack is modelled with the list head as top.  `neighbors.choose(&mut rng)`
draws index `picks t % neighbors.length`. -/
def dfsLoop (picks : ℕ → ℕ) : ℕ → ℕ → Maze → List (ℕ × ℕ) → Option Maze
  | 0, _, _, _ => none
  | fuel + 1, t, m, stack =>
    match stack with
    | [] => some m
    | (x, y) :: rest =>
      let neighbors := dfsNeighbors m x y
      if neighbors.isEmpty then dfsLoop picks fuel (t + 1) m rest
      else
        let p := neighbors.getD (picks t % neighbors.length) (0, 0)
        dfsLoop picks fuel (t + 1)
          ((m.remove_wall x y p.1 p.2).setVisitedAt (m.get_index p.1 p.2))
          (p :: (x, y) :: rest)

/-- `dfs`: starts at cell `(0, 0)` (list index 0), marked visited. -/
def dfs (m : Maze) (picks : ℕ → ℕ) : Option Maze :=
  dfsLoop picks (2 * (m.width * m.height) + 1) 0 (m.setVisitedAt 0) [(0, 0)]

/-! ## Specification-level geometry: grid, adjacency, passage graph -/

/-- `(x, y)` is a cell of a `w × h` grid. -/
def inGrid (w h : ℕ) (p : ℕ × ℕ) : Prop :=
  p.1 < w ∧ p.2 < h

instance (w h : ℕ) (p : ℕ × ℕ) : Decidable (inGrid w h p) :=
  inferInstanceAs (Decidable (_ ∧ _))

/-- `q` is the neighbor of `p` in direction `i`. -/
def adjDir (p q : ℕ × ℕ) (i : Fin 4) : Prop :=
  (p.1 : ℤ) + (dirDelta i).1 = (q.1 : ℤ) ∧ (p.2 : ℤ) + (dirDelta i).2 = (q.2 : ℤ)

instance (p q : ℕ × ℕ) (i : Fin 4) : Decidable (adjDir p q i) :=
  inferInstanceAs (Decidable (_ ∧ _))

/-- The opposing direction (`North ↔ South`, `East ↔ West`). -/
def oppDir : Fin 4 → Fin 4
  | 0 => 2
  | 1 => 3
  | 2 => 0
  | 3 => 1

/-- The wall between the adjacent cells `p` and `q` has been removed: both
facing wall flags are down. -/
def openAdj (m : Maze) (p q : ℕ × ℕ) : Prop :=
  ∃ i : Fin 4, adjDir p q i ∧ (m.cellAt p.1 p.2).walls i = false ∧
    (m.cellAt q.1 q.2).walls (oppDir i) = false

instance (m : Maze) (p q : ℕ × ℕ) : Decidable (openAdj m p q) :=
  inferInstanceAs (Decidable (∃ _, _))

/-- One step between in-grid cells through an open passage. -/
def gridStep (m : Maze) (p q : ℕ × ℕ) : Prop :=
  inGrid m.width m.height p ∧ inGrid m.width m.height q ∧ openAdj m p q

/-- Reachability through open passages (reflexive-transitive closure). -/
def mazeReach (m : Maze) : ℕ × ℕ → ℕ × ℕ → Prop :=
  Relation.ReflTransGen (gridStep m)

/-- The open-passage graph of `m` on the vertex set of a `w × h` grid
(stated with explicit dimensions so that the vertex type is stable across
the generator loops, whose mazes keep `width = w`, `height = h`). -/
def mazeGraphWH (w h : ℕ) (m : Maze) : SimpleGraph (Fin w × Fin h) :=
  SimpleGraph.fromRel fun a b => openAdj m (a.1.val, a.2.val) (b.1.val, b.2.val)

/-- The open-passage graph on the cells of the maze. -/
def mazeGraph (m : Maze) : SimpleGraph (Fin m.width × Fin m.height) :=
  mazeGraphWH m.width m.height m

instance (w h : ℕ) (m : Maze) : DecidableRel (mazeGraphWH w h m).Adj := fun _a _b =>
  inferInstanceAs (Decidable (_ ∧ (_ ∨ _)))

instance (m : Maze) : DecidableRel (mazeGraph m).Adj :=
  inferInstanceAs (DecidableRel (mazeGraphWH m.width m.height m).Adj)

/-- The cells of a `w × h` grid as a finset. -/
def gridFinset (w h : ℕ) : Finset (ℕ × ℕ) :=
  Finset.range w ×ˢ Finset.range h

/-- The far cell of a wall slot: `false` = East wall of `p`, `true` = South
wall of `p` (the two orientations `kruskal` enumerates). -/
def slotEnd (p : ℕ × ℕ) (b : Bool) : ℕ × ℕ :=
  if b then (p.1, p.2 + 1) else (p.1 + 1, p.2)

/-- All internal wall slots of a `w × h` grid, each wall exactly once. -/
def slots (w h : ℕ) : Finset ((ℕ × ℕ) × Bool) :=
  ((Finset.range w ×ˢ Finset.range h) ×ˢ (Finset.univ : Finset Bool)).filter
    fun s => inGrid w h (slotEnd s.1 s.2)

/-- The set of removed (open) walls of a maze, each wall exactly once. -/
def removedWalls (m : Maze) : Finset ((ℕ × ℕ) × Bool) :=
  (slots m.width m.height).filter fun s => openAdj m s.1 (slotEnd s.1 s.2)

/-- The in-grid cells whose `visited` flag is set. -/
def visitedCells (m : Maze) : Finset (ℕ × ℕ) :=
  (gridFinset m.width m.height).filter fun p => (m.cellAt p.1 p.2).visited = true

/-- The open directions of a maze: in-grid cells paired with a direction
whose wall flag is down. -/
def openDirs (m : Maze) : Finset ((ℕ × ℕ) × Fin 4) :=
  ((gridFinset m.width m.height) ×ˢ (Finset.univ : Finset (Fin 4))).filter
    fun pi => (m.cellAt pi.1.1 pi.1.2).walls pi.2 = false

/-- The wall slot crossed by an open direction. -/
def dirSlot (pi : (ℕ × ℕ) × Fin 4) : (ℕ × ℕ) × Bool :=
  match pi.2 with
  | 0 => ((pi.1.1, pi.1.2 - 1), true)
  | 1 => (pi.1, false)
  | 2 => (pi.1, true)
  | 3 => ((pi.1.1 - 1, pi.1.2), false)

/-- Structural well-formedness of the cell list: row-major layout with
matching stored coordinates.  `Maze::new` establishes it; the generators only
rewrite `visited` and wall flags, so it is preserved. -/
structure MazeWF (m : Maze) : Prop where
  len : m.cells.length = m.width * m.height
  coordX : ∀ p, inGrid m.width m.height p → (m.cellAt p.1 p.2).x = p.1
  coordY : ∀ p, inGrid m.width m.height p → (m.cellAt p.1 p.2).y = p.2

/-- Wall symmetry: facing flags of adjacent in-grid cells agree. -/
def SymWalls (m : Maze) : Prop :=
  ∀ p q i, inGrid m.width m.height p → inGrid m.width m.height q → adjDir p q i →
    (m.cellAt p.1 p.2).walls i = (m.cellAt q.1 q.2).walls (oppDir i)

/-- Boundary closure: a wall flag can only be down toward an in-grid cell. -/
def BoundaryClosed (m : Maze) : Prop :=
  ∀ p i, inGrid m.width m.height p → (m.cellAt p.1 p.2).walls i = false →
    ∃ q, inGrid m.width m.height q ∧ adjDir p q i

/-! ## Union-find root theory (specification side) -/

/-- The parent of `x` (out-of-range entries are their own parents). -/
def parUF (s : List ℕ) (x : ℕ) : ℕ :=
  s.getD x x

/-- `x` is a root. -/
def isRootUF (s : List ℕ) (x : ℕ) : Prop :=
  parUF s x = x

instance (s : List ℕ) (x : ℕ) : Decidable (isRootUF s x) :=
  inferInstanceAs (Decidable (_ = _))

/-- The parent chain from `x` reaches the root `r`. -/
def ReachesUF (s : List ℕ) (x r : ℕ) : Prop :=
  ∃ k, (parUF s)^[k] x = r ∧ isRootUF s r

/-- Every parent chain terminates (the parent graph is a rooted forest). -/
def RootedUF (s : List ℕ) : Prop :=
  ∀ x, ∃ r, ReachesUF s x r

/-- Fuel-bounded root climb (specification-side, total). -/
def rootAux : ℕ → List ℕ → ℕ → ℕ
  | 0, _, x => x
  | fuel + 1, s, x => if parUF s x = x then x else rootAux fuel s (parUF s x)

/-- The root of `x` (fuel `s.length + 1` always suffices on rooted forests). -/
def rootD (s : List ℕ) (x : ℕ) : ℕ :=
  rootAux (s.length + 1) s x

/-- Size/bounds discipline of the Kruskal `sets` vector. -/
def BoundedUF (n : ℕ) (s : List ℕ) : Prop :=
  s.length = n ∧ ∀ i, i < n → s.getD i 0 < n

/-- Combined union-find invariant. -/
def UFok (n : ℕ) (s : List ℕ) : Prop :=
  BoundedUF n s ∧ RootedUF s

/-- Number of distinct root representatives among the `n` cell indices. -/
def rootsCard (n : ℕ) (s : List ℕ) : ℕ :=
  ((Finset.range n).image (rootD s)).card

/-- Row-major index of a coordinate pair. -/
def pidx (w : ℕ) (p : ℕ × ℕ) : ℕ :=
  p.2 * w + p.1

/-! ## Terminal-path specification (for `measure_paths`) -/

/-- One step of the exhaustive path enumeration of `dfs_longest_path`: the
search inspects the *source* cell's wall flag and the target's bounds. -/
def stepOpen (m : Maze) (p q : ℕ × ℕ) : Prop :=
  ∃ i : Fin 4, adjDir p q i ∧ inGrid m.width m.height q ∧
    (m.cellAt p.1 p.2).walls i = false

instance (m : Maze) (p q : ℕ × ℕ) : Decidable (stepOpen m p q) :=
  inferInstanceAs (Decidable (∃ _, _))

/-- All lists of length at most `k` with entries in `u`. -/
def listsLE (u : Finset (ℕ × ℕ)) : ℕ → Finset (List (ℕ × ℕ))
  | 0 => {[]}
  | k + 1 => {[]} ∪ u.biUnion fun c => (listsLE u k).image (c :: ·)

/-- Consecutive entries of the list are joined by `stepOpen` steps. -/
def chainOpen (m : Maze) : List (ℕ × ℕ) → Bool
  | [] => true
  | [_] => true
  | p :: q :: rest => decide (stepOpen m p q) && chainOpen m (q :: rest)

/-- Modelled from the spec: the terminal (maximal simple) paths of the
depth-first enumeration that start at `s` and avoid the cell set `V`: simple
`stepOpen`-chains from `s` whose last cell has no fresh successor.  `V = ∅`
gives the terminal paths counted by `measure_paths`. -/
def termPaths (m : Maze) (s : ℕ × ℕ) (V : Finset (ℕ × ℕ)) : Finset (List (ℕ × ℕ)) :=
  (listsLE (gridFinset m.width m.height) (m.width * m.height)).filter fun l =>
    l.head? = some s ∧ chainOpen m l = true ∧ l.Nodup ∧ (∀ a ∈ l, a ∉ V) ∧
      ∀ q ∈ gridFinset m.width m.height,
        ¬ (stepOpen m (l.getLast?.getD (0, 0)) q ∧ q ∉ V ∧ q ∉ l)

/-- Length (in edges) of the longest terminal path from `s` avoiding `V`. -/
def termSup (m : Maze) (s : ℕ × ℕ) (V : Finset (ℕ × ℕ)) : ℕ :=
  (termPaths m s V).sup fun l => l.length - 1

/-- Modelled from the spec: the quantity the specification claims
`total_path_length` accumulates — the sum, over every start cell, of the
lengths of *all* terminal paths from that start. -/
def sumAllTerminalLens (m : Maze) : ℕ :=
  ∑ p ∈ gridFinset m.width m.height, ∑ l ∈ termPaths m p ∅, (l.length - 1)

/-- The cell set of a visited matrix. -/
def visSetOf (w h : ℕ) (vis : List (List Bool)) : Finset (ℕ × ℕ) :=
  (gridFinset w h).filter fun p => visGet vis p.2 p.1 = true

/-- Number of in-grid cells still unvisited in a visited matrix. -/
def visFalseCount (w h : ℕ) (vis : List (List Bool)) : ℕ :=
  ((gridFinset w h).filter fun p => visGet vis p.2 p.1 = false).card

/-- Well-formed `h × w` visited matrix. -/
def visWF (w h : ℕ) (vis : List (List Bool)) : Prop :=
  vis.length = h ∧ ∀ row ∈ vis, row.length = w

/-- A sequence of `remove_wall` calls, applied in order. -/
def applyRemoves (m : Maze) : List ((ℕ × ℕ) × (ℕ × ℕ)) → Maze
  | [] => m
  | c :: rest => applyRemoves (m.remove_wall c.1.1 c.1.2 c.2.1 c.2.2) rest

/-! ## Invariants threaded through the generator loops -/

/-- `p` and `q` are grid neighbors. -/
def gridNbr (p q : ℕ × ℕ) : Prop :=
  ∃ i : Fin 4, adjDir p q i

instance (p q : ℕ × ℕ) : Decidable (gridNbr p q) :=
  inferInstanceAs (Decidable (∃ _, _))

/-- In-grid cells not yet visited (fuel measure for Prim/DFS). -/
def unvisitedCount (m : Maze) : ℕ :=
  ((gridFinset m.width m.height).filter
    fun p => (m.cellAt p.1 p.2).visited = false).card

/-- Growing-tree invariant shared by the Prim and DFS loops: the open
passages form a tree on the visited cells, grown from the start cell `p0`. -/
structure GTInv (w h : ℕ) (p0 : ℕ × ℕ) (m : Maze) : Prop where
  dw : m.width = w
  dh : m.height = h
  wf : MazeWF m
  sym : SymWalls m
  bnd : BoundaryClosed m
  within : ∀ p q, inGrid w h p → inGrid w h q → openAdj m p q →
    (m.cellAt p.1 p.2).visited = true ∧ (m.cellAt q.1 q.2).visited = true
  reach : ∀ p ∈ visitedCells m, mazeReach m p0 p
  start : p0 ∈ visitedCells m
  count : (removedWalls m).card + 1 = (visitedCells m).card
  acyc : (mazeGraphWH w h m).IsAcyclic

/-- Kruskal loop invariant: union-find classes coincide with passage
components, and each accepted wall merged two classes. -/
structure KInv (w h : ℕ) (st : Maze × List ℕ) : Prop where
  dw : st.1.width = w
  dh : st.1.height = h
  wf : MazeWF st.1
  sym : SymWalls st.1
  bnd : BoundaryClosed st.1
  uf : UFok (w * h) st.2
  rootIff : ∀ p q, inGrid w h p → inGrid w h q →
    (rootD st.2 (pidx w p) = rootD st.2 (pidx w q) ↔ mazeReach st.1 p q)
  count : (removedWalls st.1).card + rootsCard (w * h) st.2 = w * h
  acyc : (mazeGraphWH w h st.1).IsAcyclic

/-- The spanning-tree property claimed for all three generators. -/
def IsPerfect (m : Maze) : Prop :=
  (removedWalls m).card = m.width * m.height - 1 ∧
    (mazeGraph m).Connected ∧ (mazeGraph m).IsAcyclic

/-- One step between in-grid neighbor cells (walls ignored): the edge
relation of the full grid graph. -/
def gridAdjStep (w h : ℕ) (a b : ℕ × ℕ) : Prop :=
  inGrid w h a ∧ inGrid w h b ∧ gridNbr a b

/-- A grid coordinate as a vertex of the `w × h` graph. -/
def toV {w h : ℕ} (p : ℕ × ℕ) (hp : inGrid w h p) : Fin w × Fin h :=
  (⟨p.1, hp.1⟩, ⟨p.2, hp.2⟩)

/-- The coordinates of a vertex. -/
def ofV {w h : ℕ} (a : Fin w × Fin h) : ℕ × ℕ :=
  (a.1.val, a.2.val)

/-! ## Basic lemmas: directions, list access, `Maze::new` -/

theorem finRange_four : (List.finRange 4 : List (Fin 4)) = [0, 1, 2, 3] := rfl

theorem oppDir_oppDir (i : Fin 4) : oppDir (oppDir i) = i := by
  fin_cases i <;> rfl

theorem adjDir_symm {p q : ℕ × ℕ} {i : Fin 4} (h : adjDir p q i) :
    adjDir q p (oppDir i) := by
  fin_cases i <;>
    simp only [adjDir, dirDelta, oppDir] at h ⊢ <;> omega

theorem adjDir_ne {p q : ℕ × ℕ} {i : Fin 4} (h : adjDir p q i) : p ≠ q := by
  intro heq
  subst heq
  fin_cases i <;> simp only [adjDir, dirDelta] at h <;> omega

theorem adjDir_uniq {p q : ℕ × ℕ} {i j : Fin 4} (hi : adjDir p q i)
    (hj : adjDir p q j) : i = j := by
  fin_cases i <;> fin_cases j <;> first
    | rfl
    | (exfalso; simp only [adjDir, dirDelta] at hi hj; omega)

theorem openAdj_symm {m : Maze} {p q : ℕ × ℕ} (h : openAdj m p q) :
    openAdj m q p := by
  obtain ⟨i, ha, h1, h2⟩ := h
  exact ⟨oppDir i, adjDir_symm ha, h2, by rwa [oppDir_oppDir]⟩

theorem openAdj_ne {m : Maze} {p q : ℕ × ℕ} (h : openAdj m p q) : p ≠ q :=
  adjDir_ne h.choose_spec.1

theorem getD_set_self {α} (l : List α) (i : ℕ) (a d : α) (h : i < l.length) :
    (l.set i a).getD i d = a := by
  simp [List.getD_eq_getElem?_getD, List.getElem?_set, h]

theorem getD_set_ne {α} (l : List α) {i j : ℕ} (a d : α) (h : i ≠ j) :
    (l.set i a).getD j d = l.getD j d := by
  simp [List.getD_eq_getElem?_getD, List.getElem?_set, h]

theorem flatMapRange_length {α} (w h : ℕ) (f : ℕ → ℕ → α) :
    (((List.range h).flatMap fun y => (List.range w).map fun x => f x y)).length
      = h * w := by
  rw [List.length_flatMap]
  have : (List.map (List.length ∘ fun y => (List.range w).map fun x => f x y)
      (List.range h)) = List.replicate h w := by
    rw [show (List.length ∘ fun y => (List.range w).map fun x => f x y)
        = fun _ => w by funext y; simp]
    simp
  rw [this, List.sum_replicate, smul_eq_mul]

theorem flatMapRange_getD {α} (w : ℕ) (f : ℕ → ℕ → α) (d : α) :
    ∀ h y x : ℕ, x < w → y < h →
      (((List.range h).flatMap fun y => (List.range w).map fun x => f x y)).getD
        (y * w + x) d = f x y := by
  intro h
  induction h with
  | zero => intro y x _ hy; omega
  | succ n ih =>
    intro y x hx hy
    rw [List.range_succ, List.flatMap_append]
    rcases Nat.lt_or_ge y n with hyn | hyn
    · rw [List.getD_append]
      · exact ih y x hx hyn
      · rw [flatMapRange_length]
        calc y * w + x < y * w + w := by omega
        _ = (y + 1) * w := by ring
        _ ≤ n * w := Nat.mul_le_mul_right w (by omega)
    · have hyeq : y = n := by omega
      subst hyeq
      rw [List.getD_append_right]
      · rw [flatMapRange_length]
        have hxx : y * w + x - y * w = x := by omega
        rw [hxx]
        simp [List.getD_eq_getElem?_getD, List.getElem?_map, List.getElem?_range hx]
      · rw [flatMapRange_length]; omega

theorem new_length (w h : ℕ) : (Maze.new w h).cells.length = w * h := by
  show (((List.range h).flatMap fun y =>
    (List.range w).map fun x => (⟨x, y, false, fun _ => true⟩ : Cell))).length = w * h
  rw [flatMapRange_length]; ring

theorem cellAt_new {w h : ℕ} {p : ℕ × ℕ} (hp : inGrid w h p) :
    (Maze.new w h).cellAt p.1 p.2 = ⟨p.1, p.2, false, fun _ => true⟩ := by
  show (((List.range h).flatMap fun y =>
      (List.range w).map fun x => (⟨x, y, false, fun _ => true⟩ : Cell))).getD
    (p.2 * w + p.1) defaultCell = _
  exact flatMapRange_getD w _ defaultCell h p.2 p.1 hp.1 hp.2

theorem pidx_lt {w h : ℕ} {p : ℕ × ℕ} (hp : inGrid w h p) : pidx w p < w * h := by
  have h1 := hp.1
  have h2 := hp.2
  calc pidx w p < p.2 * w + w := by unfold pidx; omega
  _ = (p.2 + 1) * w := by ring
  _ ≤ h * w := Nat.mul_le_mul_right w (by omega)
  _ = w * h := by ring

theorem pidx_inj {w h : ℕ} {p q : ℕ × ℕ} (hp : inGrid w h p)
    (hq : inGrid w h q) (heq : pidx w p = pidx w q) : p = q := by
  have hw : 0 < w := lt_of_le_of_lt (Nat.zero_le _) hp.1
  have hmod : ∀ r : ℕ × ℕ, inGrid w h r → (pidx w r % w = r.1 ∧ pidx w r / w = r.2) := by
    intro r hr
    unfold pidx
    constructor
    · rw [Nat.add_comm, Nat.add_mul_mod_self_right, Nat.mod_eq_of_lt hr.1]
    · rw [Nat.add_comm, Nat.add_mul_div_right _ _ hw, Nat.div_eq_of_lt hr.1]
      omega
  obtain ⟨hm1, hd1⟩ := hmod p hp
  obtain ⟨hm2, hd2⟩ := hmod q hq
  have h1 : p.1 = q.1 := by rw [← hm1, ← hm2, heq]
  have h2 : p.2 = q.2 := by rw [← hd1, ← hd2, heq]
  exact Prod.ext h1 h2

theorem get_index_pidx (m : Maze) (p : ℕ × ℕ) :
    m.get_index p.1 p.2 = pidx m.width p := rfl

/-! ## `remove_wall`: pointwise characterization and invariant preservation -/

theorem adjDir_fun {p q s : ℕ × ℕ} {i : Fin 4} (hq : adjDir p q i)
    (hs : adjDir p s i) : q = s := by
  have h1 : (q.1 : ℤ) = (s.1 : ℤ) := by rw [← hq.1, ← hs.1]
  have h2 : (q.2 : ℤ) = (s.2 : ℤ) := by rw [← hq.2, ← hs.2]
  exact Prod.ext (by omega) (by omega)

theorem clearWallAt_width (m : Maze) (idx : ℕ) (i : Fin 4) :
    (m.clearWallAt idx i).width = m.width := rfl

theorem clearWallAt_height (m : Maze) (idx : ℕ) (i : Fin 4) :
    (m.clearWallAt idx i).height = m.height := rfl

theorem clearWallAt_length (m : Maze) (idx : ℕ) (i : Fin 4) :
    (m.clearWallAt idx i).cells.length = m.cells.length := by
  show (m.cells.set _ _).length = _
  rw [List.length_set]

theorem remove_wall_width (m : Maze) (x1 y1 x2 y2 : ℕ) :
    (m.remove_wall x1 y1 x2 y2).width = m.width := by
  unfold Maze.remove_wall
  split <;> [rfl; (split <;> [rfl; (split <;> rfl)])]

theorem remove_wall_height (m : Maze) (x1 y1 x2 y2 : ℕ) :
    (m.remove_wall x1 y1 x2 y2).height = m.height := by
  unfold Maze.remove_wall
  split <;> [rfl; (split <;> [rfl; (split <;> rfl)])]

theorem remove_wall_length (m : Maze) (x1 y1 x2 y2 : ℕ) :
    (m.remove_wall x1 y1 x2 y2).cells.length = m.cells.length := by
  unfold Maze.remove_wall
  split <;> [skip; (split <;> [skip; (split <;> [skip; skip])])] <;>
    (rw [clearWallAt_length, clearWallAt_length])

theorem cellAt_clearWallAt (m : Maze) (idx : ℕ) (i : Fin 4) (p : ℕ × ℕ) :
    (m.clearWallAt idx i).cellAt p.1 p.2 =
      if pidx m.width p = idx ∧ idx < m.cells.length
      then clearWall (m.cells.getD idx defaultCell) i
      else m.cellAt p.1 p.2 := by
  have hcell : m.cellAt p.1 p.2 = m.cells.getD (pidx m.width p) defaultCell := rfl
  show (m.cells.set idx _).getD (pidx m.width p) defaultCell = _
  by_cases h2 : idx < m.cells.length
  · by_cases h1 : pidx m.width p = idx
    · subst h1
      rw [getD_set_self _ _ _ _ h2]
      simp [h2]
    · rw [getD_set_ne _ _ _ (fun hh => h1 hh.symm)]
      rw [if_neg (fun hh => h1 hh.1), hcell]
  · rw [List.set_eq_of_length_le (le_of_not_lt h2)]
    rw [if_neg (fun hh => h2 hh.2), hcell]

theorem twoClears_cellAt (m : Maze) {pa pb r : ℕ × ℕ} (ia ib : Fin 4)
    (ha : inGrid m.width m.height pa) (hb : inGrid m.width m.height pb)
    (hne : pa ≠ pb) (hlen : m.cells.length = m.width * m.height)
    (hr : inGrid m.width m.height r) :
    ((m.clearWallAt (m.get_index pa.1 pa.2) ia).clearWallAt
        (m.get_index pb.1 pb.2) ib).cellAt r.1 r.2 =
      if r = pa then clearWall (m.cellAt r.1 r.2) ia
      else if r = pb then clearWall (m.cellAt r.1 r.2) ib
      else m.cellAt r.1 r.2 := by
  have hpa_lt : pidx m.width pa < m.cells.length := by rw [hlen]; exact pidx_lt ha
  have hpb_lt : pidx m.width pb < m.cells.length := by rw [hlen]; exact pidx_lt hb
  have hidx_ne : pidx m.width pa ≠ pidx m.width pb := fun hh => hne (pidx_inj ha hb hh)
  have step1 : ∀ s : ℕ × ℕ,
      (m.clearWallAt (m.get_index pa.1 pa.2) ia).cellAt s.1 s.2 =
        if pidx m.width s = pidx m.width pa
        then clearWall (m.cells.getD (pidx m.width pa) defaultCell) ia
        else m.cellAt s.1 s.2 := by
    intro s
    rw [get_index_pidx, cellAt_clearWallAt]
    by_cases h1 : pidx m.width s = pidx m.width pa
    · simp [h1, hpa_lt]
    · simp [h1]
  have m1ok : (m.clearWallAt (m.get_index pa.1 pa.2) ia).width = m.width := rfl
  have m2eq : ((m.clearWallAt (m.get_index pa.1 pa.2) ia).clearWallAt
      (m.get_index pb.1 pb.2) ib).cellAt r.1 r.2 =
      if pidx m.width r = pidx m.width pb
      then clearWall ((m.clearWallAt (m.get_index pa.1 pa.2) ia).cells.getD
        (pidx m.width pb) defaultCell) ib
      else (m.clearWallAt (m.get_index pa.1 pa.2) ia).cellAt r.1 r.2 := by
    rw [show m.get_index pb.1 pb.2 = pidx m.width pb from rfl]
    rw [cellAt_clearWallAt]
    rw [show (m.clearWallAt (m.get_index pa.1 pa.2) ia).cells.length
      = m.cells.length from clearWallAt_length _ _ _]
    rw [show (m.clearWallAt (m.get_index pa.1 pa.2) ia).width = m.width from rfl]
    by_cases h1 : pidx m.width r = pidx m.width pb
    · simp [h1, hpb_lt]
    · simp [h1]
  rw [m2eq]
  by_cases h1 : r = pb
  · rw [if_pos (by rw [h1])]
    have hget : (m.clearWallAt (m.get_index pa.1 pa.2) ia).cells.getD
        (pidx m.width pb) defaultCell = m.cells.getD (pidx m.width pb) defaultCell := by
      show ((m.cells.set _ _).getD _ _) = _
      exact getD_set_ne _ _ _ hidx_ne
    rw [hget]
    have hrpa : r ≠ pa := fun hh => hne (hh.symm.trans h1)
    rw [if_neg hrpa, if_pos h1, h1]
    rfl
  · have hne1 : pidx m.width r ≠ pidx m.width pb := fun hh => h1 (pidx_inj hr hb hh)
    rw [if_neg hne1, step1 r]
    by_cases h2 : r = pa
    · subst h2
      rw [if_pos rfl, if_pos rfl]
      rfl
    · have hne2 : pidx m.width r ≠ pidx m.width pa := fun hh => h2 (pidx_inj hr ha hh)
      rw [if_neg hne2, if_neg h2, if_neg h1]

theorem oppDir_inj {i j : Fin 4} (h : oppDir i = oppDir j) : i = j := by
  have := congrArg oppDir h
  rwa [oppDir_oppDir, oppDir_oppDir] at this

theorem remove_wall_cellAt (m : Maze) {p q r : ℕ × ℕ} {i : Fin 4}
    (hadj : adjDir p q i) (hp : inGrid m.width m.height p)
    (hq : inGrid m.width m.height q) (hr : inGrid m.width m.height r)
    (hlen : m.cells.length = m.width * m.height) :
    (m.remove_wall p.1 p.2 q.1 q.2).cellAt r.1 r.2 =
      if r = p then clearWall (m.cellAt r.1 r.2) i
      else if r = q then clearWall (m.cellAt r.1 r.2) (oppDir i)
      else m.cellAt r.1 r.2 := by
  have hne := adjDir_ne hadj
  fin_cases i <;>
    obtain ⟨e1, e2⟩ := hadj <;>
    simp only [dirDelta] at e1 e2 <;>
    simp only [Maze.remove_wall]
  · rw [if_neg (show ¬ p.2 < q.2 by omega), if_pos (show q.2 < p.2 by omega)]
    exact twoClears_cellAt m 0 2 hp hq hne hlen hr
  · rw [if_neg (show ¬ p.2 < q.2 by omega), if_neg (show ¬ q.2 < p.2 by omega),
      if_pos (show p.1 < q.1 by omega)]
    exact twoClears_cellAt m 1 3 hp hq hne hlen hr
  · rw [if_pos (show p.2 < q.2 by omega)]
    exact twoClears_cellAt m 2 0 hp hq hne hlen hr
  · rw [if_neg (show ¬ p.2 < q.2 by omega), if_neg (show ¬ q.2 < p.2 by omega),
      if_neg (show ¬ p.1 < q.1 by omega)]
    exact twoClears_cellAt m 3 1 hp hq hne hlen hr

theorem remove_wall_walls (m : Maze) {p q r : ℕ × ℕ} {i : Fin 4}
    (hadj : adjDir p q i) (hp : inGrid m.width m.height p)
    (hq : inGrid m.width m.height q) (hr : inGrid m.width m.height r)
    (hlen : m.cells.length = m.width * m.height) (j : Fin 4) :
    ((m.remove_wall p.1 p.2 q.1 q.2).cellAt r.1 r.2).walls j =
      if (r = p ∧ j = i) ∨ (r = q ∧ j = oppDir i) then false
      else (m.cellAt r.1 r.2).walls j := by
  have hne := adjDir_ne hadj
  rw [remove_wall_cellAt m hadj hp hq hr hlen]
  have hne2 : q ≠ p := Ne.symm hne
  by_cases h1 : r = p
  · have h2 : r ≠ q := fun hh => hne (h1.symm.trans hh)
    rw [if_pos h1]
    by_cases h3 : j = i
    · simp [clearWall, Function.update_apply, h3, h1, h2, hne, hne2]
    · simp [clearWall, Function.update_apply, h3, h1, h2, hne, hne2]
  · rw [if_neg h1]
    by_cases h2 : r = q
    · rw [if_pos h2]
      by_cases h3 : j = oppDir i
      · simp [clearWall, Function.update_apply, h3, h1, h2, hne, hne2]
      · simp [clearWall, Function.update_apply, h3, h1, h2, hne, hne2]
    · rw [if_neg h2]
      simp [h1, h2]

theorem remove_wall_frame (m : Maze) {p q r : ℕ × ℕ} {i : Fin 4}
    (hadj : adjDir p q i) (hp : inGrid m.width m.height p)
    (hq : inGrid m.width m.height q) (hr : inGrid m.width m.height r)
    (hlen : m.cells.length = m.width * m.height) :
    ((m.remove_wall p.1 p.2 q.1 q.2).cellAt r.1 r.2).x = (m.cellAt r.1 r.2).x ∧
    ((m.remove_wall p.1 p.2 q.1 q.2).cellAt r.1 r.2).y = (m.cellAt r.1 r.2).y ∧
    ((m.remove_wall p.1 p.2 q.1 q.2).cellAt r.1 r.2).visited
      = (m.cellAt r.1 r.2).visited := by
  rw [remove_wall_cellAt m hadj hp hq hr hlen]
  split_ifs <;> simp [clearWall]

theorem remove_wall_MazeWF (m : Maze) {p q : ℕ × ℕ} {i : Fin 4}
    (hadj : adjDir p q i) (hp : inGrid m.width m.height p)
    (hq : inGrid m.width m.height q) (hwf : MazeWF m) :
    MazeWF (m.remove_wall p.1 p.2 q.1 q.2) := by
  constructor
  · rw [remove_wall_length, remove_wall_width, remove_wall_height]
    exact hwf.len
  · intro r hr
    rw [remove_wall_width, remove_wall_height] at hr
    rw [(remove_wall_frame m hadj hp hq hr hwf.len).1]
    exact hwf.coordX r hr
  · intro r hr
    rw [remove_wall_width, remove_wall_height] at hr
    rw [(remove_wall_frame m hadj hp hq hr hwf.len).2.1]
    exact hwf.coordY r hr

theorem remove_wall_SymWalls (m : Maze) {p q : ℕ × ℕ} {i : Fin 4}
    (hadj : adjDir p q i) (hp : inGrid m.width m.height p)
    (hq : inGrid m.width m.height q) (hlen : m.cells.length = m.width * m.height)
    (hsym : SymWalls m) : SymWalls (m.remove_wall p.1 p.2 q.1 q.2) := by
  intro a b j ha hb hab
  rw [remove_wall_width, remove_wall_height] at ha hb
  rw [remove_wall_walls m hadj hp hq ha hlen, remove_wall_walls m hadj hp hq hb hlen]
  by_cases c1 : (a = p ∧ j = i) ∨ (a = q ∧ j = oppDir i)
  · rw [if_pos c1, if_pos ?side]
    case side =>
      rcases c1 with ⟨ha1, hj1⟩ | ⟨ha1, hj1⟩
      · subst ha1; subst hj1
        exact Or.inr ⟨adjDir_fun hab hadj, rfl⟩
      · subst ha1; subst hj1
        exact Or.inl ⟨adjDir_fun hab (adjDir_symm hadj), oppDir_oppDir i⟩
  · rw [if_neg c1, if_neg ?side2]
    case side2 =>
      intro c2
      apply c1
      rcases c2 with ⟨hb1, hj1⟩ | ⟨hb1, hj1⟩
      · subst hb1
        have hj2 : j = oppDir i := by rw [← oppDir_oppDir j, hj1]
        subst hj2
        have h4 := adjDir_symm hab
        rw [oppDir_oppDir] at h4
        exact Or.inr ⟨adjDir_fun h4 hadj, rfl⟩
      · subst hb1
        have hj2 : j = i := oppDir_inj hj1
        subst hj2
        exact Or.inl ⟨adjDir_fun (adjDir_symm hab) (adjDir_symm hadj), rfl⟩
    exact hsym a b j ha hb hab

theorem remove_wall_BoundaryClosed (m : Maze) {p q : ℕ × ℕ} {i : Fin 4}
    (hadj : adjDir p q i) (hp : inGrid m.width m.height p)
    (hq : inGrid m.width m.height q) (hlen : m.cells.length = m.width * m.height)
    (hbnd : BoundaryClosed m) : BoundaryClosed (m.remove_wall p.1 p.2 q.1 q.2) := by
  intro a j ha hflag
  rw [remove_wall_width, remove_wall_height] at ha ⊢
  rw [remove_wall_walls m hadj hp hq ha hlen] at hflag
  by_cases c1 : (a = p ∧ j = i) ∨ (a = q ∧ j = oppDir i)
  · rcases c1 with ⟨ha1, hj1⟩ | ⟨ha1, hj1⟩
    · subst ha1; subst hj1
      exact ⟨q, hq, hadj⟩
    · subst ha1; subst hj1
      exact ⟨p, hp, adjDir_symm hadj⟩
  · rw [if_neg c1] at hflag
    exact hbnd a j ha hflag

theorem remove_wall_openAdj (m : Maze) {p q : ℕ × ℕ} {i : Fin 4}
    (hadj : adjDir p q i) (hp : inGrid m.width m.height p)
    (hq : inGrid m.width m.height q) (hlen : m.cells.length = m.width * m.height)
    {a b : ℕ × ℕ} (ha : inGrid m.width m.height a) (hb : inGrid m.width m.height b) :
    openAdj (m.remove_wall p.1 p.2 q.1 q.2) a b ↔
      openAdj m a b ∨ (a = p ∧ b = q) ∨ (a = q ∧ b = p) := by
  constructor
  · rintro ⟨j, hj, h1, h2⟩
    rw [remove_wall_walls m hadj hp hq ha hlen] at h1
    rw [remove_wall_walls m hadj hp hq hb hlen] at h2
    by_cases c1 : (a = p ∧ j = i) ∨ (a = q ∧ j = oppDir i)
    · rcases c1 with ⟨ha1, hj1⟩ | ⟨ha1, hj1⟩
      · subst ha1; subst hj1
        exact Or.inr (Or.inl ⟨rfl, adjDir_fun hj hadj⟩)
      · subst ha1; subst hj1
        exact Or.inr (Or.inr ⟨rfl, adjDir_fun hj (adjDir_symm hadj)⟩)
    · rw [if_neg c1] at h1
      by_cases c2 : (b = p ∧ oppDir j = i) ∨ (b = q ∧ oppDir j = oppDir i)
      · exfalso
        apply c1
        rcases c2 with ⟨hb1, hj1⟩ | ⟨hb1, hj1⟩
        · subst hb1
          have hj2 : j = oppDir i := by rw [← oppDir_oppDir j, hj1]
          subst hj2
          have h4 := adjDir_symm hj
          rw [oppDir_oppDir] at h4
          exact Or.inr ⟨adjDir_fun h4 hadj, rfl⟩
        · subst hb1
          have hj2 : j = i := oppDir_inj hj1
          subst hj2
          exact Or.inl ⟨adjDir_fun (adjDir_symm hj) (adjDir_symm hadj), rfl⟩
      · rw [if_neg c2] at h2
        exact Or.inl ⟨j, hj, h1, h2⟩
  · rintro (⟨j, hj, h1, h2⟩ | ⟨ha1, hb1⟩ | ⟨ha1, hb1⟩)
    · refine ⟨j, hj, ?_, ?_⟩
      · rw [remove_wall_walls m hadj hp hq ha hlen]
        split_ifs with c
        · rfl
        · exact h1
      · rw [remove_wall_walls m hadj hp hq hb hlen]
        split_ifs with c
        · rfl
        · exact h2
    · subst ha1; subst hb1
      refine ⟨i, hadj, ?_, ?_⟩
      · rw [remove_wall_walls m hadj hp hq hp hlen]
        rw [if_pos (Or.inl ⟨rfl, rfl⟩)]
      · rw [remove_wall_walls m hadj hp hq hq hlen]
        rw [if_pos (Or.inr ⟨rfl, rfl⟩)]
    · subst ha1; subst hb1
      refine ⟨oppDir i, adjDir_symm hadj, ?_, ?_⟩
      · rw [remove_wall_walls m hadj hp hq hq hlen]
        rw [if_pos (Or.inr ⟨rfl, rfl⟩)]
      · rw [remove_wall_walls m hadj hp hq hp hlen]
        rw [if_pos (Or.inl ⟨rfl, oppDir_oppDir i⟩)]

/-! ## `setVisitedAt`, `Maze::new`: frame lemmas and initial invariants -/

theorem setVisitedAt_width (m : Maze) (idx : ℕ) :
    (m.setVisitedAt idx).width = m.width := rfl

theorem setVisitedAt_height (m : Maze) (idx : ℕ) :
    (m.setVisitedAt idx).height = m.height := rfl

theorem setVisitedAt_length (m : Maze) (idx : ℕ) :
    (m.setVisitedAt idx).cells.length = m.cells.length := by
  show (m.cells.set _ _).length = _
  rw [List.length_set]

theorem cellAt_setVisitedAt (m : Maze) (idx : ℕ) (p : ℕ × ℕ) :
    (m.setVisitedAt idx).cellAt p.1 p.2 =
      if pidx m.width p = idx ∧ idx < m.cells.length
      then { m.cells.getD idx defaultCell with visited := true }
      else m.cellAt p.1 p.2 := by
  have hcell : m.cellAt p.1 p.2 = m.cells.getD (pidx m.width p) defaultCell := rfl
  show (m.cells.set idx _).getD (pidx m.width p) defaultCell = _
  by_cases h2 : idx < m.cells.length
  · by_cases h1 : pidx m.width p = idx
    · subst h1
      rw [getD_set_self _ _ _ _ h2]
      simp [h2]
    · rw [getD_set_ne _ _ _ (fun hh => h1 hh.symm)]
      rw [if_neg (fun hh => h1 hh.1), hcell]
  · rw [List.set_eq_of_length_le (le_of_not_lt h2)]
    rw [if_neg (fun hh => h2 hh.2), hcell]

theorem setVisitedAt_walls (m : Maze) (idx : ℕ) (p : ℕ × ℕ) :
    ((m.setVisitedAt idx).cellAt p.1 p.2).walls = (m.cellAt p.1 p.2).walls := by
  rw [cellAt_setVisitedAt]
  split_ifs with h
  · show (m.cells.getD idx defaultCell).walls = _
    rw [← h.1]
    rfl
  · rfl

theorem setVisitedAt_xy (m : Maze) (idx : ℕ) (p : ℕ × ℕ) :
    ((m.setVisitedAt idx).cellAt p.1 p.2).x = (m.cellAt p.1 p.2).x ∧
    ((m.setVisitedAt idx).cellAt p.1 p.2).y = (m.cellAt p.1 p.2).y := by
  rw [cellAt_setVisitedAt]
  split_ifs with h
  · have hc : m.cellAt p.1 p.2 = m.cells.getD idx defaultCell := by
      rw [← h.1]; rfl
    rw [hc]
    exact ⟨rfl, rfl⟩
  · exact ⟨rfl, rfl⟩

theorem setVisitedAt_visited_self (m : Maze) {r : ℕ × ℕ}
    (hr : inGrid m.width m.height r) (hlen : m.cells.length = m.width * m.height) :
    ((m.setVisitedAt (pidx m.width r)).cellAt r.1 r.2).visited = true := by
  rw [cellAt_setVisitedAt]
  rw [if_pos ⟨rfl, by rw [hlen]; exact pidx_lt hr⟩]

theorem setVisitedAt_visited_other (m : Maze) {r s : ℕ × ℕ}
    (hr : inGrid m.width m.height r) (hs : inGrid m.width m.height s) (hne : s ≠ r) :
    ((m.setVisitedAt (pidx m.width r)).cellAt s.1 s.2).visited
      = (m.cellAt s.1 s.2).visited := by
  rw [cellAt_setVisitedAt]
  rw [if_neg (fun hh => hne (pidx_inj hs hr hh.1))]

theorem openAdj_setVisitedAt (m : Maze) (idx : ℕ) (a b : ℕ × ℕ) :
    openAdj (m.setVisitedAt idx) a b ↔ openAdj m a b := by
  unfold openAdj
  constructor <;> rintro ⟨i, h1, h2, h3⟩ <;> refine ⟨i, h1, ?_, ?_⟩ <;>
    first
      | (rw [setVisitedAt_walls] at h2; exact h2)
      | (rw [setVisitedAt_walls] at h3; exact h3)
      | (rw [setVisitedAt_walls]; exact h2)
      | (rw [setVisitedAt_walls]; exact h3)

theorem gridFinset_mem {w h : ℕ} {p : ℕ × ℕ} :
    p ∈ gridFinset w h ↔ inGrid w h p := by
  simp [gridFinset, inGrid, Finset.mem_product]

theorem removedWalls_mem {m : Maze} {t : (ℕ × ℕ) × Bool} :
    t ∈ removedWalls m ↔
      inGrid m.width m.height t.1 ∧ inGrid m.width m.height (slotEnd t.1 t.2) ∧
        openAdj m t.1 (slotEnd t.1 t.2) := by
  simp only [removedWalls, slots, Finset.mem_filter, Finset.mem_product,
    Finset.mem_univ, and_true, Finset.mem_range]
  constructor
  · rintro ⟨⟨⟨h1, h2⟩, h3⟩, h4⟩
    exact ⟨⟨h1, h2⟩, h3, h4⟩
  · rintro ⟨⟨h1, h2⟩, h3, h4⟩
    exact ⟨⟨⟨h1, h2⟩, h3⟩, h4⟩

theorem removedWalls_setVisitedAt (m : Maze) (idx : ℕ) :
    removedWalls (m.setVisitedAt idx) = removedWalls m := by
  apply Finset.ext
  intro t
  rw [removedWalls_mem, removedWalls_mem, setVisitedAt_width, setVisitedAt_height,
    openAdj_setVisitedAt]

theorem mazeGraphWH_adj {w h : ℕ} {m : Maze} {a b : Fin w × Fin h} :
    (mazeGraphWH w h m).Adj a b ↔ a ≠ b ∧ openAdj m (ofV a) (ofV b) := by
  show (a ≠ b ∧ (_ ∨ _)) ↔ _
  constructor
  · rintro ⟨hne, hor⟩
    refine ⟨hne, ?_⟩
    rcases hor with hh | hh
    · exact hh
    · exact openAdj_symm hh
  · rintro ⟨hne, hh⟩
    exact ⟨hne, Or.inl hh⟩

theorem mazeGraphWH_setVisitedAt (w h : ℕ) (m : Maze) (idx : ℕ) :
    mazeGraphWH w h (m.setVisitedAt idx) = mazeGraphWH w h m := by
  apply SimpleGraph.ext
  ext a b
  rw [mazeGraphWH_adj, mazeGraphWH_adj, openAdj_setVisitedAt]

theorem gridStep_setVisitedAt (m : Maze) (idx : ℕ) (p q : ℕ × ℕ) :
    gridStep (m.setVisitedAt idx) p q ↔ gridStep m p q := by
  unfold gridStep
  rw [setVisitedAt_width, setVisitedAt_height, openAdj_setVisitedAt]

theorem mazeReach_setVisitedAt (m : Maze) (idx : ℕ) (p q : ℕ × ℕ) :
    mazeReach (m.setVisitedAt idx) p q ↔ mazeReach m p q := by
  unfold mazeReach
  constructor <;> intro hr <;>
    [ (induction hr with
        | refl => exact Relation.ReflTransGen.refl
        | tail _ hstep ih =>
            exact Relation.ReflTransGen.tail ih ((gridStep_setVisitedAt m idx _ _).1 hstep));
      (induction hr with
        | refl => exact Relation.ReflTransGen.refl
        | tail _ hstep ih =>
            exact Relation.ReflTransGen.tail ih ((gridStep_setVisitedAt m idx _ _).2 hstep))]

theorem visitedCells_setVisitedAt (m : Maze) {r : ℕ × ℕ}
    (hr : inGrid m.width m.height r) (hlen : m.cells.length = m.width * m.height) :
    visitedCells (m.setVisitedAt (pidx m.width r)) = insert r (visitedCells m) := by
  apply Finset.ext
  intro s
  simp only [visitedCells, Finset.mem_filter, Finset.mem_insert,
    setVisitedAt_width, setVisitedAt_height, gridFinset_mem]
  constructor
  · rintro ⟨hs, hvis⟩
    by_cases hsr : s = r
    · exact Or.inl hsr
    · rw [setVisitedAt_visited_other m hr hs hsr] at hvis
      exact Or.inr ⟨hs, hvis⟩
  · rintro (hsr | ⟨hs, hvis⟩)
    · subst hsr
      exact ⟨hr, setVisitedAt_visited_self m hr hlen⟩
    · refine ⟨hs, ?_⟩
      by_cases hsr : s = r
      · subst hsr
        exact setVisitedAt_visited_self m hs hlen
      · rw [setVisitedAt_visited_other m hr hs hsr]
        exact hvis

theorem setVisitedAt_MazeWF (m : Maze) (idx : ℕ) (hwf : MazeWF m) :
    MazeWF (m.setVisitedAt idx) := by
  constructor
  · rw [setVisitedAt_length, setVisitedAt_width, setVisitedAt_height]
    exact hwf.len
  · intro r hr
    rw [setVisitedAt_width, setVisitedAt_height] at hr
    rw [(setVisitedAt_xy m idx r).1]
    exact hwf.coordX r hr
  · intro r hr
    rw [setVisitedAt_width, setVisitedAt_height] at hr
    rw [(setVisitedAt_xy m idx r).2]
    exact hwf.coordY r hr

theorem setVisitedAt_SymWalls (m : Maze) (idx : ℕ) (hsym : SymWalls m) :
    SymWalls (m.setVisitedAt idx) := by
  intro a b j ha hb hab
  rw [setVisitedAt_width, setVisitedAt_height] at ha hb
  rw [setVisitedAt_walls, setVisitedAt_walls]
  exact hsym a b j ha hb hab

theorem setVisitedAt_BoundaryClosed (m : Maze) (idx : ℕ) (hbnd : BoundaryClosed m) :
    BoundaryClosed (m.setVisitedAt idx) := by
  intro a j ha hflag
  rw [setVisitedAt_width, setVisitedAt_height] at ha ⊢
  rw [setVisitedAt_walls] at hflag
  exact hbnd a j ha hflag

theorem new_MazeWF (w h : ℕ) : MazeWF (Maze.new w h) := by
  constructor
  · exact new_length w h
  · intro p hp
    have hp' : inGrid w h p := hp
    rw [cellAt_new hp']
  · intro p hp
    have hp' : inGrid w h p := hp
    rw [cellAt_new hp']

theorem new_walls_true (w h : ℕ) {p : ℕ × ℕ} (hp : inGrid w h p) (i : Fin 4) :
    ((Maze.new w h).cellAt p.1 p.2).walls i = true := by
  rw [cellAt_new hp]

theorem new_SymWalls (w h : ℕ) : SymWalls (Maze.new w h) := by
  intro a b j ha hb _
  rw [new_walls_true w h ha, new_walls_true w h hb]

theorem new_BoundaryClosed (w h : ℕ) : BoundaryClosed (Maze.new w h) := by
  intro a j ha hflag
  rw [new_walls_true w h ha] at hflag
  exact absurd hflag (by simp)

theorem new_not_openAdj (w h : ℕ) {p q : ℕ × ℕ} (hp : inGrid w h p) :
    ¬ openAdj (Maze.new w h) p q := by
  rintro ⟨i, _, h1, _⟩
  rw [new_walls_true w h hp] at h1
  exact absurd h1 (by simp)

theorem removedWalls_new (w h : ℕ) : removedWalls (Maze.new w h) = ∅ := by
  apply Finset.eq_empty_of_forall_not_mem
  intro t ht
  rw [removedWalls_mem] at ht
  exact new_not_openAdj w h ht.1 ht.2.2

theorem visitedCells_new (w h : ℕ) : visitedCells (Maze.new w h) = ∅ := by
  apply Finset.eq_empty_of_forall_not_mem
  intro p hp
  simp only [visitedCells, Finset.mem_filter, gridFinset_mem] at hp
  have hp1 : inGrid w h p := hp.1
  rw [cellAt_new hp1] at hp
  exact absurd hp.2 (by simp)

theorem mazeGraphWH_new (w h : ℕ) : mazeGraphWH w h (Maze.new w h) = ⊥ := by
  apply SimpleGraph.ext
  ext a b
  rw [mazeGraphWH_adj]
  simp only [SimpleGraph.bot_adj, iff_false]
  rintro ⟨_, hopen⟩
  exact new_not_openAdj w h ⟨a.1.isLt, a.2.isLt⟩ hopen

/-! ## Removed-wall counting under `remove_wall` -/

theorem slot_of_adj {p q : ℕ × ℕ} {i : Fin 4} (hadj : adjDir p q i) :
    ∃ s : (ℕ × ℕ) × Bool,
      ((s.1 = p ∧ slotEnd s.1 s.2 = q) ∨ (s.1 = q ∧ slotEnd s.1 s.2 = p)) ∧
      ∀ t : (ℕ × ℕ) × Bool,
        ((t.1 = p ∧ slotEnd t.1 t.2 = q) ∨ (t.1 = q ∧ slotEnd t.1 t.2 = p)) →
          t = s := by
  obtain ⟨e1, e2⟩ := hadj
  fin_cases i <;> simp only [dirDelta] at e1 e2
  · refine ⟨(q, true), Or.inr ⟨rfl, ?_⟩, ?_⟩
    · simp only [slotEnd, if_true]
      simp [Prod.ext_iff]
      omega
    · rintro ⟨⟨tx, ty⟩, b⟩ (⟨h1, h2⟩ | ⟨h1, h2⟩) <;> cases b <;>
        simp only [slotEnd, if_true, if_false] at h1 h2 ⊢ <;>
        simp [Prod.ext_iff] at h1 h2 ⊢ <;> omega
  · refine ⟨(p, false), Or.inl ⟨rfl, ?_⟩, ?_⟩
    · simp only [slotEnd, if_false]
      simp [Prod.ext_iff]
      omega
    · rintro ⟨⟨tx, ty⟩, b⟩ (⟨h1, h2⟩ | ⟨h1, h2⟩) <;> cases b <;>
        simp only [slotEnd, if_true, if_false] at h1 h2 ⊢ <;>
        simp [Prod.ext_iff] at h1 h2 ⊢ <;> omega
  · refine ⟨(p, true), Or.inl ⟨rfl, ?_⟩, ?_⟩
    · simp only [slotEnd, if_true]
      simp [Prod.ext_iff]
      omega
    · rintro ⟨⟨tx, ty⟩, b⟩ (⟨h1, h2⟩ | ⟨h1, h2⟩) <;> cases b <;>
        simp only [slotEnd, if_true, if_false] at h1 h2 ⊢ <;>
        simp [Prod.ext_iff] at h1 h2 ⊢ <;> omega
  · refine ⟨(q, false), Or.inr ⟨rfl, ?_⟩, ?_⟩
    · simp only [slotEnd, if_false]
      simp [Prod.ext_iff]
      omega
    · rintro ⟨⟨tx, ty⟩, b⟩ (⟨h1, h2⟩ | ⟨h1, h2⟩) <;> cases b <;>
        simp only [slotEnd, if_true, if_false] at h1 h2 ⊢ <;>
        simp [Prod.ext_iff] at h1 h2 ⊢ <;> omega

theorem removedWalls_remove_wall (m : Maze) {p q : ℕ × ℕ} {i : Fin 4}
    (hadj : adjDir p q i) (hp : inGrid m.width m.height p)
    (hq : inGrid m.width m.height q) (hlen : m.cells.length = m.width * m.height)
    (hfresh : ¬ openAdj m p q) :
    ∃ s, s ∉ removedWalls m ∧
      removedWalls (m.remove_wall p.1 p.2 q.1 q.2) = insert s (removedWalls m) := by
  obtain ⟨s, hs_or, huniq⟩ := slot_of_adj hadj
  have hfresh2 : ¬ openAdj m q p := fun hh => hfresh (openAdj_symm hh)
  refine ⟨s, ?_, ?_⟩
  · rw [removedWalls_mem]
    rintro ⟨_, _, hopen⟩
    rcases hs_or with ⟨h1, h2⟩ | ⟨h1, h2⟩
    · rw [h2, h1] at hopen; exact hfresh hopen
    · rw [h2, h1] at hopen; exact hfresh2 hopen
  · apply Finset.ext
    intro t
    rw [Finset.mem_insert, removedWalls_mem, removedWalls_mem,
      remove_wall_width, remove_wall_height]
    constructor
    · rintro ⟨h1, h2, h3⟩
      rw [remove_wall_openAdj m hadj hp hq hlen h1 h2] at h3
      rcases h3 with hold | hpair
      · exact Or.inr ⟨h1, h2, hold⟩
      · exact Or.inl (huniq t (by tauto))
    · rintro (rfl | ⟨h1, h2, h3⟩)
      · rcases hs_or with ⟨h1, h2⟩ | ⟨h1, h2⟩
        · rw [h2, h1]
          refine ⟨hp, hq, ?_⟩
          rw [remove_wall_openAdj m hadj hp hq hlen hp hq]
          exact Or.inr (Or.inl ⟨rfl, rfl⟩)
        · rw [h2, h1]
          refine ⟨hq, hp, ?_⟩
          rw [remove_wall_openAdj m hadj hp hq hlen hq hp]
          exact Or.inr (Or.inr ⟨rfl, rfl⟩)
      · refine ⟨h1, h2, ?_⟩
        rw [remove_wall_openAdj m hadj hp hq hlen h1 h2]
        exact Or.inl h3

theorem removedWalls_remove_wall_card (m : Maze) {p q : ℕ × ℕ} {i : Fin 4}
    (hadj : adjDir p q i) (hp : inGrid m.width m.height p)
    (hq : inGrid m.width m.height q) (hlen : m.cells.length = m.width * m.height)
    (hfresh : ¬ openAdj m p q) :
    (removedWalls (m.remove_wall p.1 p.2 q.1 q.2)).card
      = (removedWalls m).card + 1 := by
  obtain ⟨s, hs, heq⟩ := removedWalls_remove_wall m hadj hp hq hlen hfresh
  rw [heq, Finset.card_insert_of_not_mem hs]

/-! ## Graph reachability and acyclicity machinery -/

theorem ofV_inGrid {w h : ℕ} (a : Fin w × Fin h) : inGrid w h (ofV a) :=
  ⟨a.1.isLt, a.2.isLt⟩

theorem toV_ne {w h : ℕ} {p q : ℕ × ℕ} (hp : inGrid w h p) (hq : inGrid w h q)
    (hne : p ≠ q) : toV p hp ≠ toV q hq := by
  intro heq
  apply hne
  have h1 : p.1 = q.1 := congrArg (fun a => a.1.val) heq
  have h2 : p.2 = q.2 := congrArg (fun a => a.2.val) heq
  exact Prod.ext h1 h2

theorem mazeReach_to_reachable {w h : ℕ} {m : Maze} (hw : m.width = w)
    (hh : m.height = h) {p q : ℕ × ℕ} (hr : mazeReach m p q) :
    ∀ (hp : inGrid w h p) (hq : inGrid w h q),
      (mazeGraphWH w h m).Reachable (toV p hp) (toV q hq) := by
  induction hr with
  | refl => intro hp hq; rfl
  | tail _ hstep ih =>
    intro hp hq
    have hc1 : inGrid w h _ := hw ▸ hh ▸ hstep.1
    refine (ih hp hc1).trans (SimpleGraph.Adj.reachable ?_)
    rw [mazeGraphWH_adj]
    exact ⟨toV_ne hc1 hq (openAdj_ne hstep.2.2), hstep.2.2⟩

theorem reachable_to_mazeReach {w h : ℕ} {m : Maze} (hw : m.width = w)
    (hh : m.height = h) (u v : Fin w × Fin h)
    (hr : (mazeGraphWH w h m).Reachable u v) :
    mazeReach m (ofV u) (ofV v) := by
  obtain ⟨walk⟩ := hr
  induction walk with
  | nil => exact Relation.ReflTransGen.refl
  | cons hadj _ ih =>
    rename_i a b c _
    refine Relation.ReflTransGen.head ?_ ih
    rw [mazeGraphWH_adj] at hadj
    refine ⟨?_, ?_, hadj.2⟩
    · rw [hw, hh]; exact ofV_inGrid a
    · rw [hw, hh]; exact ofV_inGrid b

theorem mazeReach_iff_reachable {w h : ℕ} {m : Maze} (hw : m.width = w)
    (hh : m.height = h) {p q : ℕ × ℕ} (hp : inGrid w h p) (hq : inGrid w h q) :
    mazeReach m p q ↔ (mazeGraphWH w h m).Reachable (toV p hp) (toV q hq) := by
  constructor
  · intro hr
    exact mazeReach_to_reachable hw hh hr hp hq
  · intro hr
    exact reachable_to_mazeReach hw hh _ _ hr

theorem mazeReach_symm {m : Maze} {p q : ℕ × ℕ} (hr : mazeReach m p q) :
    mazeReach m q p := by
  induction hr with
  | refl => exact Relation.ReflTransGen.refl
  | tail _ hstep ih =>
    exact Relation.ReflTransGen.head
      ⟨hstep.2.1, hstep.1, openAdj_symm hstep.2.2⟩ ih

theorem isolated_not_reachable {V : Type} (G : SimpleGraph V) (b : V)
    (hb : ∀ x, ¬ G.Adj x b) {a : V} (hab : a ≠ b) : ¬ G.Reachable a b := by
  intro hr
  obtain ⟨walk⟩ := hr
  cases walk.reverse with
  | nil => exact hab rfl
  | cons hadj _ => exact hb _ hadj.symm

theorem isAcyclic_add_edge {V : Type} (G G' : SimpleGraph V) (a b : V)
    (hab : a ≠ b) (hreach : ¬ G.Reachable a b)
    (hG' : ∀ u v, G'.Adj u v ↔ G.Adj u v ∨ (u = a ∧ v = b) ∨ (u = b ∧ v = a))
    (hacy : G.IsAcyclic) : G'.IsAcyclic := by
  have hGnotadj : ¬ G.Adj a b := fun hh => hreach hh.reachable
  have hGG' : G' = G ⊔ SimpleGraph.fromEdgeSet {s(a, b)} := by
    apply SimpleGraph.ext
    ext u v
    rw [hG', SimpleGraph.sup_adj, SimpleGraph.fromEdgeSet_adj]
    simp only [Set.mem_singleton_iff, Sym2.eq_iff]
    constructor
    · rintro (hold | ⟨rfl, rfl⟩ | ⟨rfl, rfl⟩)
      · exact Or.inl hold
      · exact Or.inr ⟨Or.inl ⟨rfl, rfl⟩, hab⟩
      · exact Or.inr ⟨Or.inr ⟨rfl, rfl⟩, hab.symm⟩
    · rintro (hold | ⟨⟨rfl, rfl⟩ | ⟨rfl, rfl⟩, _⟩)
      · exact Or.inl hold
      · exact Or.inr (Or.inl ⟨rfl, rfl⟩)
      · exact Or.inr (Or.inr ⟨rfl, rfl⟩)
  subst hGG'
  intro u c hc
  by_cases hmem : s(a, b) ∈ c.edges
  · obtain ⟨_, hreach2⟩ :=
      SimpleGraph.adj_and_reachable_delete_edges_iff_exists_cycle.mpr ⟨u, c, hc, hmem⟩
    apply hreach
    have hdel : (G ⊔ SimpleGraph.fromEdgeSet {s(a, b)})
        \ SimpleGraph.fromEdgeSet {s(a, b)} = G := by
      apply SimpleGraph.ext
      ext x y
      rw [SimpleGraph.sdiff_adj, SimpleGraph.sup_adj]
      constructor
      · rintro ⟨h1 | h2, h4⟩
        · exact h1
        · exact absurd h2 h4
      · intro hxy
        refine ⟨Or.inl hxy, ?_⟩
        rw [SimpleGraph.fromEdgeSet_adj]
        rintro ⟨heq, _⟩
        rw [Set.mem_singleton_iff, Sym2.eq_iff] at heq
        rcases heq with ⟨rfl, rfl⟩ | ⟨rfl, rfl⟩
        · exact hGnotadj hxy
        · exact hGnotadj hxy.symm
    rw [hdel] at hreach2
    exact hreach2
  · have hsub : ∀ e ∈ c.edges, e ∈ G.edgeSet := by
      intro e he
      have hmem2 := c.edges_subset_edgeSet he
      rw [SimpleGraph.edgeSet_sup] at hmem2
      rcases hmem2 with h1 | h2
      · exact h1
      · exfalso
        rw [SimpleGraph.edgeSet_fromEdgeSet] at h2
        obtain ⟨h3, _⟩ := h2
        rw [Set.mem_singleton_iff] at h3
        exact hmem (h3 ▸ he)
    exact hacy (c.transfer G hsub) (hc.transfer hsub)

theorem eq_toV_iff {w h : ℕ} {u : Fin w × Fin h} {p : ℕ × ℕ} (hp : inGrid w h p) :
    u = toV p hp ↔ ofV u = p := by
  constructor
  · rintro rfl; rfl
  · intro hh2
    refine Prod.ext (Fin.ext ?_) (Fin.ext ?_)
    · exact congrArg Prod.fst hh2
    · exact congrArg Prod.snd hh2

theorem mazeGraphWH_remove_wall_adj (m : Maze) {p q : ℕ × ℕ} {i : Fin 4}
    (hadj : adjDir p q i) (hp : inGrid m.width m.height p)
    (hq : inGrid m.width m.height q)
    (hlen : m.cells.length = m.width * m.height)
    (u v : Fin m.width × Fin m.height) :
    (mazeGraphWH m.width m.height (m.remove_wall p.1 p.2 q.1 q.2)).Adj u v ↔
      (mazeGraphWH m.width m.height m).Adj u v ∨
        (u = toV p hp ∧ v = toV q hq) ∨ (u = toV q hq ∧ v = toV p hp) := by
  rw [mazeGraphWH_adj, mazeGraphWH_adj]
  rw [remove_wall_openAdj m hadj hp hq hlen (ofV_inGrid u) (ofV_inGrid v)]
  constructor
  · rintro ⟨hne, hold | ⟨h1, h2⟩ | ⟨h1, h2⟩⟩
    · exact Or.inl ⟨hne, hold⟩
    · exact Or.inr (Or.inl ⟨(eq_toV_iff hp).2 h1, (eq_toV_iff hq).2 h2⟩)
    · exact Or.inr (Or.inr ⟨(eq_toV_iff hq).2 h1, (eq_toV_iff hp).2 h2⟩)
  · rintro (⟨hne, hold⟩ | ⟨rfl, rfl⟩ | ⟨rfl, rfl⟩)
    · exact ⟨hne, Or.inl hold⟩
    · exact ⟨toV_ne hp hq (adjDir_ne hadj),
        Or.inr (Or.inl ⟨rfl, rfl⟩)⟩
    · exact ⟨toV_ne hq hp (Ne.symm (adjDir_ne hadj)),
        Or.inr (Or.inr ⟨rfl, rfl⟩)⟩

theorem remove_wall_acyclic (m : Maze) {p q : ℕ × ℕ} {i : Fin 4}
    (hadj : adjDir p q i) (hp : inGrid m.width m.height p)
    (hq : inGrid m.width m.height q)
    (hlen : m.cells.length = m.width * m.height)
    (hnreach : ¬ mazeReach m p q)
    (hacy : (mazeGraphWH m.width m.height m).IsAcyclic) :
    (mazeGraphWH m.width m.height (m.remove_wall p.1 p.2 q.1 q.2)).IsAcyclic := by
  apply isAcyclic_add_edge (mazeGraphWH m.width m.height m) _ (toV p hp) (toV q hq)
  · exact toV_ne hp hq (adjDir_ne hadj)
  · rw [← mazeReach_iff_reachable rfl rfl hp hq]
    exact hnreach
  · exact mazeGraphWH_remove_wall_adj m hadj hp hq hlen
  · exact hacy

theorem gridStep_remove_wall_iff (m : Maze) {p q : ℕ × ℕ} {i : Fin 4}
    (hadj : adjDir p q i) (hp : inGrid m.width m.height p)
    (hq : inGrid m.width m.height q)
    (hlen : m.cells.length = m.width * m.height) (a b : ℕ × ℕ) :
    gridStep (m.remove_wall p.1 p.2 q.1 q.2) a b ↔
      gridStep m a b ∨ (inGrid m.width m.height a ∧ inGrid m.width m.height b ∧
        ((a = p ∧ b = q) ∨ (a = q ∧ b = p))) := by
  unfold gridStep
  rw [remove_wall_width, remove_wall_height]
  constructor
  · rintro ⟨ha, hb, hopen⟩
    rw [remove_wall_openAdj m hadj hp hq hlen ha hb] at hopen
    rcases hopen with hold | hpair
    · exact Or.inl ⟨ha, hb, hold⟩
    · exact Or.inr ⟨ha, hb, hpair⟩
  · rintro (⟨ha, hb, hopen⟩ | ⟨ha, hb, hpair⟩)
    · exact ⟨ha, hb, (remove_wall_openAdj m hadj hp hq hlen ha hb).2 (Or.inl hopen)⟩
    · exact ⟨ha, hb, (remove_wall_openAdj m hadj hp hq hlen ha hb).2 (Or.inr hpair)⟩

theorem mazeReach_remove_wall_mono (m : Maze) {p q : ℕ × ℕ} {i : Fin 4}
    (hadj : adjDir p q i) (hp : inGrid m.width m.height p)
    (hq : inGrid m.width m.height q)
    (hlen : m.cells.length = m.width * m.height) {a b : ℕ × ℕ}
    (hr : mazeReach m a b) : mazeReach (m.remove_wall p.1 p.2 q.1 q.2) a b := by
  induction hr with
  | refl => exact Relation.ReflTransGen.refl
  | tail _ hstep ih =>
    exact Relation.ReflTransGen.tail ih
      ((gridStep_remove_wall_iff m hadj hp hq hlen _ _).2 (Or.inl hstep))

theorem mazeReach_remove_wall_new (m : Maze) {p q : ℕ × ℕ} {i : Fin 4}
    (hadj : adjDir p q i) (hp : inGrid m.width m.height p)
    (hq : inGrid m.width m.height q)
    (hlen : m.cells.length = m.width * m.height) :
    mazeReach (m.remove_wall p.1 p.2 q.1 q.2) p q :=
  Relation.ReflTransGen.single
    ((gridStep_remove_wall_iff m hadj hp hq hlen p q).2
      (Or.inr ⟨hp, hq, Or.inl ⟨rfl, rfl⟩⟩))

theorem mazeReach_remove_wall_iff (m : Maze) {p q : ℕ × ℕ} {i : Fin 4}
    (hadj : adjDir p q i) (hp : inGrid m.width m.height p)
    (hq : inGrid m.width m.height q)
    (hlen : m.cells.length = m.width * m.height) (a b : ℕ × ℕ) :
    mazeReach (m.remove_wall p.1 p.2 q.1 q.2) a b ↔
      mazeReach m a b ∨ (mazeReach m a p ∧ mazeReach m q b) ∨
        (mazeReach m a q ∧ mazeReach m p b) := by
  constructor
  · intro hr
    induction hr with
    | refl => exact Or.inl Relation.ReflTransGen.refl
    | tail _ hstep ih =>
      rw [gridStep_remove_wall_iff m hadj hp hq hlen] at hstep
      rcases hstep with hold | ⟨_, _, ⟨rfl, rfl⟩ | ⟨rfl, rfl⟩⟩
      · rcases ih with h1 | ⟨h1, h2⟩ | ⟨h1, h2⟩
        · exact Or.inl (Relation.ReflTransGen.tail h1 hold)
        · exact Or.inr (Or.inl ⟨h1, Relation.ReflTransGen.tail h2 hold⟩)
        · exact Or.inr (Or.inr ⟨h1, Relation.ReflTransGen.tail h2 hold⟩)
      · rcases ih with h1 | ⟨h1, _⟩ | ⟨h1, _⟩
        · exact Or.inr (Or.inl ⟨h1, Relation.ReflTransGen.refl⟩)
        · exact Or.inr (Or.inl ⟨h1, Relation.ReflTransGen.refl⟩)
        · exact Or.inl h1
      · rcases ih with h1 | ⟨h1, _⟩ | ⟨h1, _⟩
        · exact Or.inr (Or.inr ⟨h1, Relation.ReflTransGen.refl⟩)
        · exact Or.inl h1
        · exact Or.inr (Or.inr ⟨h1, Relation.ReflTransGen.refl⟩)
  · rintro (h1 | ⟨h1, h2⟩ | ⟨h1, h2⟩)
    · exact mazeReach_remove_wall_mono m hadj hp hq hlen h1
    · exact Relation.ReflTransGen.trans
        (mazeReach_remove_wall_mono m hadj hp hq hlen h1)
        (Relation.ReflTransGen.trans (mazeReach_remove_wall_new m hadj hp hq hlen)
          (mazeReach_remove_wall_mono m hadj hp hq hlen h2))
    · refine Relation.ReflTransGen.trans
        (mazeReach_remove_wall_mono m hadj hp hq hlen h1) ?_
      refine Relation.ReflTransGen.trans ?_
        (mazeReach_remove_wall_mono m hadj hp hq hlen h2)
      exact mazeReach_symm (mazeReach_remove_wall_new m hadj hp hq hlen)

/-! ## Connectivity of the full grid graph -/

theorem adjDir_west (x y : ℕ) : adjDir (x + 1, y) (x, y) 3 := by
  refine ⟨?_, ?_⟩ <;> simp [dirDelta]

theorem adjDir_north (x y : ℕ) : adjDir (x, y + 1) (x, y) 0 := by
  refine ⟨?_, ?_⟩ <;> simp [dirDelta]

theorem gridAdjStep_symm {w h : ℕ} {a b : ℕ × ℕ} (hab : gridAdjStep w h a b) :
    gridAdjStep w h b a := by
  obtain ⟨ha, hb, i, hi⟩ := hab
  exact ⟨hb, ha, oppDir i, adjDir_symm hi⟩

theorem gridReach_symm {w h : ℕ} {p q : ℕ × ℕ}
    (hr : Relation.ReflTransGen (gridAdjStep w h) p q) :
    Relation.ReflTransGen (gridAdjStep w h) q p := by
  induction hr with
  | refl => exact Relation.ReflTransGen.refl
  | tail _ hstep ih => exact Relation.ReflTransGen.head (gridAdjStep_symm hstep) ih

theorem grid_connected {w h : ℕ} (p q : ℕ × ℕ) (hp : inGrid w h p)
    (hq : inGrid w h q) : Relation.ReflTransGen (gridAdjStep w h) p q := by
  have hx : ∀ x y : ℕ, x < w → y < h →
      Relation.ReflTransGen (gridAdjStep w h) (x, y) (0, y) := by
    intro x
    induction x with
    | zero => intro y _ _; exact Relation.ReflTransGen.refl
    | succ n ih =>
      intro y hxx hy
      refine Relation.ReflTransGen.head
        ⟨⟨hxx, hy⟩, ⟨by omega, hy⟩, 3, adjDir_west n y⟩ (ih y (by omega) hy)
  have hy : ∀ y : ℕ, 0 < w → y < h →
      Relation.ReflTransGen (gridAdjStep w h) (0, y) (0, 0) := by
    intro y
    induction y with
    | zero => intro _ _; exact Relation.ReflTransGen.refl
    | succ n ih =>
      intro hw hyy
      refine Relation.ReflTransGen.head
        ⟨⟨hw, hyy⟩, ⟨hw, by omega⟩, 0, adjDir_north 0 n⟩ (ih hw (by omega))
  have h1 : Relation.ReflTransGen (gridAdjStep w h) p (0, 0) := by
    refine Relation.ReflTransGen.trans ?_
      (hy p.2 (lt_of_le_of_lt (Nat.zero_le _) hp.1) hp.2)
    have := hx p.1 p.2 hp.1 hp.2
    exact (show ((p.1 : ℕ), (p.2 : ℕ)) = p from rfl) ▸ this
  have h2 : Relation.ReflTransGen (gridAdjStep w h) q (0, 0) := by
    refine Relation.ReflTransGen.trans ?_
      (hy q.2 (lt_of_le_of_lt (Nat.zero_le _) hq.1) hq.2)
    have := hx q.1 q.2 hq.1 hq.2
    exact (show ((q.1 : ℕ), (q.2 : ℕ)) = q from rfl) ▸ this
  exact Relation.ReflTransGen.trans h1 (gridReach_symm h2)

theorem closed_under_grid_all {w h : ℕ} (P : ℕ × ℕ → Prop)
    (hcl : ∀ a b, P a → gridAdjStep w h a b → P b) {p0 : ℕ × ℕ}
    (hp0 : P p0) (h0 : inGrid w h p0) :
    ∀ q, inGrid w h q → P q := by
  intro q hq
  have hr := grid_connected p0 q h0 hq
  clear hq
  induction hr with
  | refl => exact hp0
  | tail _ hstep ih => exact hcl _ _ ih hstep

/-! ## Claim C3: wall symmetry under arbitrary `remove_wall` sequences -/

theorem applyRemoves_sym {w h : ℕ} :
    ∀ (calls : List ((ℕ × ℕ) × (ℕ × ℕ))) (m : Maze), m.width = w → m.height = h →
      m.cells.length = w * h → SymWalls m →
      (∀ c ∈ calls, inGrid w h c.1 ∧ inGrid w h c.2 ∧ gridNbr c.1 c.2) →
      SymWalls (applyRemoves m calls) := by
  intro calls
  induction calls with
  | nil => intro m _ _ _ hsym _; exact hsym
  | cons c rest ih =>
    intro m hw hh hlen hsym hcalls
    obtain ⟨hc1, hc2, i, hadj⟩ := hcalls c (List.mem_cons_self c rest)
    have hc1' : inGrid m.width m.height c.1 := by rw [hw, hh]; exact hc1
    have hc2' : inGrid m.width m.height c.2 := by rw [hw, hh]; exact hc2
    have hlen' : m.cells.length = m.width * m.height := by rw [hw, hh]; exact hlen
    refine ih (m.remove_wall c.1.1 c.1.2 c.2.1 c.2.2) ?_ ?_ ?_ ?_ ?_
    · rw [remove_wall_width, hw]
    · rw [remove_wall_height, hh]
    · rw [remove_wall_length, hlen]
    · exact remove_wall_SymWalls m hadj hc1' hc2' hlen' hsym
    · intro d hd
      exact hcalls d (List.mem_cons_of_mem c hd)

/-- Claim C3: wall-symmetry invariant.  Starting from `Maze::new` (all walls
up, trivially symmetric) and applying any sequence of `remove_wall` calls on
in-grid grid-adjacent coordinate pairs, the wall flag on one cell's side
facing an adjacent cell always equals the wall flag on that cell's opposing
side. -/
theorem claim_C3_wall_symmetry (w h : ℕ) (calls : List ((ℕ × ℕ) × (ℕ × ℕ)))
    (hcalls : ∀ c ∈ calls, inGrid w h c.1 ∧ inGrid w h c.2 ∧ gridNbr c.1 c.2) :
    SymWalls (applyRemoves (Maze.new w h) calls) := by
  refine applyRemoves_sym calls (Maze.new w h) rfl rfl ?_ (new_SymWalls w h) hcalls
  rw [new_length]
  rfl

/-- Witness for C3 at a concrete input: a 2×2 grid with two removals. -/
theorem claim_C3_wall_symmetry_witness :
    SymWalls (applyRemoves (Maze.new 2 2) [((0, 0), (1, 0)), ((1, 0), (1, 1))]) :=
  claim_C3_wall_symmetry 2 2 [((0, 0), (1, 0)), ((1, 0), (1, 1))] (by decide)

/-! ## Claim C5: the quality index formula -/

/-- Claim C5: `calculate_quality_index` is a pure function of the four
metrics and the maze size; for `size > 0` it equals exactly
`0.25*(1 - dead_ends/size) + 0.30*(longest_path/size)
 + 0.25*(avg_path_length/size) + 0.20*branching_factor`,
and equal inputs give equal outputs (`f64` arithmetic modelled over `ℚ`). -/
theorem claim_C5_quality_index (quality : MazeQuality) (maze_size : ℕ)
    (_hpos : 0 < maze_size) :
    calculate_quality_index quality maze_size
      = (25 / 100 : ℚ) * (1 - (quality.dead_ends : ℚ) / (maze_size : ℚ))
        + (30 / 100) * ((quality.longest_path : ℚ) / (maze_size : ℚ))
        + (25 / 100) * (quality.avg_path_length / (maze_size : ℚ))
        + (20 / 100) * quality.branching_factor ∧
    (∀ q2 s2, quality = q2 → maze_size = s2 →
      calculate_quality_index quality maze_size = calculate_quality_index q2 s2) := by
  constructor
  · unfold calculate_quality_index
    ring
  · intro q2 s2 hq hs
    rw [hq, hs]

/-- Witness for C5 at a concrete input. -/
theorem claim_C5_quality_index_witness :
    calculate_quality_index ⟨2, 3, 5 / 2, 1⟩ 4
      = (25 / 100 : ℚ) * (1 - ((2 : ℕ) : ℚ) / ((4 : ℕ) : ℚ))
        + (30 / 100) * (((3 : ℕ) : ℚ) / ((4 : ℕ) : ℚ))
        + (25 / 100) * ((5 / 2 : ℚ) / ((4 : ℕ) : ℚ))
        + (20 / 100) * (1 : ℚ) ∧
    (∀ q2 s2, (⟨2, 3, 5 / 2, 1⟩ : MazeQuality) = q2 → 4 = s2 →
      calculate_quality_index ⟨2, 3, 5 / 2, 1⟩ 4 = calculate_quality_index q2 s2) :=
  claim_C5_quality_index ⟨2, 3, 5 / 2, 1⟩ 4 (by norm_num)

/-! ## Claim C6: dead-end counting -/

theorem filter_length_eq_card_range {α} (d : α) (P : α → Bool) :
    ∀ l : List α, (l.filter P).length
      = ((Finset.range l.length).filter fun k => P (l.getD k d) = true).card := by
  intro l
  induction l with
  | nil => simp
  | cons c rest ih =>
    rw [List.filter_cons, List.length_cons]
    have hstep : ((Finset.range (rest.length + 1)).filter
        fun k => P ((c :: rest).getD k d) = true).card
        = ((Finset.range rest.length).filter fun k => P (rest.getD k d) = true).card
          + (if P c = true then 1 else 0) := by
      rw [Finset.card_filter, Finset.card_filter, Finset.sum_range_succ']
      simp [List.getD]
    rw [hstep]
    by_cases hc : P c = true
    · rw [if_pos hc, List.length_cons, ih]
      rw [if_pos hc]
    · rw [if_neg hc]
      simp [hc, ih]

/-- Claim C6: `count_dead_ends` returns the number of cells having exactly 3
of their 4 wall flags `true` (it is a pure function of the maze, mutating
nothing — in this embedding it returns only a number), and on the 1×1 grid
(single cell, all 4 walls up) it returns 0. -/
theorem claim_C6_dead_ends :
    (∀ m : Maze, m.count_dead_ends = ((Finset.range m.cells.length).filter
      fun k => wallCount (m.cells.getD k defaultCell) = 3).card) ∧
    Maze.count_dead_ends (Maze.new 1 1) = 0 := by
  constructor
  · intro m
    unfold Maze.count_dead_ends
    rw [filter_length_eq_card_range defaultCell]
    congr 1
    apply Finset.filter_congr
    intro k _
    simp
  · decide

/-! ## The visited matrix of `dfs_longest_path` -/

theorem set_getD_self {α} (l : List α) (i : ℕ) (d : α) :
    l.set i (l.getD i d) = l := by
  apply List.ext_getElem?
  intro j
  rw [List.getElem?_set]
  by_cases hij : i = j
  · subst hij
    by_cases hlt : i < l.length
    · simp [hlt, List.getD_eq_getElem?_getD, List.getElem?_eq_getElem hlt]
    · simp [hlt, List.getElem?_eq_none (le_of_not_lt hlt)]
  · simp [hij]

theorem visWF_visSet {w h : ℕ} {vis : List (List Bool)} (hwf : visWF w h vis)
    (y x : ℕ) (b : Bool) : visWF w h (visSet vis y x b) := by
  obtain ⟨hlen, hrows⟩ := hwf
  constructor
  · rw [visSet, List.length_set, hlen]
  · by_cases hy : y < vis.length
    · intro row hrow
      rcases List.mem_or_eq_of_mem_set hrow with hmem | heq
      · exact hrows row hmem
      · rw [heq, List.length_set]
        apply hrows
        rw [List.getD_eq_getElem?_getD, List.getElem?_eq_getElem hy]
        exact List.getElem_mem hy
    · intro row hrow
      rw [visSet, List.set_eq_of_length_le (le_of_not_lt hy)] at hrow
      exact hrows row hrow

theorem visGet_visSet_self {w h : ℕ} {vis : List (List Bool)} (hwf : visWF w h vis)
    {x y : ℕ} (hx : x < w) (hy : y < h) (b : Bool) :
    visGet (visSet vis y x b) y x = b := by
  obtain ⟨hlen, hrows⟩ := hwf
  have hylen : y < vis.length := by rw [hlen]; exact hy
  have hrowlen : (vis.getD y []).length = w := by
    apply hrows
    rw [List.getD_eq_getElem?_getD, List.getElem?_eq_getElem hylen]
    exact List.getElem_mem hylen
  unfold visGet visSet
  rw [getD_set_self _ _ _ _ hylen]
  rw [getD_set_self _ _ _ _ (by rw [hrowlen]; exact hx)]

theorem visGet_visSet_ne {vis : List (List Bool)} {x y x' y' : ℕ}
    (hne : (x', y') ≠ (x, y)) (b : Bool) :
    visGet (visSet vis y x b) y' x' = visGet vis y' x' := by
  unfold visGet visSet
  by_cases hyy : y' = y
  · subst hyy
    have hxx : x' ≠ x := fun hh => hne (by rw [hh])
    by_cases hylen : y' < vis.length
    · rw [getD_set_self _ _ _ _ hylen]
      exact getD_set_ne _ _ _ (fun hh => hxx hh.symm)
    · rw [List.set_eq_of_length_le (le_of_not_lt hylen)]
  · rw [getD_set_ne _ _ _ (fun hh => hyy hh.symm)]

theorem visSet_cancel {w h : ℕ} {vis : List (List Bool)} (hwf : visWF w h vis)
    {x y : ℕ} (hx : x < w) (hy : y < h) {b0 : Bool}
    (horig : visGet vis y x = b0) (b : Bool) :
    visSet (visSet vis y x b) y x b0 = vis := by
  obtain ⟨hlen, hrows⟩ := hwf
  have hylen : y < vis.length := by rw [hlen]; exact hy
  unfold visSet
  rw [getD_set_self _ _ _ _ hylen]
  rw [List.set_set]
  rw [List.set_set]
  have : (vis.getD y []).set x b0 = vis.getD y [] := by
    rw [← horig]
    exact set_getD_self _ _ _
  rw [this, set_getD_self]

theorem visFalseCount_visSet_true {w h : ℕ} {vis : List (List Bool)}
    (hwf : visWF w h vis) {x y : ℕ} (hx : x < w) (hy : y < h)
    (hfalse : visGet vis y x = false) :
    visFalseCount w h (visSet vis y x true) + 1 = visFalseCount w h vis := by
  unfold visFalseCount
  have hset : ((gridFinset w h).filter
      fun p => visGet (visSet vis y x true) p.2 p.1 = false)
      = ((gridFinset w h).filter fun p => visGet vis p.2 p.1 = false).erase (x, y) := by
    apply Finset.ext
    intro p
    rw [Finset.mem_erase, Finset.mem_filter, Finset.mem_filter]
    constructor
    · rintro ⟨hpg, hpf⟩
      by_cases hpe : p = (x, y)
      · exfalso
        subst hpe
        rw [visGet_visSet_self hwf hx hy] at hpf
        exact absurd hpf (by simp)
      · have : (p.1, p.2) ≠ (x, y) := fun hh => hpe (by
          rw [show p = (p.1, p.2) from rfl, hh])
        rw [visGet_visSet_ne this] at hpf
        exact ⟨hpe, hpg, hpf⟩
    · rintro ⟨hpe, hpg, hpf⟩
      refine ⟨hpg, ?_⟩
      have : (p.1, p.2) ≠ (x, y) := fun hh => hpe (by
        rw [show p = (p.1, p.2) from rfl, hh])
      rw [visGet_visSet_ne this]
      exact hpf
  rw [hset]
  rw [Finset.card_erase_of_mem]
  · have hpos : 0 < ((gridFinset w h).filter
        fun p => visGet vis p.2 p.1 = false).card := by
      apply Finset.card_pos.2
      exact ⟨(x, y), Finset.mem_filter.2 ⟨gridFinset_mem.2 ⟨hx, hy⟩, hfalse⟩⟩
    omega
  · exact Finset.mem_filter.2 ⟨gridFinset_mem.2 ⟨hx, hy⟩, hfalse⟩

/-! ## The master lemma for `dfs_longest_path`: success, restoration,
positive path count -/

theorem dfs_master :
    ∀ fuel (m : Maze) (x y : ℕ) (vis : List (List Bool)) (len : ℕ),
      visWF m.width m.height vis →
      x < m.width → y < m.height →
      visGet vis y x = false →
      visFalseCount m.width m.height vis ≤ fuel →
      ∃ maxL cnt, dfsLP m fuel x y vis len = some (maxL, cnt, vis) ∧
        1 ≤ cnt ∧ len ≤ maxL := by
  intro fuel
  induction fuel using Nat.strong_induction_on with
  | _ fuel ih =>
    intro m x y vis len hwf hx hy hfalse hfuel
    have hmem : (x, y) ∈ (gridFinset m.width m.height).filter
        (fun p => visGet vis p.2 p.1 = false) :=
      Finset.mem_filter.2 ⟨gridFinset_mem.2 ⟨hx, hy⟩, hfalse⟩
    have hunvis_pos : 1 ≤ visFalseCount m.width m.height vis :=
      Finset.card_pos.2 ⟨(x, y), hmem⟩
    obtain ⟨f, rfl⟩ : ∃ f, fuel = f + 1 := by
      cases fuel with
      | zero => omega
      | succ f => exact ⟨f, rfl⟩
    have hwf1 : visWF m.width m.height (visSet vis y x true) :=
      visWF_visSet hwf y x true
    have hcount1 : visFalseCount m.width m.height (visSet vis y x true) + 1
        = visFalseCount m.width m.height vis :=
      visFalseCount_visSet_true hwf hx hy hfalse
    have hcount2 : visFalseCount m.width m.height (visSet vis y x true) ≤ f := by
      omega
    have hdirs : ∀ (dirs : List (Fin 4)) (maxLen cnt : ℕ),
        ∃ L C, dfsDirs m f x y len dirs maxLen cnt (visSet vis y x true)
            = some (L, C, visSet vis y x true) ∧ maxLen ≤ L ∧ cnt ≤ C := by
      intro dirs
      induction dirs with
      | nil =>
        intro maxLen cnt
        refine ⟨maxLen, cnt, ?_, le_refl _, le_refl _⟩
        rw [dfsDirs]
      | cons i rest ihd =>
        intro maxLen cnt
        by_cases hbnd : 0 ≤ (x : ℤ) + (dirDelta i).1 ∧
            (x : ℤ) + (dirDelta i).1 < (m.width : ℤ) ∧
            0 ≤ (y : ℤ) + (dirDelta i).2 ∧ (y : ℤ) + (dirDelta i).2 < (m.height : ℤ)
        · by_cases hopen : (m.cellAt x y).walls i = false ∧
              visGet (visSet vis y x true) ((y : ℤ) + (dirDelta i).2).toNat
                ((x : ℤ) + (dirDelta i).1).toNat = false
          · have hxT : ((x : ℤ) + (dirDelta i).1).toNat < m.width := by omega
            have hyT : ((y : ℤ) + (dirDelta i).2).toNat < m.height := by omega
            obtain ⟨subL, subC, hsub, hsubC, hsubL⟩ :=
              ih f (by omega) m _ _ (visSet vis y x true) (len + 1)
                hwf1 hxT hyT hopen.2 hcount2
            obtain ⟨L, C, hrest, hL, hC⟩ := ihd (max maxLen subL) (cnt + subC)
            refine ⟨L, C, ?_, by omega, by omega⟩
            rw [dfsDirs]
            rw [if_pos hbnd, if_pos hopen, hsub]
            exact hrest
          · obtain ⟨L, C, hrest, hL, hC⟩ := ihd maxLen cnt
            refine ⟨L, C, ?_, hL, hC⟩
            rw [dfsDirs]
            rw [if_pos hbnd, if_neg hopen]
            exact hrest
        · obtain ⟨L, C, hrest, hL, hC⟩ := ihd maxLen cnt
          refine ⟨L, C, ?_, hL, hC⟩
          rw [dfsDirs]
          rw [if_neg hbnd]
          exact hrest
    obtain ⟨L, C, hdirs_eq, hL, hC⟩ := hdirs (List.finRange 4) len 0
    refine ⟨L, if C = 0 then 1 else C, ?_, ?_, hL⟩
    · rw [dfsLP, hdirs_eq]
      show some (L, (if C = 0 then 1 else C), visSet (visSet vis y x true) y x false)
        = some (L, (if C = 0 then 1 else C), vis)
      rw [visSet_cancel hwf hx hy hfalse true]
    · split_ifs <;> omega

/-- Claim C9 (implicit frame effect): `dfs_longest_path` restores its visited
bookkeeping.  For every call on in-bounds `(x, y)` with `visited[y][x] = false`
at entry (and fuel covering the unvisited cells, as in every call the program
makes), the visited matrix at return equals the matrix at entry, so the
per-start searches of `measure_paths` are independent. -/
theorem claim_C9_dfs_restores_visited (m : Maze) (fuel x y len : ℕ)
    (vis : List (List Bool)) (hwf : visWF m.width m.height vis)
    (hx : x < m.width) (hy : y < m.height) (hfalse : visGet vis y x = false)
    (hfuel : visFalseCount m.width m.height vis ≤ fuel) :
    ∀ maxL cnt vis2, dfsLP m fuel x y vis len = some (maxL, cnt, vis2) →
      vis2 = vis := by
  intro maxL cnt vis2 heq
  obtain ⟨L, C, heq2, _, _⟩ := dfs_master fuel m x y vis len hwf hx hy hfalse hfuel
  rw [heq] at heq2
  exact congrArg (fun t => t.2.2) (Option.some.inj heq2)

/-- Witness for C9 on a concrete maze and matrix: the call returns
`some (0, 1, vis2)` and the theorem identifies `vis2` with the entry matrix. -/
theorem claim_C9_dfs_restores_visited_witness :
    dfsLP (Maze.new 2 1) 2 0 0 [[false, false]] 0
      = some (0, 1, [[false, false]]) ∧
    ([[false, false]] : List (List Bool)) = [[false, false]] := by
  have heq : dfsLP (Maze.new 2 1) 2 0 0 [[false, false]] 0
      = some (0, 1, [[false, false]]) := by
    simp [dfsLP, dfsDirs, visSet, visGet, Maze.cellAt, Maze.get_index, dirDelta,
      defaultCell, finRange_four, Maze.new, List.range_succ]
  exact ⟨heq,
    claim_C9_dfs_restores_visited (Maze.new 2 1) 2 0 0 0 [[false, false]]
      (by constructor <;> decide) (by decide) (by decide) (by decide)
      (by decide) 0 1 [[false, false]] heq⟩

/-! ## Claim C10: positive path counts, nonzero divisor -/

theorem fresh_vis_WF (w h : ℕ) :
    visWF w h (List.replicate h (List.replicate w false)) := by
  constructor
  · rw [List.length_replicate]
  · intro row hrow
    rw [List.eq_of_mem_replicate hrow, List.length_replicate]

theorem fresh_vis_false (w h y x : ℕ) :
    visGet (List.replicate h (List.replicate w false)) y x = false := by
  unfold visGet
  have h1 : (List.replicate h (List.replicate w false)).getD y []
        = List.replicate w false ∨
      (List.replicate h (List.replicate w false)).getD y [] = [] := by
    by_cases hy : y < h
    · left
      rw [List.getD_eq_getElem?_getD, List.getElem?_replicate, if_pos hy]
      rfl
    · right
      rw [List.getD_eq_getElem?_getD, List.getElem?_eq_none]
      · rfl
      · rw [List.length_replicate]; omega
  rcases h1 with h1 | h1 <;> rw [h1]
  · by_cases hx : x < w
    · rw [List.getD_eq_getElem?_getD, List.getElem?_replicate, if_pos hx]
      rfl
    · rw [List.getD_eq_getElem?_getD, List.getElem?_eq_none]
      · rfl
      · rw [List.length_replicate]; omega
  · rfl

theorem gridFinset_card (w h : ℕ) : (gridFinset w h).card = w * h := by
  rw [gridFinset, Finset.card_product, Finset.card_range, Finset.card_range]

theorem fresh_vis_count_le (w h : ℕ) :
    visFalseCount w h (List.replicate h (List.replicate w false)) ≤ w * h := by
  rw [← gridFinset_card w h]
  exact Finset.card_filter_le _ _

theorem longest_path_from_spec (m : Maze) {p : ℕ × ℕ}
    (hp : inGrid m.width m.height p) :
    ∃ pl pc, m.longest_path_from p.1 p.2 = some (pl, pc) ∧ 1 ≤ pc := by
  obtain ⟨L, C, heq, hC, _⟩ := dfs_master (m.width * m.height) m p.1 p.2
    (List.replicate m.height (List.replicate m.width false)) 0
    (fresh_vis_WF m.width m.height) hp.1 hp.2
    (fresh_vis_false m.width m.height p.2 p.1)
    (fresh_vis_count_le m.width m.height)
  refine ⟨L, C, ?_, hC⟩
  show Option.map (fun r => (r.1, r.2.1)) (dfsLP m (m.width * m.height) p.1 p.2
    (List.replicate m.height (List.replicate m.width false)) 0) = some (L, C)
  rw [heq]
  rfl

theorem cell_mem_coords (m : Maze) (hwf : MazeWF m) (hw : 0 < m.width)
    {c : Cell} (hc : c ∈ m.cells) :
    inGrid m.width m.height (c.x, c.y) := by
  obtain ⟨k, hk, hck⟩ := List.mem_iff_getElem.1 hc
  have hkwh : k < m.width * m.height := by rw [← hwf.len]; exact hk
  have hpg : inGrid m.width m.height (k % m.width, k / m.width) := by
    constructor
    · exact Nat.mod_lt _ hw
    · show k / m.width < m.height
      exact Nat.div_lt_of_lt_mul hkwh
  have hpidx : pidx m.width (k % m.width, k / m.width) = k := by
    unfold pidx
    show k / m.width * m.width + k % m.width = k
    calc k / m.width * m.width + k % m.width
        = m.width * (k / m.width) + k % m.width := by ring
      _ = k := Nat.div_add_mod k m.width
  have hcell : m.cellAt (k % m.width) (k / m.width) = c := by
    show m.cells.getD (m.get_index (k % m.width) (k / m.width)) defaultCell = c
    rw [show m.get_index (k % m.width) (k / m.width) = k from hpidx]
    rw [List.getD_eq_getElem?_getD, List.getElem?_eq_getElem hk]
    exact hck
  have hxc : c.x = k % m.width := by
    have := hwf.coordX _ hpg
    rwa [hcell] at this
  have hyc : c.y = k / m.width := by
    have := hwf.coordY _ hpg
    rwa [hcell] at this
  rw [show ((c.x, c.y) : ℕ × ℕ) = (k % m.width, k / m.width) by rw [hxc, hyc]]
  exact hpg

theorem measurePathsAux_ge (m : Maze) :
    ∀ (l : List Cell),
      (∀ c ∈ l, ∃ pl pc, m.longest_path_from c.x c.y = some (pl, pc) ∧ 1 ≤ pc) →
      ∀ L0 S0 C0, ∃ L S C, measurePathsAux m l L0 S0 C0 = some (L, S, C) ∧
        C0 + l.length ≤ C := by
  intro l
  induction l with
  | nil =>
    intro _ L0 S0 C0
    exact ⟨L0, S0, C0, rfl, by simp⟩
  | cons c rest ih =>
    intro hall L0 S0 C0
    obtain ⟨pl, pc, heq, hpc⟩ := hall c (List.mem_cons_self c rest)
    obtain ⟨L, S, C, heq2, hC⟩ :=
      ih (fun d hd => hall d (List.mem_cons_of_mem c hd)) (max L0 pl) (S0 + pl)
        (C0 + pc)
    refine ⟨L, S, C, ?_, by simp only [List.length_cons]; omega⟩
    show (match m.longest_path_from c.x c.y with
      | none => none
      | some (pl, pc) =>
          measurePathsAux m rest (max L0 pl) (S0 + pl) (C0 + pc)) = some (L, S, C)
    rw [heq]
    exact heq2

/-- Claim C10 (implicit safety): `dfs_longest_path` always returns a path
count of at least 1; hence on any structurally well-formed grid with
`width * height ≥ 1`, `measure_paths` succeeds with
`total_paths ≥ width * height ≥ 1`, so the division computing
`avg_path_length` in `measure_quality` never has a zero divisor. -/
theorem claim_C10_total_paths_positive (m : Maze) (hwf : MazeWF m)
    (hpos : 1 ≤ m.width * m.height) :
    (∀ fuel x y len vis maxL cnt vis2,
        visWF m.width m.height vis → x < m.width → y < m.height →
        visGet vis y x = false → visFalseCount m.width m.height vis ≤ fuel →
        dfsLP m fuel x y vis len = some (maxL, cnt, vis2) → 1 ≤ cnt) ∧
    ∃ L S C, m.measure_paths = some (L, S, C) ∧ m.width * m.height ≤ C ∧
      C ≠ 0 ∧ m.measure_quality = some ⟨m.count_dead_ends, L, (S : ℚ) / (C : ℚ),
        m.calculate_branching_factor⟩ := by
  have hw : 0 < m.width := by
    rcases Nat.eq_zero_or_pos m.width with hz | hp
    · rw [hz] at hpos; omega
    · exact hp
  constructor
  · intro fuel x y len vis maxL cnt vis2 hvwf hx hy hfalse hfuel heq
    obtain ⟨L, C, heq2, hC, _⟩ := dfs_master fuel m x y vis len hvwf hx hy hfalse hfuel
    rw [heq] at heq2
    have := congrArg (fun t => t.2.1) (Option.some.inj heq2)
    simp only at this
    omega
  · obtain ⟨L, S, C, heq, hC⟩ := measurePathsAux_ge m m.cells
      (fun c hc => longest_path_from_spec m (cell_mem_coords m hwf hw hc))
      0 0 0
    rw [hwf.len] at hC
    refine ⟨L, S, C, heq, by omega, by omega, ?_⟩
    show m.measure_paths.map _ = _
    rw [show m.measure_paths = measurePathsAux m m.cells 0 0 0 from rfl, heq]
    rfl

/-- Witness for C10 on the 1×1 grid. -/
theorem claim_C10_total_paths_positive_witness :
    (∀ fuel x y len vis maxL cnt vis2,
        visWF (Maze.new 1 1).width (Maze.new 1 1).height vis →
        x < (Maze.new 1 1).width → y < (Maze.new 1 1).height →
        visGet vis y x = false →
        visFalseCount (Maze.new 1 1).width (Maze.new 1 1).height vis ≤ fuel →
        dfsLP (Maze.new 1 1) fuel x y vis len = some (maxL, cnt, vis2) →
          1 ≤ cnt) ∧
    ∃ L S C, (Maze.new 1 1).measure_paths = some (L, S, C) ∧
      (Maze.new 1 1).width * (Maze.new 1 1).height ≤ C ∧ C ≠ 0 ∧
      (Maze.new 1 1).measure_quality = some ⟨(Maze.new 1 1).count_dead_ends, L,
        (S : ℚ) / (C : ℚ), (Maze.new 1 1).calculate_branching_factor⟩ :=
  claim_C10_total_paths_positive (Maze.new 1 1) (new_MazeWF 1 1) (by decide)

/-! ## Crude monotonicity of wall clearing and visited marking -/

theorem clearWallAt_walls_mono (m : Maze) (idx : ℕ) (i : Fin 4) (p : ℕ × ℕ)
    (j : Fin 4) (hfl : (m.cellAt p.1 p.2).walls j = false) :
    ((m.clearWallAt idx i).cellAt p.1 p.2).walls j = false := by
  rw [cellAt_clearWallAt]
  split_ifs with hcond
  · simp only [clearWall, Function.update_apply]
    split_ifs with hji
    · rfl
    · rw [show m.cells.getD idx defaultCell = m.cellAt p.1 p.2 by rw [← hcond.1]; rfl]
      exact hfl
  · exact hfl

theorem clearWallAt_visited (m : Maze) (idx : ℕ) (i : Fin 4) (p : ℕ × ℕ) :
    ((m.clearWallAt idx i).cellAt p.1 p.2).visited = (m.cellAt p.1 p.2).visited := by
  rw [cellAt_clearWallAt]
  split_ifs with hcond
  · show (m.cells.getD idx defaultCell).visited = _
    rw [show m.cells.getD idx defaultCell = m.cellAt p.1 p.2 by rw [← hcond.1]; rfl]
  · rfl

theorem remove_wall_walls_mono (m : Maze) (x1 y1 x2 y2 : ℕ) (p : ℕ × ℕ)
    (j : Fin 4) (hfl : (m.cellAt p.1 p.2).walls j = false) :
    ((m.remove_wall x1 y1 x2 y2).cellAt p.1 p.2).walls j = false := by
  unfold Maze.remove_wall
  split
  · exact clearWallAt_walls_mono _ _ _ _ _ (clearWallAt_walls_mono _ _ _ _ _ hfl)
  split
  · exact clearWallAt_walls_mono _ _ _ _ _ (clearWallAt_walls_mono _ _ _ _ _ hfl)
  split
  · exact clearWallAt_walls_mono _ _ _ _ _ (clearWallAt_walls_mono _ _ _ _ _ hfl)
  · exact clearWallAt_walls_mono _ _ _ _ _ (clearWallAt_walls_mono _ _ _ _ _ hfl)

theorem remove_wall_visited (m : Maze) (x1 y1 x2 y2 : ℕ) (p : ℕ × ℕ) :
    ((m.remove_wall x1 y1 x2 y2).cellAt p.1 p.2).visited
      = (m.cellAt p.1 p.2).visited := by
  unfold Maze.remove_wall
  split
  · rw [clearWallAt_visited, clearWallAt_visited]
  split
  · rw [clearWallAt_visited, clearWallAt_visited]
  split
  · rw [clearWallAt_visited, clearWallAt_visited]
  · rw [clearWallAt_visited, clearWallAt_visited]

theorem openAdj_remove_wall_mono (m : Maze) (x1 y1 x2 y2 : ℕ) {a b : ℕ × ℕ}
    (hopen : openAdj m a b) : openAdj (m.remove_wall x1 y1 x2 y2) a b := by
  obtain ⟨i, hadj, h1, h2⟩ := hopen
  exact ⟨i, hadj, remove_wall_walls_mono m x1 y1 x2 y2 a i h1,
    remove_wall_walls_mono m x1 y1 x2 y2 b (oppDir i) h2⟩

theorem setVisitedAt_visited_mono (m : Maze) (idx : ℕ) (p : ℕ × ℕ)
    (hv : (m.cellAt p.1 p.2).visited = true) :
    ((m.setVisitedAt idx).cellAt p.1 p.2).visited = true := by
  rw [cellAt_setVisitedAt]
  split_ifs with hcond
  · rfl
  · exact hv

theorem primNb_cons (st : Maze × List (ℕ × ℕ)) (x y : ℕ) (c : ℤ × ℤ)
    (rest : List (ℤ × ℤ)) :
    primNb st x y (c :: rest) =
      if 0 ≤ c.1 ∧ c.1 < (st.1.width : ℤ) ∧ 0 ≤ c.2 ∧ c.2 < (st.1.height : ℤ) then
        (if (st.1.cells.getD (st.1.get_index c.1.toNat c.2.toNat)
            defaultCell).visited = false then
          primNb ((st.1.remove_wall x y c.1.toNat c.2.toNat).setVisitedAt
              (st.1.get_index c.1.toNat c.2.toNat),
            st.2 ++ [(c.1.toNat, c.2.toNat)]) x y rest
        else primNb st x y rest)
      else primNb st x y rest := rfl

theorem primNb_mono : ∀ (cands : List (ℤ × ℤ)) (st : Maze × List (ℕ × ℕ))
    (x y : ℕ),
    (primNb st x y cands).1.width = st.1.width ∧
    (primNb st x y cands).1.height = st.1.height ∧
    (primNb st x y cands).1.cells.length = st.1.cells.length ∧
    (∀ a b : ℕ × ℕ, openAdj st.1 a b → openAdj (primNb st x y cands).1 a b) ∧
    (∀ p : ℕ × ℕ, (st.1.cellAt p.1 p.2).visited = true →
      ((primNb st x y cands).1.cellAt p.1 p.2).visited = true) ∧
    (∀ e, e ∈ st.2 → e ∈ (primNb st x y cands).2) := by
  intro cands
  induction cands with
  | nil =>
    intro st x y
    exact ⟨rfl, rfl, rfl, fun _ _ hh => hh, fun _ hh => hh, fun _ hh => hh⟩
  | cons c rest ih =>
    intro st x y
    rw [primNb_cons]
    split_ifs with hbnd hvis
    · obtain ⟨hw, hh, hl, hopen, hvis2, hfr⟩ := ih
        ((st.1.remove_wall x y c.1.toNat c.2.toNat).setVisitedAt
          (st.1.get_index c.1.toNat c.2.toNat), st.2 ++ [(c.1.toNat, c.2.toNat)]) x y
      refine ⟨?_, ?_, ?_, ?_, ?_, ?_⟩
      · exact hw.trans (by rw [setVisitedAt_width, remove_wall_width])
      · exact hh.trans (by rw [setVisitedAt_height, remove_wall_height])
      · exact hl.trans (by rw [setVisitedAt_length, remove_wall_length])
      · intro a b hab
        apply hopen
        rw [openAdj_setVisitedAt]
        exact openAdj_remove_wall_mono _ _ _ _ _ hab
      · intro p hp
        apply hvis2
        apply setVisitedAt_visited_mono
        rw [remove_wall_visited]
        exact hp
      · intro e he
        exact hfr e (List.mem_append_left _ he)
    · exact ih st x y
    · exact ih st x y

theorem adjDir_of_cand {x y : ℕ} {c : ℤ × ℤ} {i : Fin 4}
    (hc : c = ((x : ℤ) + (dirDelta i).1, (y : ℤ) + (dirDelta i).2))
    (h1 : 0 ≤ c.1) (h2 : 0 ≤ c.2) :
    adjDir (x, y) (c.1.toNat, c.2.toNat) i := by
  constructor
  · show (x : ℤ) + (dirDelta i).1 = (c.1.toNat : ℤ)
    rw [Int.toNat_of_nonneg h1, hc]
  · show (y : ℤ) + (dirDelta i).2 = (c.2.toNat : ℤ)
    rw [Int.toNat_of_nonneg h2, hc]

theorem primNb_effects : ∀ (cands : List (ℤ × ℤ)) (st : Maze × List (ℕ × ℕ))
    (x y : ℕ),
    st.1.cells.length = st.1.width * st.1.height →
    inGrid st.1.width st.1.height (x, y) →
    (∀ c ∈ cands, ∃ i : Fin 4,
      c = ((x : ℤ) + (dirDelta i).1, (y : ℤ) + (dirDelta i).2)) →
    cands.Nodup →
    ∀ c ∈ cands, 0 ≤ c.1 → c.1 < (st.1.width : ℤ) → 0 ≤ c.2 →
      c.2 < (st.1.height : ℤ) →
      (st.1.cellAt c.1.toNat c.2.toNat).visited = false →
      openAdj (primNb st x y cands).1 (x, y) (c.1.toNat, c.2.toNat) ∧
      ((primNb st x y cands).1.cellAt c.1.toNat c.2.toNat).visited = true ∧
      (c.1.toNat, c.2.toNat) ∈ (primNb st x y cands).2 := by
  intro cands
  induction cands with
  | nil => intro st x y _ _ _ _ c hc; exact absurd hc (List.not_mem_nil c)
  | cons d rest ih =>
    intro st x y hlen hxy hreps hnd c hc hb1 hb2 hb3 hb4 hunvis
    have hqgrid : inGrid st.1.width st.1.height (c.1.toNat, c.2.toNat) := by
      constructor <;> [skip; skip] <;> omega
    rcases List.mem_cons.1 hc with rfl | hcr
    · -- c is processed first
      rw [primNb_cons]
      have hunvis0 : (st.1.cells.getD (st.1.get_index c.1.toNat c.2.toNat)
          defaultCell).visited = false := hunvis
      rw [if_pos ⟨hb1, hb2, hb3, hb4⟩, if_pos hunvis0]
      obtain ⟨i, hrep⟩ := hreps c (List.mem_cons_self _ _)
      have hadj : adjDir (x, y) (c.1.toNat, c.2.toNat) i :=
        adjDir_of_cand hrep hb1 hb3
      set m1 := st.1.remove_wall x y c.1.toNat c.2.toNat with hm1
      have hopen1 : openAdj m1 (x, y) (c.1.toNat, c.2.toNat) := by
        rw [hm1, show st.1.remove_wall x y c.1.toNat c.2.toNat
          = st.1.remove_wall ((x, y) : ℕ × ℕ).1 ((x, y) : ℕ × ℕ).2
            ((c.1.toNat, c.2.toNat) : ℕ × ℕ).1 ((c.1.toNat, c.2.toNat) : ℕ × ℕ).2
          from rfl]
        rw [remove_wall_openAdj st.1 hadj hxy hqgrid hlen hxy hqgrid]
        exact Or.inr (Or.inl ⟨rfl, rfl⟩)
      have hidx : st.1.get_index c.1.toNat c.2.toNat
          = pidx m1.width ((c.1.toNat, c.2.toNat) : ℕ × ℕ) := by
        rw [hm1, remove_wall_width]
        rfl
      have hm1len : m1.cells.length = m1.width * m1.height := by
        rw [hm1, remove_wall_length, remove_wall_width, remove_wall_height]
        exact hlen
      have hq1 : inGrid m1.width m1.height (c.1.toNat, c.2.toNat) := by
        rw [hm1, remove_wall_width, remove_wall_height]
        exact hqgrid
      obtain ⟨_, _, _, hopen, hvis2, hfr⟩ := primNb_mono rest
        (m1.setVisitedAt (st.1.get_index c.1.toNat c.2.toNat),
          st.2 ++ [(c.1.toNat, c.2.toNat)]) x y
      refine ⟨?_, ?_, ?_⟩
      · apply hopen
        rw [openAdj_setVisitedAt]
        exact hopen1
      · exact hvis2 (c.1.toNat, c.2.toNat)
          (by rw [hidx]; exact setVisitedAt_visited_self m1 hq1 hm1len)
      · exact hfr _ (List.mem_append_right _ (List.mem_singleton.2 rfl))
    · -- c is processed later
      have hcd : c ≠ d := fun hh => by
        rw [hh] at hcr
        exact (List.nodup_cons.1 hnd).1 hcr
      rw [primNb_cons]
      split_ifs with hbnd hvis
      · -- d was processed; c's hypotheses transfer to the new state
        obtain ⟨hd1, hd2, hd3, hd4⟩ := hbnd
        set m2 := st.1.remove_wall x y d.1.toNat d.2.toNat with hm2
        set m1 := m2.setVisitedAt (st.1.get_index d.1.toNat d.2.toNat) with hm1
        have hw1 : m1.width = st.1.width := by
          rw [hm1, setVisitedAt_width, hm2, remove_wall_width]
        have hh1 : m1.height = st.1.height := by
          rw [hm1, setVisitedAt_height, hm2, remove_wall_height]
        have hl1 : m1.cells.length = m1.width * m1.height := by
          rw [hw1, hh1, hm1, setVisitedAt_length, hm2, remove_wall_length]
          exact hlen
        have hxy1 : inGrid m1.width m1.height (x, y) := by
          rw [hw1, hh1]; exact hxy
        have hdgrid : inGrid m2.width m2.height ((d.1.toNat, d.2.toNat) : ℕ × ℕ) := by
          rw [hm2, remove_wall_width, remove_wall_height]
          constructor <;> [skip; skip] <;> omega
        have hcgrid2 : inGrid m2.width m2.height ((c.1.toNat, c.2.toNat) : ℕ × ℕ) := by
          rw [hm2, remove_wall_width, remove_wall_height]
          exact hqgrid
        have htne : ((c.1.toNat, c.2.toNat) : ℕ × ℕ) ≠ (d.1.toNat, d.2.toNat) := by
          intro heq
          apply hcd
          have e1 : c.1.toNat = d.1.toNat := congrArg Prod.fst heq
          have e2 : c.2.toNat = d.2.toNat := congrArg Prod.snd heq
          have e3 : c.1 = d.1 := by omega
          have e4 : c.2 = d.2 := by omega
          exact Prod.ext e3 e4
        have hidxd : st.1.get_index d.1.toNat d.2.toNat
            = pidx m2.width ((d.1.toNat, d.2.toNat) : ℕ × ℕ) := by
          rw [hm2, remove_wall_width]
          rfl
        have hunvis1 : (m1.cellAt c.1.toNat c.2.toNat).visited = false := by
          rw [hm1, hidxd]
          rw [setVisitedAt_visited_other m2 hdgrid hcgrid2 htne]
          rw [hm2]
          rw [show st.1.remove_wall x y d.1.toNat d.2.toNat
            = st.1.remove_wall x y d.1.toNat d.2.toNat from rfl]
          rw [remove_wall_visited]
          exact hunvis
        exact ih (m1, st.2 ++ [(d.1.toNat, d.2.toNat)]) x y hl1 hxy1
          (fun e he => hreps e (List.mem_cons_of_mem d he))
          (List.nodup_cons.1 hnd).2 c hcr hb1 (by rw [hw1]; exact hb2) hb3
          (by rw [hh1]; exact hb4) hunvis1
      · exact ih st x y hlen hxy
          (fun e he => hreps e (List.mem_cons_of_mem d he))
          (List.nodup_cons.1 hnd).2 c hcr hb1 hb2 hb3 hb4 hunvis
      · exact ih st x y hlen hxy
          (fun e he => hreps e (List.mem_cons_of_mem d he))
          (List.nodup_cons.1 hnd).2 c hcr hb1 hb2 hb3 hb4 hunvis

/-- Claim C7: in the `prim` generator, the iteration that removes `(x, y)`
from the frontier connects EVERY in-grid neighbor of `(x, y)` that is
unvisited at that moment: the wall toward it is removed, it is marked
visited, and it is pushed on the frontier (multi-edge-per-pop). -/
theorem claim_C7_prim_multi_expansion (m : Maze) (fr : List (ℕ × ℕ)) (x y : ℕ)
    (hlen : m.cells.length = m.width * m.height)
    (hxy : inGrid m.width m.height (x, y)) (q : ℕ × ℕ)
    (hnbr : gridNbr (x, y) q) (hq : inGrid m.width m.height q)
    (hunvis : (m.cellAt q.1 q.2).visited = false) :
    openAdj (primNb (m, fr) x y
        [((x : ℤ), (y : ℤ) - 1), ((x : ℤ) + 1, (y : ℤ)),
         ((x : ℤ), (y : ℤ) + 1), ((x : ℤ) - 1, (y : ℤ))]).1 (x, y) q ∧
    ((primNb (m, fr) x y
        [((x : ℤ), (y : ℤ) - 1), ((x : ℤ) + 1, (y : ℤ)),
         ((x : ℤ), (y : ℤ) + 1), ((x : ℤ) - 1, (y : ℤ))]).1.cellAt q.1 q.2).visited
      = true ∧
    q ∈ (primNb (m, fr) x y
        [((x : ℤ), (y : ℤ) - 1), ((x : ℤ) + 1, (y : ℤ)),
         ((x : ℤ), (y : ℤ) + 1), ((x : ℤ) - 1, (y : ℤ))]).2 := by
  obtain ⟨i, hadj⟩ := hnbr
  have hreps : ∀ c ∈ [((x : ℤ), (y : ℤ) - 1), ((x : ℤ) + 1, (y : ℤ)),
      ((x : ℤ), (y : ℤ) + 1), ((x : ℤ) - 1, (y : ℤ))], ∃ j : Fin 4,
      c = ((x : ℤ) + (dirDelta j).1, (y : ℤ) + (dirDelta j).2) := by
    intro c hc
    simp only [List.mem_cons, List.not_mem_nil, or_false] at hc
    rcases hc with rfl | rfl | rfl | rfl
    · exact ⟨0, by refine Prod.ext ?_ ?_ <;>
        first | (simp only [dirDelta]; omega) | simp only [dirDelta]⟩
    · exact ⟨1, by refine Prod.ext ?_ ?_ <;>
        first | (simp only [dirDelta]; omega) | simp only [dirDelta]⟩
    · exact ⟨2, by refine Prod.ext ?_ ?_ <;>
        first | (simp only [dirDelta]; omega) | simp only [dirDelta]⟩
    · exact ⟨3, by refine Prod.ext ?_ ?_ <;>
        first | (simp only [dirDelta]; omega) | simp only [dirDelta]⟩
  have hnd : ([((x : ℤ), (y : ℤ) - 1), ((x : ℤ) + 1, (y : ℤ)),
      ((x : ℤ), (y : ℤ) + 1), ((x : ℤ) - 1, (y : ℤ))]).Nodup := by
    simp [List.nodup_cons, Prod.ext_iff]
    omega
  have hcmem : ((q.1 : ℤ), (q.2 : ℤ)) ∈ [((x : ℤ), (y : ℤ) - 1),
      ((x : ℤ) + 1, (y : ℤ)), ((x : ℤ), (y : ℤ) + 1), ((x : ℤ) - 1, (y : ℤ))] := by
    obtain ⟨e1, e2⟩ := hadj
    fin_cases i <;> simp only [dirDelta] at e1 e2 <;>
      simp only [List.mem_cons, Prod.mk.injEq] <;>
      [exact Or.inl ⟨by omega, by omega⟩;
       exact Or.inr (Or.inl ⟨by omega, by omega⟩);
       exact Or.inr (Or.inr (Or.inl ⟨by omega, by omega⟩));
       exact Or.inr (Or.inr (Or.inr (Or.inl ⟨by omega, by omega⟩)))]
  have hmain := primNb_effects _ (m, fr) x y hlen hxy hreps hnd
    ((q.1 : ℤ), (q.2 : ℤ)) hcmem (by omega)
    (by show (q.1 : ℤ) < (m.width : ℤ); exact_mod_cast hq.1)
    (by omega)
    (by show (q.2 : ℤ) < (m.height : ℤ); exact_mod_cast hq.2)
    (by simp only [Int.toNat_natCast]; exact hunvis)
  simp only [Int.toNat_natCast] at hmain
  exact hmain

/-- Witness for C7 on a concrete pop. -/
theorem claim_C7_prim_multi_expansion_witness :
    openAdj (primNb (Maze.new 2 1, ([] : List (ℕ × ℕ))) 0 0
        [((0 : ℤ), (0 : ℤ) - 1), ((0 : ℤ) + 1, (0 : ℤ)),
         ((0 : ℤ), (0 : ℤ) + 1), ((0 : ℤ) - 1, (0 : ℤ))]).1 (0, 0) (1, 0) ∧
    ((primNb (Maze.new 2 1, ([] : List (ℕ × ℕ))) 0 0
        [((0 : ℤ), (0 : ℤ) - 1), ((0 : ℤ) + 1, (0 : ℤ)),
         ((0 : ℤ), (0 : ℤ) + 1), ((0 : ℤ) - 1, (0 : ℤ))]).1.cellAt 1 0).visited
      = true ∧
    ((1, 0) : ℕ × ℕ) ∈ (primNb (Maze.new 2 1, ([] : List (ℕ × ℕ))) 0 0
        [((0 : ℤ), (0 : ℤ) - 1), ((0 : ℤ) + 1, (0 : ℤ)),
         ((0 : ℤ), (0 : ℤ) + 1), ((0 : ℤ) - 1, (0 : ℤ))]).2 :=
  claim_C7_prim_multi_expansion (Maze.new 2 1) [] 0 0 (by decide) (by decide)
    (1, 0) (by decide) (by decide) (by decide)

/-! ## Union-find: parent-chain theory -/

theorem iterate_root {s : List ℕ} {r : ℕ} (hr : isRootUF s r) (m : ℕ) :
    (parUF s)^[m] r = r :=
  Function.iterate_fixed hr m

theorem reaches_uniq {s : List ℕ} {x r1 r2 : ℕ} (h1 : ReachesUF s x r1)
    (h2 : ReachesUF s x r2) : r1 = r2 := by
  obtain ⟨k1, e1, hr1⟩ := h1
  obtain ⟨k2, e2, hr2⟩ := h2
  rcases Nat.le_total k1 k2 with hle | hle
  · obtain ⟨d, rfl⟩ := Nat.exists_eq_add_of_le hle
    rw [Nat.add_comm, Function.iterate_add_apply, e1, iterate_root hr1] at e2
    exact e2.symm ▸ rfl
  · obtain ⟨d, rfl⟩ := Nat.exists_eq_add_of_le hle
    rw [Nat.add_comm, Function.iterate_add_apply, e2, iterate_root hr2] at e1
    exact e1 ▸ rfl

theorem reaches_self {s : List ℕ} {r : ℕ} (hr : isRootUF s r) :
    ReachesUF s r r :=
  ⟨0, rfl, hr⟩

theorem reaches_shift_up {s : List ℕ} {x r : ℕ}
    (h : ReachesUF s (parUF s x) r) : ReachesUF s x r := by
  obtain ⟨k, e, hr⟩ := h
  exact ⟨k + 1, by rw [Function.iterate_succ_apply]; exact e, hr⟩

theorem reaches_shift_down {s : List ℕ} {x r : ℕ} (hx : ¬ isRootUF s x)
    (h : ReachesUF s x r) : ReachesUF s (parUF s x) r := by
  obtain ⟨k, e, hr⟩ := h
  cases k with
  | zero =>
    exact absurd (show isRootUF s x by rw [show x = r from e]; exact hr) hx
  | succ k' => exact ⟨k', by rw [Function.iterate_succ_apply] at e; exact e, hr⟩

theorem nonroot_lt_length {s : List ℕ} {x : ℕ} (hx : ¬ isRootUF s x) :
    x < s.length := by
  by_contra hge
  apply hx
  unfold isRootUF parUF
  rw [List.getD_eq_getElem?_getD, List.getElem?_eq_none (le_of_not_lt hge)]
  rfl

theorem reaches_bounded_hit {s : List ℕ} {x r : ℕ} (h : ReachesUF s x r) :
    ∃ k ≤ s.length, isRootUF s ((parUF s)^[k] x) := by
  obtain ⟨k0, e0, hr0⟩ := h
  have hex : ∃ k, isRootUF s ((parUF s)^[k] x) := ⟨k0, e0 ▸ hr0⟩
  obtain ⟨km, hhit, hmin⟩ : ∃ km, isRootUF s ((parUF s)^[km] x) ∧
      ∀ j, j < km → ¬ isRootUF s ((parUF s)^[j] x) :=
    ⟨Nat.find hex, Nat.find_spec hex, fun j hj => Nat.find_min hex hj⟩
  refine ⟨km, ?_, hhit⟩
  -- the nodes before the first hit are pairwise distinct non-roots < length
  have hinj : ∀ i < km, ∀ j < km, (parUF s)^[i] x = (parUF s)^[j] x → i = j := by
    intro i hi j hj heq
    by_contra hne
    rcases Nat.lt_or_ge i j with hij | hij
    · -- periodicity: the chain from i repeats with period j - i, so the
      -- root hit at km pulls back below km
      have hper : ∀ m, (parUF s)^[i + m] x = (parUF s)^[j + m] x := by
        intro m
        rw [Nat.add_comm i m, Nat.add_comm j m,
          Function.iterate_add_apply, Function.iterate_add_apply, heq]
      have hmle : j ≤ km := le_of_lt hj
      obtain ⟨d, rfl⟩ := Nat.exists_eq_add_of_le hmle
      have hpd := hper d
      have hhit2 : isRootUF s ((parUF s)^[i + d] x) := by rw [hpd]; exact hhit
      exact hmin _ (by omega) hhit2
    · rcases Nat.lt_or_ge j i with hji | hji
      · have hper : ∀ m, (parUF s)^[j + m] x = (parUF s)^[i + m] x := by
          intro m
          rw [Nat.add_comm j m, Nat.add_comm i m,
            Function.iterate_add_apply, Function.iterate_add_apply, heq]
        have hmle : i ≤ km := le_of_lt hi
        obtain ⟨d, rfl⟩ := Nat.exists_eq_add_of_le hmle
        have hpd := hper d
        have hhit2 : isRootUF s ((parUF s)^[j + d] x) := by rw [hpd]; exact hhit
        exact hmin _ (by omega) hhit2
      · omega
  have hmap : ∀ i < km, (parUF s)^[i] x < s.length := fun i hi =>
    nonroot_lt_length (hmin i hi)
  by_contra hgt
  push_neg at hgt
  have hcard := Finset.card_le_card_of_injOn
    (fun i => (parUF s)^[i] x)
    (fun i hi => Finset.mem_range.2 (hmap i (Finset.mem_range.1 hi)))
    (fun i hi j hj heq => hinj i (Finset.mem_range.1 hi) j (Finset.mem_range.1 hj) heq)
  rw [Finset.card_range, Finset.card_range] at hcard
  omega

theorem rootAux_spec : ∀ (f : ℕ) (s : List ℕ) (x : ℕ),
    (∃ k < f, isRootUF s ((parUF s)^[k] x)) →
    ReachesUF s x (rootAux f s x) ∧ isRootUF s (rootAux f s x) := by
  intro f
  induction f with
  | zero => intro s x ⟨k, hk, _⟩; omega
  | succ f' ih =>
    intro s x ⟨k, hk, hhit⟩
    by_cases hx : isRootUF s x
    · rw [rootAux, if_pos (show parUF s x = x from hx)]
      exact ⟨reaches_self hx, hx⟩
    · rw [rootAux, if_neg (show ¬ parUF s x = x from hx)]
      have hk0 : k ≠ 0 := by
        intro h0
        rw [h0] at hhit
        exact hx hhit
      have hhit2 : ∃ k2 < f', isRootUF s ((parUF s)^[k2] (parUF s x)) := by
        refine ⟨k - 1, by omega, ?_⟩
        rw [← Function.iterate_succ_apply]
        rw [show (k - 1).succ = k by omega]
        exact hhit
      obtain ⟨hre, hrt⟩ := ih s (parUF s x) hhit2
      exact ⟨reaches_shift_up hre, hrt⟩

theorem rootD_reaches {s : List ℕ} {x : ℕ} (hrooted : RootedUF s) :
    ReachesUF s x (rootD s x) ∧ isRootUF s (rootD s x) := by
  obtain ⟨r, hr⟩ := hrooted x
  obtain ⟨k, hk, hhit⟩ := reaches_bounded_hit hr
  exact rootAux_spec (s.length + 1) s x ⟨k, by omega, hhit⟩

theorem reaches_iff_rootD {s : List ℕ} (hrooted : RootedUF s) (x r : ℕ) :
    ReachesUF s x r ↔ rootD s x = r := by
  constructor
  · intro h
    exact reaches_uniq (rootD_reaches hrooted).1 h
  · rintro rfl
    exact (rootD_reaches hrooted).1

theorem rootD_of_isRoot {s : List ℕ} (hrooted : RootedUF s) {r : ℕ}
    (hr : isRootUF s r) : rootD s r = r :=
  (reaches_iff_rootD hrooted r r).1 (reaches_self hr)

theorem rootD_par {s : List ℕ} (hrooted : RootedUF s) {x : ℕ}
    (hx : ¬ isRootUF s x) : rootD s (parUF s x) = rootD s x := by
  rw [← reaches_iff_rootD hrooted]
  exact reaches_shift_down hx (rootD_reaches hrooted).1

theorem reaches_set_root_iff {s : List ℕ} {x r : ℕ}
    (hx : ¬ isRootUF s x) (hxr : ReachesUF s x r) :
    (∀ z, isRootUF (s.set x r) z ↔ isRootUF s z) ∧
    (∀ y r', ReachesUF (s.set x r) y r' ↔ ReachesUF s y r') := by
  have hrroot : isRootUF s r := hxr.choose_spec.2
  have hxlen : x < s.length := nonroot_lt_length hx
  have hrx : r ≠ x := fun hh => hx (hh ▸ hrroot)
  have hpar_a : parUF (s.set x r) x = r := by
    unfold parUF
    exact getD_set_self s x r x hxlen
  have hpar_o : ∀ z, z ≠ x → parUF (s.set x r) z = parUF s z := by
    intro z hz
    unfold parUF
    exact getD_set_ne s r z (fun hh => hz hh.symm)
  have hroot_iff : ∀ z, isRootUF (s.set x r) z ↔ isRootUF s z := by
    intro z
    by_cases hz : z = x
    · subst hz
      constructor
      · intro hrt
        exact absurd (hpar_a.symm.trans hrt) hrx
      · intro hrs
        exact absurd hrs hx
    · unfold isRootUF
      rw [hpar_o z hz]
  have hroot_t_r : isRootUF (s.set x r) r := (hroot_iff r).2 hrroot
  have fwd : ∀ k y r', (parUF (s.set x r))^[k] y = r' →
      isRootUF (s.set x r) r' → ReachesUF s y r' := by
    intro k
    induction k with
    | zero =>
      intro y r' he hroot
      rw [show y = r' from he]
      exact reaches_self ((hroot_iff r').1 hroot)
    | succ k' ihk =>
      intro y r' he hroot
      by_cases hy : isRootUF s y
      · rw [iterate_root ((hroot_iff y).2 hy)] at he
        rw [show y = r' from he]
        exact reaches_self ((hroot_iff r').1 hroot)
      · by_cases hyx : y = x
        · subst hyx
          rw [Function.iterate_succ_apply, hpar_a, iterate_root hroot_t_r] at he
          rw [← he]
          exact hxr
        · rw [Function.iterate_succ_apply, hpar_o y hyx] at he
          exact reaches_shift_up (ihk (parUF s y) r' he hroot)
  have bwd : ∀ k y r', (parUF s)^[k] y = r' → isRootUF s r' →
      ReachesUF (s.set x r) y r' := by
    intro k
    induction k with
    | zero =>
      intro y r' he hroot
      rw [show y = r' from he]
      exact reaches_self ((hroot_iff r').2 hroot)
    | succ k' ihk =>
      intro y r' he hroot
      by_cases hy : isRootUF s y
      · rw [iterate_root hy] at he
        rw [show y = r' from he]
        exact reaches_self ((hroot_iff r').2 hroot)
      · by_cases hyx : y = x
        · subst hyx
          have hy_r' : ReachesUF s y r' := ⟨k' + 1, he, hroot⟩
          rw [show r' = r from reaches_uniq hy_r' hxr]
          exact ⟨1, by rw [Function.iterate_one]; exact hpar_a, hroot_t_r⟩
        · rw [Function.iterate_succ_apply] at he
          have := ihk (parUF s y) r' he hroot
          obtain ⟨k2, he2, hr2⟩ := this
          exact ⟨k2 + 1, by
            rw [Function.iterate_succ_apply, hpar_o y hyx]; exact he2, hr2⟩
  refine ⟨hroot_iff, fun y r' => ⟨?_, ?_⟩⟩
  · rintro ⟨k, he, hroot⟩
    exact fwd k y r' he hroot
  · rintro ⟨k, he, hroot⟩
    exact bwd k y r' he hroot

theorem set_root_compress {s : List ℕ} (hrooted : RootedUF s) {x r : ℕ}
    (hxr : ReachesUF s x r) :
    RootedUF (s.set x r) ∧ (∀ z, isRootUF (s.set x r) z ↔ isRootUF s z) ∧
    (∀ y r', ReachesUF (s.set x r) y r' ↔ ReachesUF s y r') ∧
    (s.set x r).length = s.length := by
  by_cases hx : isRootUF s x
  · have hr : r = x := reaches_uniq hxr (reaches_self hx)
    have hset : s.set x r = s := by
      have h2 := set_getD_self s x x
      rw [show s.getD x x = x from hx] at h2
      rw [hr]
      exact h2
    rw [hset]
    exact ⟨hrooted, fun _ => Iff.rfl, fun _ _ => Iff.rfl, rfl⟩
  · obtain ⟨hroot_iff, hreach_iff⟩ := reaches_set_root_iff hx hxr
    refine ⟨?_, hroot_iff, hreach_iff, List.length_set s x r⟩
    intro y
    obtain ⟨ry, hry⟩ := hrooted y
    exact ⟨ry, (hreach_iff y ry).2 hry⟩

theorem reaches_union_main {s : List ℕ} {rx ry : ℕ}
    (hrx : isRootUF s rx) (hry : isRootUF s ry) (hne : rx ≠ ry)
    (hxlen : rx < s.length) :
    ∀ y r', ReachesUF (s.set rx ry) y r' ↔
      ∃ r0, ReachesUF s y r0 ∧ r' = if r0 = rx then ry else r0 := by
  have hpar_a : parUF (s.set rx ry) rx = ry := by
    unfold parUF
    exact getD_set_self s rx ry rx hxlen
  have hpar_o : ∀ z, z ≠ rx → parUF (s.set rx ry) z = parUF s z := by
    intro z hz
    unfold parUF
    exact getD_set_ne s ry z (fun hh => hz hh.symm)
  have hroot_t : ∀ z, z ≠ rx → (isRootUF (s.set rx ry) z ↔ isRootUF s z) := by
    intro z hz
    unfold isRootUF
    rw [hpar_o z hz]
  have hroot_t_ry : isRootUF (s.set rx ry) ry := (hroot_t ry hne.symm).2 hry
  have hnotroot_t_rx : ¬ isRootUF (s.set rx ry) rx := by
    unfold isRootUF
    rw [hpar_a]
    exact hne.symm
  have fwd : ∀ k y r', (parUF (s.set rx ry))^[k] y = r' →
      isRootUF (s.set rx ry) r' →
      ∃ r0, ReachesUF s y r0 ∧ r' = if r0 = rx then ry else r0 := by
    intro k
    induction k with
    | zero =>
      intro y r' he hroot
      simp only [Function.iterate_zero_apply] at he
      subst he
      have hyx : y ≠ rx := fun hh => hnotroot_t_rx (hh ▸ hroot)
      exact ⟨y, reaches_self ((hroot_t y hyx).1 hroot), by rw [if_neg hyx]⟩
    | succ k' ihk =>
      intro y r' he hroot
      by_cases hyx : y = rx
      · subst hyx
        rw [Function.iterate_succ_apply, hpar_a, iterate_root hroot_t_ry] at he
        exact ⟨y, reaches_self hrx, by rw [if_pos rfl, ← he]⟩
      · by_cases hy : isRootUF s y
        · rw [iterate_root ((hroot_t y hyx).2 hy)] at he
          subst he
          exact ⟨y, reaches_self hy, by rw [if_neg hyx]⟩
        · rw [Function.iterate_succ_apply, hpar_o y hyx] at he
          obtain ⟨r0, hre, hr0⟩ := ihk (parUF s y) r' he hroot
          exact ⟨r0, reaches_shift_up hre, hr0⟩
  have bwd : ∀ k y r0, (parUF s)^[k] y = r0 → isRootUF s r0 →
      ReachesUF (s.set rx ry) y (if r0 = rx then ry else r0) := by
    intro k
    induction k with
    | zero =>
      intro y r0 he hroot
      simp only [Function.iterate_zero_apply] at he
      subst he
      by_cases hyx : y = rx
      · rw [if_pos hyx]
        subst hyx
        exact ⟨1, by rw [Function.iterate_one]; exact hpar_a, hroot_t_ry⟩
      · rw [if_neg hyx]
        exact reaches_self ((hroot_t y hyx).2 hroot)
    | succ k' ihk =>
      intro y r0 he hroot
      by_cases hy : isRootUF s y
      · rw [iterate_root hy] at he
        subst he
        by_cases hyx : y = rx
        · rw [if_pos hyx]
          subst hyx
          exact ⟨1, by rw [Function.iterate_one]; exact hpar_a, hroot_t_ry⟩
        · rw [if_neg hyx]
          exact reaches_self ((hroot_t y hyx).2 hroot)
      · have hyx : y ≠ rx := fun hh => hy (hh ▸ hrx)
        rw [Function.iterate_succ_apply] at he
        have := ihk (parUF s y) r0 he hroot
        obtain ⟨k2, he2, hr2⟩ := this
        exact ⟨k2 + 1, by
          rw [Function.iterate_succ_apply, hpar_o y hyx]; exact he2, hr2⟩
  intro y r'
  constructor
  · rintro ⟨k, he, hroot⟩
    exact fwd k y r' he hroot
  · rintro ⟨r0, ⟨k, he, hroot⟩, rfl⟩
    exact bwd k y r0 he hroot

theorem rooted_union {s : List ℕ} (hrooted : RootedUF s) {rx ry : ℕ}
    (hrx : isRootUF s rx) (hry : isRootUF s ry) (hne : rx ≠ ry)
    (hxlen : rx < s.length) : RootedUF (s.set rx ry) := by
  intro y
  obtain ⟨r0, hr0⟩ := hrooted y
  exact ⟨if r0 = rx then ry else r0,
    (reaches_union_main hrx hry hne hxlen y _).2 ⟨r0, hr0, rfl⟩⟩

theorem getD_irrel {s : List ℕ} {x : ℕ} (hx : x < s.length) (d d' : ℕ) :
    s.getD x d = s.getD x d' := by
  rw [List.getD_eq_getElem s d hx, List.getD_eq_getElem s d' hx]

theorem parUF_lt {n : ℕ} {s : List ℕ} (hb : BoundedUF n s) {x : ℕ}
    (hx : x < n) : parUF s x < n := by
  have hlen : x < s.length := by rw [hb.1]; exact hx
  have : parUF s x = s.getD x 0 := getD_irrel hlen x 0
  rw [this]
  exact hb.2 x hx

theorem reaches_lt {n : ℕ} {s : List ℕ} (hb : BoundedUF n s) {x r : ℕ}
    (hx : x < n) (h : ReachesUF s x r) : r < n := by
  obtain ⟨k, e, _⟩ := h
  induction k generalizing x with
  | zero => simpa using e ▸ hx
  | succ k' ih =>
    rw [Function.iterate_succ_apply] at e
    exact ih (parUF_lt hb hx) e

theorem rootD_lt {n : ℕ} {s : List ℕ} (hb : BoundedUF n s)
    (hrooted : RootedUF s) {x : ℕ} (hx : x < n) : rootD s x < n :=
  reaches_lt hb hx (rootD_reaches hrooted).1

theorem bounded_set {n : ℕ} {s : List ℕ} (hb : BoundedUF n s) {x r : ℕ}
    (hx : x < n) (hr : r < n) : BoundedUF n (s.set x r) := by
  refine ⟨by rw [List.length_set]; exact hb.1, fun i hi => ?_⟩
  by_cases hix : i = x
  · subst hix
    rw [getD_set_self s i r 0 (by rw [hb.1]; exact hi)]
    exact hr
  · rw [getD_set_ne s r 0 (fun hh => hix hh.symm)]
    exact hb.2 i hi

theorem rootD_congr {s t : List ℕ} (hs : RootedUF s) (ht : RootedUF t)
    (hiff : ∀ y r', ReachesUF t y r' ↔ ReachesUF s y r') (y : ℕ) :
    rootD t y = rootD s y := by
  rw [← reaches_iff_rootD ht, hiff]
  exact (rootD_reaches hs).1

theorem findF_root {f : ℕ} {s : List ℕ} {x : ℕ} (hx : isRootUF s x) :
    findF (f + 1) s x = some (s, x) := by
  unfold findF
  rw [if_pos (show s.getD x x = x from hx)]

theorem findF_spec : ∀ (f : ℕ) (s : List ℕ) (x : ℕ),
    RootedUF s →
    (∃ k < f, isRootUF s ((parUF s)^[k] x)) →
    ∃ s', findF f s x = some (s', rootD s x) ∧ s'.length = s.length ∧
      RootedUF s' ∧ (∀ z, isRootUF s' z ↔ isRootUF s z) ∧
      (∀ y r', ReachesUF s' y r' ↔ ReachesUF s y r') ∧
      (∀ n, BoundedUF n s → BoundedUF n s') := by
  intro f
  induction f with
  | zero => rintro s x _ ⟨k, hk, _⟩; omega
  | succ f' ih =>
    rintro s x hrooted ⟨k, hk, hhit⟩
    by_cases hx : isRootUF s x
    · refine ⟨s, ?_, rfl, hrooted, fun z => Iff.rfl, fun y r' => Iff.rfl,
        fun n hb => hb⟩
      rw [findF_root hx, rootD_of_isRoot hrooted hx]
    · have hk0 : k ≠ 0 := by
        intro hh
        subst hh
        simp only [Function.iterate_zero_apply] at hhit
        exact hx hhit
      obtain ⟨k', rfl⟩ := Nat.exists_eq_succ_of_ne_zero hk0
      rw [Function.iterate_succ_apply] at hhit
      obtain ⟨s2, heq2, hlen2, hrooted2, hroots2, hreach2, hbdd2⟩ :=
        ih s (parUF s x) hrooted ⟨k', by omega, hhit⟩
      have hpar2 : rootD s (s.getD x x) = rootD s x := rootD_par hrooted hx
      have heq2' : findF f' s (s.getD x x) = some (s2, rootD s x) := by
        rw [← hpar2]
        exact heq2
      have heval : findF (f' + 1) s x = some (s2.set x (rootD s x), rootD s x) := by
        unfold findF
        rw [if_neg (show ¬ s.getD x x = x from hx), heq2']
      have hrx : ReachesUF s2 x (rootD s x) := by
        rw [hreach2]
        exact (rootD_reaches hrooted).1
      obtain ⟨hrt3, hroots3, hreach3, hlen3⟩ := set_root_compress hrooted2 hrx
      refine ⟨s2.set x (rootD s x), heval, ?_, hrt3, ?_, ?_, ?_⟩
      · rw [hlen3, hlen2]
      · intro z
        rw [hroots3 z, hroots2 z]
      · intro y r'
        rw [hreach3 y r', hreach2 y r']
      · intro n hb
        have hxn : x < n := by
          have hxlen : x < s.length := nonroot_lt_length hx
          rw [hb.1] at hxlen
          exact hxlen
        exact bounded_set (hbdd2 n hb) hxn (rootD_lt hb hrooted hxn)

theorem findF_full {n : ℕ} {s : List ℕ} (hok : UFok n s) (x : ℕ) :
    ∃ s', findF (s.length + 1) s x = some (s', rootD s x) ∧
      s'.length = s.length ∧ UFok n s' ∧
      (∀ y, rootD s' y = rootD s y) ∧
      (∀ z, isRootUF s' z ↔ isRootUF s z) ∧
      (∀ y r', ReachesUF s' y r' ↔ ReachesUF s y r') := by
  obtain ⟨hb, hrooted⟩ := hok
  obtain ⟨r, hr⟩ := hrooted x
  obtain ⟨k, hk, hhit⟩ := reaches_bounded_hit hr
  obtain ⟨s', heq, hlen, hrt, hroots, hreach, hbdd⟩ :=
    findF_spec (s.length + 1) s x hrooted ⟨k, by omega, hhit⟩
  exact ⟨s', heq, hlen, ⟨hbdd n hb, hrt⟩,
    fun y => rootD_congr hrooted hrt hreach y, hroots, hreach⟩

theorem rootD_union {s : List ℕ} (hrooted : RootedUF s) {rx ry : ℕ}
    (hrx : isRootUF s rx) (hry : isRootUF s ry) (hne : rx ≠ ry)
    (hxlen : rx < s.length) (y : ℕ) :
    rootD (s.set rx ry) y = if rootD s y = rx then ry else rootD s y := by
  have hroot_t := rooted_union hrooted hrx hry hne hxlen
  rw [← reaches_iff_rootD hroot_t, reaches_union_main hrx hry hne hxlen]
  exact ⟨rootD s y, (rootD_reaches hrooted).1, rfl⟩

theorem rootsCard_image_union {n : ℕ} {s : List ℕ} (hrooted : RootedUF s)
    {rx ry : ℕ} (hrx : isRootUF s rx) (hry : isRootUF s ry) (hne : rx ≠ ry)
    (hxlen : rx < s.length) (hryn : ry < n) :
    (Finset.range n).image (rootD (s.set rx ry)) =
      ((Finset.range n).image (rootD s)).erase rx := by
  ext z
  simp only [Finset.mem_image, Finset.mem_erase, Finset.mem_range]
  constructor
  · rintro ⟨y, hy, hz⟩
    rw [rootD_union hrooted hrx hry hne hxlen y] at hz
    by_cases hcase : rootD s y = rx
    · rw [if_pos hcase] at hz
      exact ⟨by rw [← hz]; exact hne.symm, ry, hryn, by
        rw [← hz]; exact rootD_of_isRoot hrooted hry⟩
    · rw [if_neg hcase] at hz
      exact ⟨by rw [← hz]; exact hcase, y, hy, hz⟩
  · rintro ⟨hzx, y, hy, hz⟩
    refine ⟨y, hy, ?_⟩
    rw [rootD_union hrooted hrx hry hne hxlen y, hz, if_neg (fun hh => hzx hh)]

theorem rootsCard_union {n : ℕ} {s : List ℕ} (hrooted : RootedUF s)
    {rx ry : ℕ} (hrx : isRootUF s rx) (hry : isRootUF s ry) (hne : rx ≠ ry)
    (hxlen : rx < s.length) (hrxn : rx < n) (hryn : ry < n) :
    rootsCard n (s.set rx ry) + 1 = rootsCard n s := by
  unfold rootsCard
  rw [rootsCard_image_union hrooted hrx hry hne hxlen hryn]
  have hmem : rx ∈ (Finset.range n).image (rootD s) :=
    Finset.mem_image.2 ⟨rx, Finset.mem_range.2 hrxn,
      rootD_of_isRoot hrooted hrx⟩
  rw [Finset.card_erase_of_mem hmem]
  have hpos : 0 < ((Finset.range n).image (rootD s)).card :=
    Finset.card_pos.2 ⟨rx, hmem⟩
  omega

theorem unionF_spec {n : ℕ} {s : List ℕ} (hok : UFok n s) {rx ry : ℕ}
    (hrx : isRootUF s rx) (hry : isRootUF s ry) (hne : rx ≠ ry)
    (hrxn : rx < n) (hryn : ry < n) :
    unionF s rx ry = some (s.set rx ry) ∧
    UFok n (s.set rx ry) ∧ (s.set rx ry).length = s.length ∧
    (∀ y, rootD (s.set rx ry) y =
      if rootD s y = rx then ry else rootD s y) ∧
    rootsCard n (s.set rx ry) + 1 = rootsCard n s := by
  obtain ⟨hb, hrooted⟩ := hok
  have hxlen : rx < s.length := by rw [hb.1]; exact hrxn
  refine ⟨?_, ⟨bounded_set hb hrxn hryn,
    rooted_union hrooted hrx hry hne hxlen⟩,
    by rw [List.length_set],
    rootD_union hrooted hrx hry hne hxlen,
    rootsCard_union hrooted hrx hry hne hxlen hrxn hryn⟩
  simp only [unionF, findF_root hrx, findF_root hry]

theorem rootsCard_congr {n : ℕ} {s t : List ℕ}
    (h : ∀ y, rootD t y = rootD s y) : rootsCard n t = rootsCard n s := by
  unfold rootsCard
  rw [Finset.image_congr (fun y _ => h y)]

theorem mazeReach_new {w h : ℕ} {p q : ℕ × ℕ}
    (hr : mazeReach (Maze.new w h) p q) : p = q := by
  induction hr with
  | refl => rfl
  | tail _ hstep ih =>
    obtain ⟨hb, _, hopen⟩ := hstep
    exact absurd hopen (new_not_openAdj w h hb)

theorem pidx_surj {w h i : ℕ} (hw : 0 < w) (hi : i < w * h) :
    ∃ p, inGrid w h p ∧ pidx w p = i := by
  refine ⟨(i % w, i / w), ⟨Nat.mod_lt i hw, ?_⟩, ?_⟩
  · exact Nat.div_lt_of_lt_mul hi
  · show i / w * w + i % w = i
    rw [Nat.mul_comm (i / w) w]
    exact Nat.div_add_mod i w

theorem range_all_roots (n : ℕ) (x : ℕ) : isRootUF (List.range n) x := by
  unfold isRootUF parUF
  by_cases hx : x < n
  · rw [List.getD_eq_getElem _ _ (by rw [List.length_range]; exact hx)]
    exact List.getElem_range _ _
  · rw [List.getD_eq_default _ _ (by rw [List.length_range]; omega)]

theorem range_rooted (n : ℕ) : RootedUF (List.range n) :=
  fun x => ⟨x, reaches_self (range_all_roots n x)⟩

theorem rootD_range (n x : ℕ) : rootD (List.range n) x = x :=
  rootD_of_isRoot (range_rooted n) (range_all_roots n x)

theorem range_bounded (n : ℕ) : BoundedUF n (List.range n) := by
  refine ⟨List.length_range n, fun i hi => ?_⟩
  rw [List.getD_eq_getElem _ _ (by rw [List.length_range]; exact hi)]
  rw [List.getElem_range _ _]
  exact hi

theorem rootsCard_range (n : ℕ) : rootsCard n (List.range n) = n := by
  unfold rootsCard
  rw [Finset.image_congr (fun y _ => rootD_range n y)]
  have himg : Finset.image (fun y => y) (Finset.range n) = Finset.range n := by
    ext z
    simp
  rw [himg, Finset.card_range]

theorem KInv_init (w h : ℕ) :
    KInv w h (Maze.new w h, List.range (w * h)) := by
  refine ⟨rfl, rfl, new_MazeWF w h, new_SymWalls w h, new_BoundaryClosed w h,
    ⟨range_bounded (w * h), range_rooted (w * h)⟩, ?_, ?_, ?_⟩
  · intro p q hp hq
    rw [rootD_range, rootD_range]
    constructor
    · intro heq
      rw [pidx_inj hp hq heq]
      exact Relation.ReflTransGen.refl
    · intro hr
      rw [mazeReach_new hr]
  · rw [removedWalls_new, Finset.card_empty, rootsCard_range]
    omega
  · rw [mazeGraphWH_new]
    exact SimpleGraph.isAcyclic_bot

theorem union_root_case (A B r1 r2 : ℕ) (hne : r1 ≠ r2) :
    ((if A = r1 then r2 else A) = (if B = r1 then r2 else B)) ↔
      (A = B ∨ (A = r1 ∧ B = r2) ∨ (A = r2 ∧ B = r1)) := by
  by_cases hA : A = r1 <;> by_cases hB : B = r1
  · rw [if_pos hA, if_pos hB]
    omega
  · rw [if_pos hA, if_neg hB]
    omega
  · rw [if_neg hA, if_pos hB]
    omega
  · rw [if_neg hA, if_neg hB]
    omega

theorem wallList_mem_east {w h : ℕ} {p q : ℕ × ℕ} (hp : inGrid w h p)
    (hq : inGrid w h q) (hadj : adjDir p q 1) :
    (p.1, p.2, q.1, q.2) ∈ wallList w h := by
  have hx : p.1 + 1 = q.1 ∧ p.2 = q.2 := by
    obtain ⟨h1, h2⟩ := hadj
    simp only [dirDelta] at h1 h2
    omega
  unfold wallList
  rw [List.mem_flatMap]
  refine ⟨p.2, List.mem_range.2 hp.2, ?_⟩
  rw [List.mem_flatMap]
  refine ⟨p.1, List.mem_range.2 hp.1, ?_⟩
  rw [List.mem_append]
  left
  have hc : p.1 < w - 1 := by
    have := hq.1
    omega
  rw [if_pos hc]
  rw [List.mem_singleton]
  rw [← hx.1, hx.2]

theorem wallList_mem_south {w h : ℕ} {p q : ℕ × ℕ} (hp : inGrid w h p)
    (hq : inGrid w h q) (hadj : adjDir p q 2) :
    (p.1, p.2, q.1, q.2) ∈ wallList w h := by
  have hx : p.1 = q.1 ∧ p.2 + 1 = q.2 := by
    obtain ⟨h1, h2⟩ := hadj
    simp only [dirDelta] at h1 h2
    omega
  unfold wallList
  rw [List.mem_flatMap]
  refine ⟨p.2, List.mem_range.2 hp.2, ?_⟩
  rw [List.mem_flatMap]
  refine ⟨p.1, List.mem_range.2 hp.1, ?_⟩
  rw [List.mem_append]
  right
  have hc : p.2 < h - 1 := by
    have := hq.2
    omega
  rw [if_pos hc]
  rw [List.mem_singleton]
  rw [← hx.2, hx.1]

theorem wallList_covers {w h : ℕ} {p q : ℕ × ℕ} (hp : inGrid w h p)
    (hq : inGrid w h q) {i : Fin 4} (hadj : adjDir p q i) :
    (p.1, p.2, q.1, q.2) ∈ wallList w h ∨
      (q.1, q.2, p.1, p.2) ∈ wallList w h := by
  fin_cases i
  · right
    exact wallList_mem_south hq hp (by
      have := adjDir_symm hadj
      simpa [oppDir] using this)
  · left
    exact wallList_mem_east hp hq hadj
  · left
    exact wallList_mem_south hp hq hadj
  · right
    exact wallList_mem_east hq hp (by
      have := adjDir_symm hadj
      simpa [oppDir] using this)

theorem wallList_mem_spec {w h : ℕ} {e : ℕ × ℕ × ℕ × ℕ}
    (he : e ∈ wallList w h) :
    ∃ i : Fin 4, inGrid w h (e.1, e.2.1) ∧ inGrid w h (e.2.2.1, e.2.2.2) ∧
      adjDir (e.1, e.2.1) (e.2.2.1, e.2.2.2) i := by
  unfold wallList at he
  rw [List.mem_flatMap] at he
  obtain ⟨y, hy, he⟩ := he
  rw [List.mem_flatMap] at he
  obtain ⟨x, hx, he⟩ := he
  rw [List.mem_range] at hy hx
  rw [List.mem_append] at he
  rcases he with he | he
  · by_cases hc : x < w - 1
    · rw [if_pos hc, List.mem_singleton] at he
      subst he
      refine ⟨1, ⟨hx, hy⟩, show inGrid w h (x + 1, y) from ⟨by omega, hy⟩,
        show adjDir (x, y) (x + 1, y) 1 from ⟨?_, ?_⟩⟩ <;>
        (show (_ : ℤ) + _ = _; simp [dirDelta])
    · rw [if_neg hc] at he
      exact absurd he (List.not_mem_nil _)
  · by_cases hc : y < h - 1
    · rw [if_pos hc, List.mem_singleton] at he
      subst he
      refine ⟨2, ⟨hx, hy⟩, show inGrid w h (x, y + 1) from ⟨hx, by omega⟩,
        show adjDir (x, y) (x, y + 1) 2 from ⟨?_, ?_⟩⟩ <;>
        (show (_ : ℤ) + _ = _; simp [dirDelta])
    · rw [if_neg hc] at he
      exact absurd he (List.not_mem_nil _)

set_option maxHeartbeats 1600000 in
theorem kruskalStep_spec {w h : ℕ} {m : Maze} {s : List ℕ}
    (hinv : KInv w h (m, s)) {e : ℕ × ℕ × ℕ × ℕ} (he : e ∈ wallList w h) :
    ∃ m2 s4, kruskalStep (m, s) e = some (m2, s4) ∧ KInv w h (m2, s4) ∧
      (∀ a b, mazeReach m a b → mazeReach m2 a b) ∧
      mazeReach m2 (e.1, e.2.1) (e.2.2.1, e.2.2.2) := by
  have dw : m.width = w := hinv.dw
  have dh : m.height = h := hinv.dh
  subst dw
  subst dh
  have wf : MazeWF m := hinv.wf
  have sym : SymWalls m := hinv.sym
  have bnd : BoundaryClosed m := hinv.bnd
  have uf : UFok (m.width * m.height) s := hinv.uf
  have rIff : ∀ a b : ℕ × ℕ, inGrid m.width m.height a →
      inGrid m.width m.height b →
      (rootD s (m.get_index a.1 a.2) = rootD s (m.get_index b.1 b.2) ↔
        mazeReach m a b) := hinv.rootIff
  have cnt : (removedWalls m).card + rootsCard (m.width * m.height) s
      = m.width * m.height := hinv.count
  have acyc : (mazeGraphWH m.width m.height m).IsAcyclic := hinv.acyc
  obtain ⟨i, hp, hq, hadj⟩ := wallList_mem_spec he
  obtain ⟨s1, heq1, hlen1, hok1, hD1, hR1, hRe1⟩ :=
    findF_full uf (m.get_index e.1 e.2.1)
  obtain ⟨s2, heq2, hlen2, hok2, hD2, hR2, hRe2⟩ :=
    findF_full hok1 (m.get_index e.2.2.1 e.2.2.2)
  have hD21 : ∀ y, rootD s2 y = rootD s y := fun y => (hD2 y).trans (hD1 y)
  by_cases hre : rootD s (m.get_index e.1 e.2.1)
      = rootD s (m.get_index e.2.2.1 e.2.2.2)
  · have heval : kruskalStep (m, s) e = some (m, s2) := by
      simp only [kruskalStep, heq1, heq2, hD1]
      rw [if_neg (not_not_intro hre)]
    refine ⟨m, s2, heval, ?_, fun a b hr => hr, (rIff _ _ hp hq).1 hre⟩
    refine ⟨rfl, rfl, wf, sym, bnd, hok2, ?_, ?_, acyc⟩
    · intro a b ha hb
      show rootD s2 (m.get_index a.1 a.2) = rootD s2 (m.get_index b.1 b.2) ↔
        mazeReach m a b
      rw [hD21, hD21]
      exact rIff a b ha hb
    · show (removedWalls m).card + rootsCard (m.width * m.height) s2
        = m.width * m.height
      rw [rootsCard_congr hD21]
      exact cnt
  · have hnreach : ¬ mazeReach m (e.1, e.2.1) (e.2.2.1, e.2.2.2) :=
      fun hr => hre ((rIff _ _ hp hq).2 hr)
    have hfresh : ¬ openAdj m (e.1, e.2.1) (e.2.2.1, e.2.2.2) :=
      fun hop => hnreach (Relation.ReflTransGen.single ⟨hp, hq, hop⟩)
    have hr1root : isRootUF s2 (rootD s (m.get_index e.1 e.2.1)) := by
      have hh : isRootUF s2 (rootD s2 (m.get_index e.1 e.2.1)) :=
        (rootD_reaches hok2.2).2
      rw [hD21] at hh
      exact hh
    have hr2root : isRootUF s2 (rootD s (m.get_index e.2.2.1 e.2.2.2)) := by
      have hh : isRootUF s2 (rootD s2 (m.get_index e.2.2.1 e.2.2.2)) :=
        (rootD_reaches hok2.2).2
      rw [hD21] at hh
      exact hh
    have hlt1 : rootD s (m.get_index e.1 e.2.1) < m.width * m.height :=
      rootD_lt uf.1 uf.2 (pidx_lt hp)
    have hlt2 : rootD s (m.get_index e.2.2.1 e.2.2.2) < m.width * m.height :=
      rootD_lt uf.1 uf.2 (pidx_lt hq)
    obtain ⟨hueq, hok3, hulen, huD, hucard⟩ :=
      unionF_spec hok2 hr1root hr2root hre hlt1 hlt2
    have heval : kruskalStep (m, s) e =
        some (m.remove_wall e.1 e.2.1 e.2.2.1 e.2.2.2,
          s2.set (rootD s (m.get_index e.1 e.2.1))
            (rootD s (m.get_index e.2.2.1 e.2.2.2))) := by
      simp only [kruskalStep, heq1, heq2, hD1]
      rw [if_pos hre, hueq]
    have hcard0 := removedWalls_remove_wall_card m hadj hp hq wf.len hfresh
    have hcard : (removedWalls (m.remove_wall e.1 e.2.1 e.2.2.1 e.2.2.2)).card
        = (removedWalls m).card + 1 := hcard0
    have hacy0 := remove_wall_acyclic m hadj hp hq wf.len hnreach acyc
    have hacy3 : (mazeGraphWH m.width m.height
        (m.remove_wall e.1 e.2.1 e.2.2.1 e.2.2.2)).IsAcyclic := hacy0
    have hwf3 := remove_wall_MazeWF m hadj hp hq wf
    have hsym3 := remove_wall_SymWalls m hadj hp hq wf.len sym
    have hbnd3 := remove_wall_BoundaryClosed m hadj hp hq wf.len bnd
    have hmono3 := fun (a b : ℕ × ℕ) (hr : mazeReach m a b) =>
      mazeReach_remove_wall_mono m hadj hp hq wf.len hr
    have hnew3 := mazeReach_remove_wall_new m hadj hp hq wf.len
    refine ⟨m.remove_wall e.1 e.2.1 e.2.2.1 e.2.2.2,
      s2.set (rootD s (m.get_index e.1 e.2.1))
        (rootD s (m.get_index e.2.2.1 e.2.2.2)), heval, ?_,
      hmono3, hnew3⟩
    refine ⟨remove_wall_width m _ _ _ _, remove_wall_height m _ _ _ _,
      hwf3, hsym3, hbnd3, hok3, ?_, ?_, hacy3⟩
    · intro a b ha hb
      show rootD (s2.set (rootD s (m.get_index e.1 e.2.1))
            (rootD s (m.get_index e.2.2.1 e.2.2.2))) (m.get_index a.1 a.2)
          = rootD (s2.set (rootD s (m.get_index e.1 e.2.1))
            (rootD s (m.get_index e.2.2.1 e.2.2.2))) (m.get_index b.1 b.2)
        ↔ mazeReach (m.remove_wall e.1 e.2.1 e.2.2.1 e.2.2.2) a b
      have hA3a : rootD (s2.set (rootD s (m.get_index e.1 e.2.1))
            (rootD s (m.get_index e.2.2.1 e.2.2.2))) (m.get_index a.1 a.2)
          = if rootD s (m.get_index a.1 a.2) = rootD s (m.get_index e.1 e.2.1)
            then rootD s (m.get_index e.2.2.1 e.2.2.2)
            else rootD s (m.get_index a.1 a.2) := by
        rw [huD (m.get_index a.1 a.2), hD21 (m.get_index a.1 a.2)]
      have hA3b : rootD (s2.set (rootD s (m.get_index e.1 e.2.1))
            (rootD s (m.get_index e.2.2.1 e.2.2.2))) (m.get_index b.1 b.2)
          = if rootD s (m.get_index b.1 b.2) = rootD s (m.get_index e.1 e.2.1)
            then rootD s (m.get_index e.2.2.1 e.2.2.2)
            else rootD s (m.get_index b.1 b.2) := by
        rw [huD (m.get_index b.1 b.2), hD21 (m.get_index b.1 b.2)]
      have hrw0 := mazeReach_remove_wall_iff m hadj hp hq wf.len a b
      have hrw : mazeReach (m.remove_wall e.1 e.2.1 e.2.2.1 e.2.2.2) a b ↔
          mazeReach m a b ∨
            (mazeReach m a (e.1, e.2.1) ∧ mazeReach m (e.2.2.1, e.2.2.2) b) ∨
            (mazeReach m a (e.2.2.1, e.2.2.2) ∧ mazeReach m (e.1, e.2.1) b) :=
        hrw0
      rw [hA3a, hA3b, union_root_case _ _ _ _ hre, hrw]
      have ea : mazeReach m a b ↔
          rootD s (m.get_index a.1 a.2) = rootD s (m.get_index b.1 b.2) :=
        (rIff a b ha hb).symm
      have eb : mazeReach m a (e.1, e.2.1) ↔
          rootD s (m.get_index a.1 a.2) = rootD s (m.get_index e.1 e.2.1) :=
        (rIff a (e.1, e.2.1) ha hp).symm
      have ec : mazeReach m (e.2.2.1, e.2.2.2) b ↔
          rootD s (m.get_index e.2.2.1 e.2.2.2) = rootD s (m.get_index b.1 b.2) :=
        (rIff (e.2.2.1, e.2.2.2) b hq hb).symm
      have ed : mazeReach m a (e.2.2.1, e.2.2.2) ↔
          rootD s (m.get_index a.1 a.2) = rootD s (m.get_index e.2.2.1 e.2.2.2) :=
        (rIff a (e.2.2.1, e.2.2.2) ha hq).symm
      have ee : mazeReach m (e.1, e.2.1) b ↔
          rootD s (m.get_index e.1 e.2.1) = rootD s (m.get_index b.1 b.2) :=
        (rIff (e.1, e.2.1) b hp hb).symm
      rw [ea, eb, ec, ed, ee]
      omega
    · show (removedWalls (m.remove_wall e.1 e.2.1 e.2.2.1 e.2.2.2)).card
          + rootsCard (m.width * m.height)
            (s2.set (rootD s (m.get_index e.1 e.2.1))
              (rootD s (m.get_index e.2.2.1 e.2.2.2))) = m.width * m.height
      have hc2 : rootsCard (m.width * m.height) s2
          = rootsCard (m.width * m.height) s := rootsCard_congr hD21
      omega

theorem kruskalLoop_spec {w h : ℕ} : ∀ (es : List (ℕ × ℕ × ℕ × ℕ)) (m : Maze)
    (s : List ℕ), KInv w h (m, s) → (∀ e ∈ es, e ∈ wallList w h) →
    ∃ m2 s2, kruskalLoop es (m, s) = some (m2, s2) ∧ KInv w h (m2, s2) ∧
      (∀ a b, mazeReach m a b → mazeReach m2 a b) ∧
      (∀ e ∈ es, mazeReach m2 (e.1, e.2.1) (e.2.2.1, e.2.2.2)) := by
  intro es
  induction es with
  | nil =>
    intro m s hinv _
    exact ⟨m, s, rfl, hinv, fun a b hr => hr,
      fun e he => absurd he (List.not_mem_nil e)⟩
  | cons e rest ih =>
    intro m s hinv hall
    obtain ⟨m1, s1, heval, hinv1, hmono1, hpair1⟩ :=
      kruskalStep_spec hinv (hall e (List.mem_cons_self e rest))
    obtain ⟨m2, s2, heval2, hinv2, hmono2, hpair2⟩ :=
      ih m1 s1 hinv1 (fun e2 he2 => hall e2 (List.mem_cons_of_mem e he2))
    refine ⟨m2, s2, ?_, hinv2, fun a b hr => hmono2 a b (hmono1 a b hr), ?_⟩
    · show (match kruskalStep (m, s) e with
        | none => none
        | some st2 => kruskalLoop rest st2) = some (m2, s2)
      rw [heval]
      exact heval2
    · intro e2 he2
      rcases List.mem_cons.1 he2 with heq | hmem
      · subst heq
        exact hmono2 _ _ hpair1
      · exact hpair2 e2 hmem

theorem connected_of_reach {w h : ℕ} {m : Maze} (hw : m.width = w)
    (hh : m.height = h) (h1 : 1 ≤ w) (h2 : 1 ≤ h)
    (hall : ∀ p q, inGrid w h p → inGrid w h q → mazeReach m p q) :
    (mazeGraph m).Connected := by
  subst hw
  subst hh
  rw [SimpleGraph.connected_iff]
  refine ⟨?_, ⟨(⟨0, h1⟩, ⟨0, h2⟩)⟩⟩
  intro u v
  have hr := mazeReach_to_reachable rfl rfl
    (hall (ofV u) (ofV v) (ofV_inGrid u) (ofV_inGrid v))
    (ofV_inGrid u) (ofV_inGrid v)
  exact hr

theorem acyclic_transport {w h : ℕ} {m : Maze} (hw : m.width = w)
    (hh : m.height = h) (hacy : (mazeGraphWH w h m).IsAcyclic) :
    (mazeGraph m).IsAcyclic := by
  subst hw
  subst hh
  exact hacy

theorem kruskal_perfect {w h : ℕ} (hw : 1 ≤ w) (hh : 1 ≤ h)
    {shuffled : List (ℕ × ℕ × ℕ × ℕ)}
    (hperm : shuffled.Perm (wallList w h)) :
    ∃ m2, kruskal (Maze.new w h) shuffled = some m2 ∧ IsPerfect m2 ∧
      (removedWalls m2).card = w * h - 1 ∧
      MazeWF m2 ∧ SymWalls m2 ∧ BoundaryClosed m2 ∧
      m2.width = w ∧ m2.height = h := by
  obtain ⟨m2, s2, heval, hinv, hmono, hpair⟩ :=
    kruskalLoop_spec shuffled (Maze.new w h) (List.range (w * h))
      (KInv_init w h) (fun e he => hperm.mem_iff.1 he)
  have hp0 : inGrid w h (0, 0) := ⟨hw, hh⟩
  have hadjreach : ∀ p q, inGrid w h p → inGrid w h q → gridNbr p q →
      mazeReach m2 p q := by
    rintro p q hp hq ⟨i, hadj⟩
    rcases wallList_covers hp hq hadj with hmem | hmem
    · exact hpair _ (hperm.mem_iff.2 hmem)
    · exact mazeReach_symm (hpair _ (hperm.mem_iff.2 hmem))
  have hall : ∀ p q, inGrid w h p → inGrid w h q → mazeReach m2 p q := by
    intro p q hp hq
    refine closed_under_grid_all (fun a => mazeReach m2 p a) ?_
      Relation.ReflTransGen.refl hp q hq
    intro a b hpa hstep
    exact hpa.trans (hadjreach a b hstep.1 hstep.2.1 hstep.2.2)
  have rIff2 : ∀ p q, inGrid w h p → inGrid w h q →
      (rootD s2 (pidx w p) = rootD s2 (pidx w q) ↔ mazeReach m2 p q) :=
    hinv.rootIff
  have hroots1 : rootsCard (w * h) s2 = 1 := by
    have himg : (Finset.range (w * h)).image (rootD s2)
        = {rootD s2 (pidx w (0, 0))} := by
      ext z
      simp only [Finset.mem_image, Finset.mem_range, Finset.mem_singleton]
      constructor
      · rintro ⟨j, hj, rfl⟩
        obtain ⟨p, hpg, hpi⟩ := pidx_surj hw hj
        subst hpi
        exact (rIff2 p (0, 0) hpg hp0).2 (hall p (0, 0) hpg hp0)
      · rintro rfl
        exact ⟨pidx w (0, 0), pidx_lt hp0, rfl⟩
    unfold rootsCard
    rw [himg, Finset.card_singleton]
  have hcnt : (removedWalls m2).card + rootsCard (w * h) s2 = w * h :=
    hinv.count
  have heval2 : kruskal (Maze.new w h) shuffled = some m2 := by
    unfold kruskal
    rw [show (Maze.new w h).width = w from rfl,
      show (Maze.new w h).height = h from rfl, heval]
    rfl
  refine ⟨m2, heval2, ⟨?_,
    connected_of_reach hinv.dw hinv.dh hw hh hall,
    acyclic_transport hinv.dw hinv.dh hinv.acyc⟩, by omega,
    hinv.wf, hinv.sym, hinv.bnd, hinv.dw, hinv.dh⟩
  have hdw : m2.width = w := hinv.dw
  have hdh : m2.height = h := hinv.dh
  rw [hdw, hdh]
  omega

theorem visitedCells_remove_wall (m : Maze) (x1 y1 x2 y2 : ℕ) :
    visitedCells (m.remove_wall x1 y1 x2 y2) = visitedCells m := by
  apply Finset.ext
  intro p
  simp only [visitedCells, Finset.mem_filter, remove_wall_width,
    remove_wall_height, remove_wall_visited]

theorem unvisited_split (m : Maze) :
    unvisitedCount m + (visitedCells m).card = m.width * m.height := by
  have hsplit : ((gridFinset m.width m.height).filter
        (fun c => (m.cellAt c.1 c.2).visited = true)).card
      + ((gridFinset m.width m.height).filter
        (fun c => ¬ (m.cellAt c.1 c.2).visited = true)).card
      = (gridFinset m.width m.height).card :=
    Finset.filter_card_add_filter_neg_card_eq_card _
  have hneg : (gridFinset m.width m.height).filter
        (fun c => ¬ (m.cellAt c.1 c.2).visited = true)
      = (gridFinset m.width m.height).filter
        (fun c => (m.cellAt c.1 c.2).visited = false) := by
    apply Finset.filter_congr
    intro c _
    rw [Bool.not_eq_true]
  rw [hneg, gridFinset_card] at hsplit
  unfold unvisitedCount visitedCells
  omega

theorem mazeReach_isolated {m : Maze} {p q : ℕ × ℕ}
    (hiso : ∀ b, inGrid m.width m.height b → ¬ openAdj m b q)
    (hne : p ≠ q) : ¬ mazeReach m p q := by
  intro hr
  rcases Relation.ReflTransGen.cases_tail hr with heq | ⟨c, _, hstep⟩
  · exact hne heq.symm
  · exact hiso c hstep.1 hstep.2.2

theorem GTInv_extend {w h : ℕ} {p0 : ℕ × ℕ} {m : Maze} (hinv : GTInv w h p0 m)
    {p q : ℕ × ℕ} {i : Fin 4} (hp : inGrid w h p) (hq : inGrid w h q)
    (hadj : adjDir p q i) (hpvis : (m.cellAt p.1 p.2).visited = true)
    (hqunvis : (m.cellAt q.1 q.2).visited = false) :
    GTInv w h p0 ((m.remove_wall p.1 p.2 q.1 q.2).setVisitedAt
      (m.get_index q.1 q.2)) ∧
    (((m.remove_wall p.1 p.2 q.1 q.2).setVisitedAt
      (m.get_index q.1 q.2)).cellAt q.1 q.2).visited = true ∧
    (∀ r : ℕ × ℕ, (m.cellAt r.1 r.2).visited = true →
      (((m.remove_wall p.1 p.2 q.1 q.2).setVisitedAt
        (m.get_index q.1 q.2)).cellAt r.1 r.2).visited = true) ∧
    openAdj ((m.remove_wall p.1 p.2 q.1 q.2).setVisitedAt
      (m.get_index q.1 q.2)) p q ∧
    unvisitedCount ((m.remove_wall p.1 p.2 q.1 q.2).setVisitedAt
      (m.get_index q.1 q.2)) + 1 = unvisitedCount m ∧
    (∀ r : ℕ × ℕ, inGrid w h r →
      (((m.remove_wall p.1 p.2 q.1 q.2).setVisitedAt
        (m.get_index q.1 q.2)).cellAt r.1 r.2).visited = true →
      (m.cellAt r.1 r.2).visited = true ∨ r = q) := by
  have dw : m.width = w := hinv.dw
  have dh : m.height = h := hinv.dh
  subst dw
  subst dh
  have hlen : m.cells.length = m.width * m.height := hinv.wf.len
  have hfresh : ¬ openAdj m p q :=
    fun hop => by
      have hv := (hinv.within p q hp hq hop).2
      rw [hqunvis] at hv
      exact absurd hv (by simp)
  have hne : p ≠ q := by
    intro heq
    rw [heq, hqunvis] at hpvis
    exact absurd hpvis (by simp)
  have hm1w : (m.remove_wall p.1 p.2 q.1 q.2).width = m.width :=
    remove_wall_width m _ _ _ _
  have hm1h : (m.remove_wall p.1 p.2 q.1 q.2).height = m.height :=
    remove_wall_height m _ _ _ _
  have hm1len : (m.remove_wall p.1 p.2 q.1 q.2).cells.length
      = (m.remove_wall p.1 p.2 q.1 q.2).width
        * (m.remove_wall p.1 p.2 q.1 q.2).height := by
    rw [remove_wall_length, hm1w, hm1h]
    exact hlen
  have hq1 : inGrid (m.remove_wall p.1 p.2 q.1 q.2).width
      (m.remove_wall p.1 p.2 q.1 q.2).height q := by
    rw [hm1w, hm1h]
    exact hq
  have hidx : m.get_index q.1 q.2
      = pidx (m.remove_wall p.1 p.2 q.1 q.2).width q := by
    show q.2 * m.width + q.1 = q.2 * (m.remove_wall p.1 p.2 q.1 q.2).width + q.1
    rw [hm1w]
  have hviseq : visitedCells ((m.remove_wall p.1 p.2 q.1 q.2).setVisitedAt
      (m.get_index q.1 q.2)) = insert q (visitedCells m) := by
    rw [hidx, visitedCells_setVisitedAt _ hq1 hm1len, visitedCells_remove_wall]
  have hvismono : ∀ r : ℕ × ℕ, (m.cellAt r.1 r.2).visited = true →
      (((m.remove_wall p.1 p.2 q.1 q.2).setVisitedAt
        (m.get_index q.1 q.2)).cellAt r.1 r.2).visited = true := by
    intro r hr
    apply setVisitedAt_visited_mono
    rw [remove_wall_visited]
    exact hr
  have hqvis : (((m.remove_wall p.1 p.2 q.1 q.2).setVisitedAt
      (m.get_index q.1 q.2)).cellAt q.1 q.2).visited = true := by
    rw [hidx]
    exact setVisitedAt_visited_self _ hq1 hm1len
  have hopen' : openAdj ((m.remove_wall p.1 p.2 q.1 q.2).setVisitedAt
      (m.get_index q.1 q.2)) p q := by
    rw [openAdj_setVisitedAt]
    rw [remove_wall_openAdj m hadj hp hq hlen hp hq]
    exact Or.inr (Or.inl ⟨rfl, rfl⟩)
  have hqnotmem : q ∉ visitedCells m := by
    intro hmem
    simp only [visitedCells, Finset.mem_filter] at hmem
    rw [hqunvis] at hmem
    exact absurd hmem.2 (by simp)
  have hrw : removedWalls ((m.remove_wall p.1 p.2 q.1 q.2).setVisitedAt
      (m.get_index q.1 q.2)) = removedWalls (m.remove_wall p.1 p.2 q.1 q.2) :=
    removedWalls_setVisitedAt _ _
  have hcard : (removedWalls (m.remove_wall p.1 p.2 q.1 q.2)).card
      = (removedWalls m).card + 1 :=
    removedWalls_remove_wall_card m hadj hp hq hlen hfresh
  have hw' : ((m.remove_wall p.1 p.2 q.1 q.2).setVisitedAt
      (m.get_index q.1 q.2)).width = m.width := hm1w
  have hh' : ((m.remove_wall p.1 p.2 q.1 q.2).setVisitedAt
      (m.get_index q.1 q.2)).height = m.height := hm1h
  have hnreach : ¬ mazeReach m p q := by
    apply mazeReach_isolated _ hne
    intro b hb hop
    have hv := (hinv.within b q hb hq hop).2
    rw [hqunvis] at hv
    exact absurd hv (by simp)
  have hreachmono : ∀ a b : ℕ × ℕ, mazeReach m a b →
      mazeReach ((m.remove_wall p.1 p.2 q.1 q.2).setVisitedAt
        (m.get_index q.1 q.2)) a b := by
    intro a b hr
    rw [mazeReach_setVisitedAt]
    exact mazeReach_remove_wall_mono m hadj hp hq hlen hr
  have hcount' : unvisitedCount ((m.remove_wall p.1 p.2 q.1 q.2).setVisitedAt
      (m.get_index q.1 q.2)) + 1 = unvisitedCount m := by
    have h1 := unvisited_split ((m.remove_wall p.1 p.2 q.1 q.2).setVisitedAt
      (m.get_index q.1 q.2))
    have h2 := unvisited_split m
    rw [hw', hh', hviseq, Finset.card_insert_of_not_mem hqnotmem] at h1
    omega
  have hvisback : ∀ r : ℕ × ℕ, inGrid m.width m.height r →
      (((m.remove_wall p.1 p.2 q.1 q.2).setVisitedAt
        (m.get_index q.1 q.2)).cellAt r.1 r.2).visited = true →
      (m.cellAt r.1 r.2).visited = true ∨ r = q := by
    intro r hr hvr
    by_cases hrq : r = q
    · exact Or.inr hrq
    · left
      rw [hidx, setVisitedAt_visited_other _ hq1
        (by rw [hm1w, hm1h]; exact hr) hrq, remove_wall_visited] at hvr
      exact hvr
  refine ⟨⟨hw', hh', ?_, ?_, ?_, ?_, ?_, ?_, ?_, ?_⟩, hqvis, hvismono, hopen',
    hcount', hvisback⟩
  · exact setVisitedAt_MazeWF _ _ (remove_wall_MazeWF m hadj hp hq hinv.wf)
  · exact setVisitedAt_SymWalls _ _
      (remove_wall_SymWalls m hadj hp hq hlen hinv.sym)
  · exact setVisitedAt_BoundaryClosed _ _
      (remove_wall_BoundaryClosed m hadj hp hq hlen hinv.bnd)
  · intro a b ha hb hop
    rw [openAdj_setVisitedAt, remove_wall_openAdj m hadj hp hq hlen ha hb] at hop
    rcases hop with hold | ⟨rfl, rfl⟩ | ⟨rfl, rfl⟩
    · obtain ⟨hva, hvb⟩ := hinv.within a b ha hb hold
      exact ⟨hvismono a hva, hvismono b hvb⟩
    · exact ⟨hvismono a hpvis, hqvis⟩
    · exact ⟨hqvis, hvismono b hpvis⟩
  · intro r hr
    rw [hviseq] at hr
    rcases Finset.mem_insert.1 hr with rfl | hrold
    · have hpmem : p ∈ visitedCells m := by
        simp only [visitedCells, Finset.mem_filter, gridFinset_mem]
        exact ⟨hp, hpvis⟩
      refine Relation.ReflTransGen.tail (hreachmono p0 p (hinv.reach p hpmem)) ?_
      refine ⟨?_, ?_, hopen'⟩
      · rw [inGrid, hw', hh']
        exact hp
      · rw [inGrid, hw', hh']
        exact hq
    · exact hreachmono p0 r (hinv.reach r hrold)
  · rw [hviseq]
    exact Finset.mem_insert_of_mem hinv.start
  · rw [hrw, hcard, hviseq, Finset.card_insert_of_not_mem hqnotmem]
    have := hinv.count
    omega
  · have hgeq : mazeGraphWH m.width m.height
        ((m.remove_wall p.1 p.2 q.1 q.2).setVisitedAt (m.get_index q.1 q.2))
        = mazeGraphWH m.width m.height (m.remove_wall p.1 p.2 q.1 q.2) :=
      mazeGraphWH_setVisitedAt _ _ _ _
    rw [hgeq]
    exact remove_wall_acyclic m hadj hp hq hlen hnreach hinv.acyc

theorem primNb_GT {w h : ℕ} {p0 : ℕ × ℕ} : ∀ (cands : List (ℤ × ℤ))
    (st : Maze × List (ℕ × ℕ)) (x y : ℕ),
    GTInv w h p0 st.1 →
    inGrid w h (x, y) →
    (st.1.cellAt x y).visited = true →
    (∀ c ∈ cands, ∃ i : Fin 4,
      c = ((x : ℤ) + (dirDelta i).1, (y : ℤ) + (dirDelta i).2)) →
    (∀ c ∈ st.2, inGrid w h c ∧ (st.1.cellAt c.1 c.2).visited = true) →
    GTInv w h p0 (primNb st x y cands).1 ∧
    (∀ r : ℕ × ℕ, (st.1.cellAt r.1 r.2).visited = true →
      ((primNb st x y cands).1.cellAt r.1 r.2).visited = true) ∧
    (∀ c ∈ (primNb st x y cands).2,
      inGrid w h c ∧ ((primNb st x y cands).1.cellAt c.1 c.2).visited = true) ∧
    (∀ r : ℕ × ℕ, inGrid w h r →
      ((primNb st x y cands).1.cellAt r.1 r.2).visited = true →
      (st.1.cellAt r.1 r.2).visited = true ∨ r ∈ (primNb st x y cands).2) ∧
    (primNb st x y cands).2.length + 2 * unvisitedCount (primNb st x y cands).1
      ≤ st.2.length + 2 * unvisitedCount st.1 ∧
    (∀ c ∈ st.2, c ∈ (primNb st x y cands).2) := by
  intro cands
  induction cands with
  | nil =>
    intro st x y hGT _ _ _ hfr
    exact ⟨hGT, fun r hr => hr, hfr, fun r _ hv => Or.inl hv, le_refl _,
      fun c hc => hc⟩
  | cons d rest ih =>
    intro st x y hGT hxy hxyvis hreps hfr
    rw [primNb_cons]
    by_cases hbnd : 0 ≤ d.1 ∧ d.1 < (st.1.width : ℤ) ∧ 0 ≤ d.2 ∧
        d.2 < (st.1.height : ℤ)
    · rw [if_pos hbnd]
      by_cases hvisd : (st.1.cells.getD (st.1.get_index d.1.toNat d.2.toNat)
          defaultCell).visited = false
      · rw [if_pos hvisd]
        obtain ⟨hd1, hd2, hd3, hd4⟩ := hbnd
        obtain ⟨i, hrep⟩ := hreps d (List.mem_cons_self _ _)
        have hadj : adjDir (x, y) (d.1.toNat, d.2.toNat) i :=
          adjDir_of_cand hrep hd1 hd3
        have dwst : st.1.width = w := hGT.dw
        have dhst : st.1.height = h := hGT.dh
        have hqgrid : inGrid w h (d.1.toNat, d.2.toNat) := by
          constructor
          · show d.1.toNat < w
            omega
          · show d.2.toNat < h
            omega
        have hqunvis : (st.1.cellAt d.1.toNat d.2.toNat).visited = false := hvisd
        obtain ⟨hGT', hqvis', hmono', hopen', hucnt', hback'⟩ :=
          GTInv_extend hGT hxy hqgrid hadj hxyvis hqunvis
        have hfr' : ∀ c ∈ st.2 ++ [(d.1.toNat, d.2.toNat)],
            inGrid w h c ∧
            (((st.1.remove_wall x y d.1.toNat d.2.toNat).setVisitedAt
              (st.1.get_index d.1.toNat d.2.toNat)).cellAt c.1 c.2).visited
              = true := by
          intro c hc
          rcases List.mem_append.1 hc with hco | hcn
          · obtain ⟨hg, hv⟩ := hfr c hco
            exact ⟨hg, hmono' c hv⟩
          · rw [List.mem_singleton.1 hcn]
            exact ⟨hqgrid, hqvis'⟩
        obtain ⟨iGT, imono, ifr, iback, icnt, ifmono⟩ :=
          ih ((st.1.remove_wall x y d.1.toNat d.2.toNat).setVisitedAt
              (st.1.get_index d.1.toNat d.2.toNat),
            st.2 ++ [(d.1.toNat, d.2.toNat)]) x y hGT' hxy
            (hmono' (x, y) hxyvis)
            (fun c hc => hreps c (List.mem_cons_of_mem d hc)) hfr'
        refine ⟨iGT, ?_, ifr, ?_, ?_, ?_⟩
        · intro r hr
          exact imono r (hmono' r hr)
        · intro r hrg hrv
          rcases iback r hrg hrv with hmid | hfin
          · rcases hback' r hrg hmid with hold | rfl
            · exact Or.inl hold
            · exact Or.inr (ifmono _
                (List.mem_append_right _ (List.mem_singleton.2 rfl)))
          · exact Or.inr hfin
        · have icnt2 : (primNb ((st.1.remove_wall x y d.1.toNat
                  d.2.toNat).setVisitedAt
                (st.1.get_index d.1.toNat d.2.toNat),
              st.2 ++ [(d.1.toNat, d.2.toNat)]) x y rest).2.length
              + 2 * unvisitedCount (primNb ((st.1.remove_wall x y d.1.toNat
                  d.2.toNat).setVisitedAt
                (st.1.get_index d.1.toNat d.2.toNat),
              st.2 ++ [(d.1.toNat, d.2.toNat)]) x y rest).1
              ≤ (st.2 ++ [(d.1.toNat, d.2.toNat)]).length
              + 2 * unvisitedCount ((st.1.remove_wall x y d.1.toNat
                  d.2.toNat).setVisitedAt
                (st.1.get_index d.1.toNat d.2.toNat)) := icnt
          have hlen2 : (st.2 ++ [(d.1.toNat, d.2.toNat)]).length
              = st.2.length + 1 := by
            rw [List.length_append, List.length_singleton]
          have hucnt2 : unvisitedCount ((st.1.remove_wall x y d.1.toNat
                d.2.toNat).setVisitedAt
              (st.1.get_index d.1.toNat d.2.toNat)) + 1
              = unvisitedCount st.1 := hucnt'
          omega
        · intro c hc
          exact ifmono c (List.mem_append_left _ hc)
      · rw [if_neg hvisd]
        exact ih st x y hGT hxy hxyvis
          (fun c hc => hreps c (List.mem_cons_of_mem d hc)) hfr
    · rw [if_neg hbnd]
      exact ih st x y hGT hxy hxyvis
        (fun c hc => hreps c (List.mem_cons_of_mem d hc)) hfr

theorem swapRemove_fst_mem (l : List (ℕ × ℕ)) (i : ℕ) (hi : i < l.length) :
    (swapRemove l i).1 ∈ l := by
  show l.getD i (0, 0) ∈ l
  rw [List.getD_eq_getElem l (0, 0) hi]
  exact List.getElem_mem hi

theorem swapRemove_snd_subset (l : List (ℕ × ℕ)) (i : ℕ) :
    ∀ p ∈ (swapRemove l i).2, p ∈ l := by
  intro p hp
  cases l with
  | nil =>
    exact absurd hp (List.not_mem_nil p)
  | cons a t =>
    have hp2 : p ∈ (a :: t).set i ((a :: t).getLast?.getD (0, 0)) :=
      List.dropLast_subset _ hp
    rcases List.mem_or_eq_of_mem_set hp2 with hmem | rfl
    · exact hmem
    · have hlast : (a :: t).getLast?.getD (0, 0) = (a :: t).getLast (by simp) := by
        rw [List.getLast?_eq_getLast (a :: t) (by simp)]
        rfl
      rw [hlast]
      exact List.getLast_mem _

theorem swapRemove_mem_of_ne (l : List (ℕ × ℕ)) (i : ℕ) (hi : i < l.length)
    (p : ℕ × ℕ) (hp : p ∈ l) (hne : p ≠ l.getD i (0, 0)) :
    p ∈ (swapRemove l i).2 := by
  obtain ⟨j, hj, hjp⟩ := List.getElem_of_mem hp
  have hji : j ≠ i := by
    intro heq
    subst heq
    apply hne
    rw [← hjp, List.getD_eq_getElem l (0, 0) hi]
  have hlpos : 0 < l.length := Nat.lt_of_le_of_lt (Nat.zero_le _) hj
  show p ∈ (l.set i (l.getLast?.getD (0, 0))).dropLast
  by_cases hjlast : j = l.length - 1
  · subst hjlast
    have hilt : i < l.length - 1 := by omega
    have hvlast : l.getLast?.getD (0, 0) = l[l.length - 1] := by
      have h1 : l.getLast? = l[l.length - 1]? := List.getLast?_eq_getElem? l
      rw [h1, List.getElem?_eq_getElem hj]
      rfl
    refine List.mem_iff_getElem.2 ⟨i, by
      rw [List.length_dropLast, List.length_set]
      omega, ?_⟩
    rw [List.getElem_dropLast, List.getElem_set_self, hvlast]
    exact hjp
  · have hjlt : j < l.length - 1 := by omega
    refine List.mem_iff_getElem.2 ⟨j, by
      rw [List.length_dropLast, List.length_set]
      omega, ?_⟩
    rw [List.getElem_dropLast, List.getElem_set_ne (fun hh => hji hh.symm)]
    exact hjp

theorem swapRemove_snd_len (l : List (ℕ × ℕ)) (i : ℕ) (hl : 0 < l.length) :
    (swapRemove l i).2.length + 1 = l.length := by
  show (l.set i (l.getLast?.getD (0, 0))).dropLast.length + 1 = l.length
  rw [List.length_dropLast, List.length_set]
  omega

theorem prim_cand_reps (x y : ℕ) : ∀ c ∈ [((x : ℤ), (y : ℤ) - 1),
    ((x : ℤ) + 1, (y : ℤ)), ((x : ℤ), (y : ℤ) + 1), ((x : ℤ) - 1, (y : ℤ))],
    ∃ j : Fin 4, c = ((x : ℤ) + (dirDelta j).1, (y : ℤ) + (dirDelta j).2) := by
  intro c hc
  simp only [List.mem_cons, List.not_mem_nil, or_false] at hc
  rcases hc with rfl | rfl | rfl | rfl
  · exact ⟨0, by refine Prod.ext ?_ ?_ <;>
      first | (simp only [dirDelta]; omega) | simp only [dirDelta]⟩
  · exact ⟨1, by refine Prod.ext ?_ ?_ <;>
      first | (simp only [dirDelta]; omega) | simp only [dirDelta]⟩
  · exact ⟨2, by refine Prod.ext ?_ ?_ <;>
      first | (simp only [dirDelta]; omega) | simp only [dirDelta]⟩
  · exact ⟨3, by refine Prod.ext ?_ ?_ <;>
      first | (simp only [dirDelta]; omega) | simp only [dirDelta]⟩

theorem prim_cand_nodup (x y : ℕ) : ([((x : ℤ), (y : ℤ) - 1),
    ((x : ℤ) + 1, (y : ℤ)), ((x : ℤ), (y : ℤ) + 1),
    ((x : ℤ) - 1, (y : ℤ))]).Nodup := by
  simp [List.nodup_cons, Prod.ext_iff]
  omega

theorem primNb_pop_covers (m : Maze) (fr : List (ℕ × ℕ)) (x y : ℕ)
    (hlen : m.cells.length = m.width * m.height)
    (hxy : inGrid m.width m.height (x, y)) (q : ℕ × ℕ)
    (hnbr : gridNbr (x, y) q) (hq : inGrid m.width m.height q)
    (hunvis : (m.cellAt q.1 q.2).visited = false) :
    ((primNb (m, fr) x y
        [((x : ℤ), (y : ℤ) - 1), ((x : ℤ) + 1, (y : ℤ)),
         ((x : ℤ), (y : ℤ) + 1), ((x : ℤ) - 1, (y : ℤ))]).1.cellAt q.1 q.2).visited
      = true := by
  obtain ⟨i, hadj⟩ := hnbr
  have hcmem : ((q.1 : ℤ), (q.2 : ℤ)) ∈ [((x : ℤ), (y : ℤ) - 1),
      ((x : ℤ) + 1, (y : ℤ)), ((x : ℤ), (y : ℤ) + 1), ((x : ℤ) - 1, (y : ℤ))] := by
    obtain ⟨e1, e2⟩ := hadj
    fin_cases i <;> simp only [dirDelta] at e1 e2 <;>
      simp only [List.mem_cons, Prod.mk.injEq] <;>
      [exact Or.inl ⟨by omega, by omega⟩;
       exact Or.inr (Or.inl ⟨by omega, by omega⟩);
       exact Or.inr (Or.inr (Or.inl ⟨by omega, by omega⟩));
       exact Or.inr (Or.inr (Or.inr (Or.inl ⟨by omega, by omega⟩)))]
  have hmain := primNb_effects _ (m, fr) x y hlen hxy (prim_cand_reps x y)
    (prim_cand_nodup x y)
    ((q.1 : ℤ), (q.2 : ℤ)) hcmem (by omega)
    (by show (q.1 : ℤ) < (m.width : ℤ); exact_mod_cast hq.1)
    (by omega)
    (by show (q.2 : ℤ) < (m.height : ℤ); exact_mod_cast hq.2)
    (by simp only [Int.toNat_natCast]; exact hunvis)
  simp only [Int.toNat_natCast] at hmain
  exact hmain.2.1

theorem prim_pop {w h : ℕ} {p0 : ℕ × ℕ} {m : Maze}
    {frontier rest : List (ℕ × ℕ)} {x y : ℕ}
    (hGT : GTInv w h p0 m)
    (hfr : ∀ c ∈ frontier, inGrid w h c ∧ (m.cellAt c.1 c.2).visited = true)
    (hclosed : ∀ p : ℕ × ℕ, inGrid w h p → (m.cellAt p.1 p.2).visited = true →
      p ∉ frontier → ∀ q, inGrid w h q → gridNbr p q →
        (m.cellAt q.1 q.2).visited = true)
    (hmem : (x, y) ∈ frontier)
    (hsub : ∀ p ∈ rest, p ∈ frontier)
    (hof : ∀ p ∈ frontier, p ≠ (x, y) → p ∈ rest) :
    GTInv w h p0 (primNb (m, rest) x y
      [((x : ℤ), (y : ℤ) - 1), ((x : ℤ) + 1, (y : ℤ)),
       ((x : ℤ), (y : ℤ) + 1), ((x : ℤ) - 1, (y : ℤ))]).1 ∧
    (∀ c ∈ (primNb (m, rest) x y
        [((x : ℤ), (y : ℤ) - 1), ((x : ℤ) + 1, (y : ℤ)),
         ((x : ℤ), (y : ℤ) + 1), ((x : ℤ) - 1, (y : ℤ))]).2,
      inGrid w h c ∧ ((primNb (m, rest) x y
        [((x : ℤ), (y : ℤ) - 1), ((x : ℤ) + 1, (y : ℤ)),
         ((x : ℤ), (y : ℤ) + 1), ((x : ℤ) - 1, (y : ℤ))]).1.cellAt
        c.1 c.2).visited = true) ∧
    (∀ p : ℕ × ℕ, inGrid w h p → ((primNb (m, rest) x y
        [((x : ℤ), (y : ℤ) - 1), ((x : ℤ) + 1, (y : ℤ)),
         ((x : ℤ), (y : ℤ) + 1), ((x : ℤ) - 1, (y : ℤ))]).1.cellAt
        p.1 p.2).visited = true →
      p ∉ (primNb (m, rest) x y
        [((x : ℤ), (y : ℤ) - 1), ((x : ℤ) + 1, (y : ℤ)),
         ((x : ℤ), (y : ℤ) + 1), ((x : ℤ) - 1, (y : ℤ))]).2 →
      ∀ q, inGrid w h q → gridNbr p q → ((primNb (m, rest) x y
        [((x : ℤ), (y : ℤ) - 1), ((x : ℤ) + 1, (y : ℤ)),
         ((x : ℤ), (y : ℤ) + 1), ((x : ℤ) - 1, (y : ℤ))]).1.cellAt
        q.1 q.2).visited = true) ∧
    (primNb (m, rest) x y
        [((x : ℤ), (y : ℤ) - 1), ((x : ℤ) + 1, (y : ℤ)),
         ((x : ℤ), (y : ℤ) + 1), ((x : ℤ) - 1, (y : ℤ))]).2.length
      + 2 * unvisitedCount (primNb (m, rest) x y
        [((x : ℤ), (y : ℤ) - 1), ((x : ℤ) + 1, (y : ℤ)),
         ((x : ℤ), (y : ℤ) + 1), ((x : ℤ) - 1, (y : ℤ))]).1
      ≤ rest.length + 2 * unvisitedCount m := by
  have hxy : inGrid w h (x, y) := (hfr (x, y) hmem).1
  have hxyvis : (m.cellAt x y).visited = true := (hfr (x, y) hmem).2
  have hfrrest : ∀ c ∈ rest, inGrid w h c ∧ (m.cellAt c.1 c.2).visited = true :=
    fun c hc => hfr c (hsub c hc)
  obtain ⟨iGT, imono, ifr, iback, icnt, ifmono⟩ :=
    primNb_GT [((x : ℤ), (y : ℤ) - 1), ((x : ℤ) + 1, (y : ℤ)),
       ((x : ℤ), (y : ℤ) + 1), ((x : ℤ) - 1, (y : ℤ))] (m, rest) x y
      hGT hxy hxyvis (prim_cand_reps x y) hfrrest
  have icnt2 : (primNb (m, rest) x y
        [((x : ℤ), (y : ℤ) - 1), ((x : ℤ) + 1, (y : ℤ)),
         ((x : ℤ), (y : ℤ) + 1), ((x : ℤ) - 1, (y : ℤ))]).2.length
      + 2 * unvisitedCount (primNb (m, rest) x y
        [((x : ℤ), (y : ℤ) - 1), ((x : ℤ) + 1, (y : ℤ)),
         ((x : ℤ), (y : ℤ) + 1), ((x : ℤ) - 1, (y : ℤ))]).1
      ≤ rest.length + 2 * unvisitedCount m := icnt
  refine ⟨iGT, ifr, ?_, icnt2⟩
  intro p hpg hpv hpnot q hqg hnbr
  have dwm : m.width = w := hGT.dw
  have dhm : m.height = h := hGT.dh
  rcases iback p hpg hpv with hpold | hpin
  · by_cases hpx : p = (x, y)
    · subst hpx
      by_cases hqv : (m.cellAt q.1 q.2).visited = true
      · exact imono q hqv
      · have hqunv : (m.cellAt q.1 q.2).visited = false := by
          cases hqq : (m.cellAt q.1 q.2).visited
          · rfl
          · exact absurd hqq hqv
        have hxy' : inGrid m.width m.height (x, y) := by
          rw [dwm, dhm]
          exact hxy
        have hq' : inGrid m.width m.height q := by
          rw [dwm, dhm]
          exact hqg
        exact primNb_pop_covers m rest x y hGT.wf.len hxy' q hnbr hq' hqunv
    · have hpnotf : p ∉ frontier := by
        intro hpf
        exact hpnot (ifmono p (hof p hpf hpx))
      exact imono q (hclosed p hpg hpold hpnotf q hqg hnbr)
  · exact absurd hpin hpnot

theorem primLoop_spec {w h : ℕ} {p0 : ℕ × ℕ} (picks : ℕ → ℕ) :
    ∀ (fuel t : ℕ) (m : Maze) (frontier : List (ℕ × ℕ)),
    GTInv w h p0 m →
    (∀ c ∈ frontier, inGrid w h c ∧ (m.cellAt c.1 c.2).visited = true) →
    (∀ p : ℕ × ℕ, inGrid w h p → (m.cellAt p.1 p.2).visited = true →
      p ∉ frontier → ∀ q, inGrid w h q → gridNbr p q →
        (m.cellAt q.1 q.2).visited = true) →
    frontier.length + 2 * unvisitedCount m < fuel →
    ∃ m2, primLoop picks fuel t m frontier = some m2 ∧ GTInv w h p0 m2 ∧
      ∀ p : ℕ × ℕ, inGrid w h p → (m2.cellAt p.1 p.2).visited = true := by
  intro fuel
  induction fuel with
  | zero =>
    intro t m frontier _ _ _ hlt
    omega
  | succ f ih =>
    intro t m frontier hGT hfr hclosed hlt
    by_cases hemp : frontier.isEmpty = true
    · refine ⟨m, ?_, hGT, ?_⟩
      · show primLoop picks (f + 1) t m frontier = some m
        simp only [primLoop]
        rw [if_pos hemp]
      · have hfe : frontier = [] := List.isEmpty_iff.1 hemp
        subst hfe
        intro p hpg
        have hstart : inGrid w h p0 ∧ (m.cellAt p0.1 p0.2).visited = true := by
          have hs := hGT.start
          simp only [visitedCells, Finset.mem_filter, gridFinset_mem] at hs
          obtain ⟨hs1, hs2⟩ := hs
          rw [hGT.dw, hGT.dh] at hs1
          exact ⟨hs1, hs2⟩
        refine closed_under_grid_all (fun r => (m.cellAt r.1 r.2).visited = true)
          ?_ hstart.2 hstart.1 p hpg
        intro a b hva hstep
        exact hclosed a hstep.1 hva (List.not_mem_nil a) b hstep.2.1 hstep.2.2
    · have hfne : frontier ≠ [] := fun hh => by
        rw [hh] at hemp
        exact hemp rfl
      have hflen : 0 < frontier.length := List.length_pos.2 hfne
      have hk : picks t % frontier.length < frontier.length :=
        Nat.mod_lt _ hflen
      have hmem : ((swapRemove frontier (picks t % frontier.length)).1.1,
          (swapRemove frontier (picks t % frontier.length)).1.2) ∈ frontier :=
        swapRemove_fst_mem frontier _ hk
      have hsub := swapRemove_snd_subset frontier (picks t % frontier.length)
      have hof : ∀ p ∈ frontier,
          p ≠ ((swapRemove frontier (picks t % frontier.length)).1.1,
            (swapRemove frontier (picks t % frontier.length)).1.2) →
          p ∈ (swapRemove frontier (picks t % frontier.length)).2 :=
        fun p hpf hpne => swapRemove_mem_of_ne frontier _ hk p hpf hpne
      obtain ⟨iGT, ifr, iclosed, icnt⟩ := prim_pop hGT hfr hclosed hmem hsub hof
      have hrlen : (swapRemove frontier (picks t % frontier.length)).2.length + 1
          = frontier.length := swapRemove_snd_len frontier _ hflen
      obtain ⟨m2, heq2, hGT2, hvis2⟩ :=
        ih (t + 1) _ _ iGT ifr iclosed (by omega)
      refine ⟨m2, ?_, hGT2, hvis2⟩
      show primLoop picks (f + 1) t m frontier = some m2
      simp only [primLoop]
      rw [if_neg hemp]
      exact heq2

theorem GTInv_start {w h : ℕ} {p0 : ℕ × ℕ} (hp0 : inGrid w h p0) :
    GTInv w h p0 ((Maze.new w h).setVisitedAt (pidx w p0)) := by
  have hlen : (Maze.new w h).cells.length = w * h := new_length w h
  have hvc : visitedCells ((Maze.new w h).setVisitedAt (pidx w p0))
      = {p0} := by
    have hvc0 : visitedCells ((Maze.new w h).setVisitedAt (pidx w p0))
        = insert p0 (visitedCells (Maze.new w h)) :=
      visitedCells_setVisitedAt (Maze.new w h) hp0 hlen
    rw [hvc0, visitedCells_new]
    rfl
  refine ⟨rfl, rfl,
    setVisitedAt_MazeWF _ _ (new_MazeWF w h),
    setVisitedAt_SymWalls _ _ (new_SymWalls w h),
    setVisitedAt_BoundaryClosed _ _ (new_BoundaryClosed w h), ?_, ?_, ?_, ?_, ?_⟩
  · intro p q hp _ hop
    rw [openAdj_setVisitedAt] at hop
    exact absurd hop (new_not_openAdj w h hp)
  · intro p hpmem
    rw [hvc, Finset.mem_singleton] at hpmem
    subst hpmem
    exact Relation.ReflTransGen.refl
  · rw [hvc]
    exact Finset.mem_singleton_self p0
  · rw [hvc, Finset.card_singleton, removedWalls_setVisitedAt, removedWalls_new,
      Finset.card_empty]
  · rw [mazeGraphWH_setVisitedAt, mazeGraphWH_new]
    exact SimpleGraph.isAcyclic_bot

theorem GTInv_perfect {w h : ℕ} {p0 : ℕ × ℕ} {m2 : Maze} (hw : 1 ≤ w)
    (hh : 1 ≤ h) (hGT2 : GTInv w h p0 m2)
    (hvis2 : ∀ p : ℕ × ℕ, inGrid w h p → (m2.cellAt p.1 p.2).visited = true) :
    IsPerfect m2 ∧ (removedWalls m2).card = w * h - 1 ∧
    MazeWF m2 ∧ SymWalls m2 ∧ BoundaryClosed m2 ∧
    m2.width = w ∧ m2.height = h := by
  have hvcells : (visitedCells m2).card = w * h := by
    have hveq : visitedCells m2 = gridFinset m2.width m2.height := by
      apply Finset.ext
      intro p
      simp only [visitedCells, Finset.mem_filter, gridFinset_mem]
      constructor
      · exact fun hpair => hpair.1
      · intro hg
        refine ⟨hg, ?_⟩
        rw [hGT2.dw, hGT2.dh] at hg
        exact hvis2 p hg
    rw [hveq, gridFinset_card, hGT2.dw, hGT2.dh]
  have hcount : (removedWalls m2).card + 1 = w * h := by
    have := hGT2.count
    omega
  have hall : ∀ p q, inGrid w h p → inGrid w h q → mazeReach m2 p q := by
    intro p q hp hq
    have hrp : mazeReach m2 p0 p := by
      apply hGT2.reach
      simp only [visitedCells, Finset.mem_filter, gridFinset_mem]
      refine ⟨?_, hvis2 p hp⟩
      rw [hGT2.dw, hGT2.dh]
      exact hp
    have hrq : mazeReach m2 p0 q := by
      apply hGT2.reach
      simp only [visitedCells, Finset.mem_filter, gridFinset_mem]
      refine ⟨?_, hvis2 q hq⟩
      rw [hGT2.dw, hGT2.dh]
      exact hq
    exact Relation.ReflTransGen.trans (mazeReach_symm hrp) hrq
  refine ⟨⟨?_, connected_of_reach hGT2.dw hGT2.dh hw hh hall,
    acyclic_transport hGT2.dw hGT2.dh hGT2.acyc⟩, by omega,
    hGT2.wf, hGT2.sym, hGT2.bnd, hGT2.dw, hGT2.dh⟩
  rw [hGT2.dw, hGT2.dh]
  omega

theorem prim_perfect {w h : ℕ} (hw : 1 ≤ w) (hh : 1 ≤ h) {sx sy : ℕ}
    (hsx : sx < w) (hsy : sy < h) (picks : ℕ → ℕ) :
    ∃ m2, prim (Maze.new w h) sx sy picks = some m2 ∧ IsPerfect m2 ∧
      (removedWalls m2).card = w * h - 1 ∧
      MazeWF m2 ∧ SymWalls m2 ∧ BoundaryClosed m2 ∧
      m2.width = w ∧ m2.height = h := by
  have hp0 : inGrid w h (sx, sy) := ⟨hsx, hsy⟩
  have hGT0 := GTInv_start hp0
  have hlen : (Maze.new w h).cells.length = w * h := new_length w h
  have hvis1 : (((Maze.new w h).setVisitedAt (pidx w (sx, sy))).cellAt
      sx sy).visited = true :=
    setVisitedAt_visited_self (Maze.new w h) hp0 hlen
  have hfr0 : ∀ c ∈ [(sx, sy)], inGrid w h c ∧
      (((Maze.new w h).setVisitedAt (pidx w (sx, sy))).cellAt
        c.1 c.2).visited = true := by
    intro c hc
    rw [List.mem_singleton.1 hc]
    exact ⟨hp0, hvis1⟩
  have hclosed0 : ∀ p : ℕ × ℕ, inGrid w h p →
      (((Maze.new w h).setVisitedAt (pidx w (sx, sy))).cellAt
        p.1 p.2).visited = true →
      p ∉ [(sx, sy)] → ∀ q, inGrid w h q → gridNbr p q →
      (((Maze.new w h).setVisitedAt (pidx w (sx, sy))).cellAt
        q.1 q.2).visited = true := by
    intro p hpg hpv hpnot q _ _
    exfalso
    apply hpnot
    have hpmem : p ∈ visitedCells ((Maze.new w h).setVisitedAt
        (pidx w (sx, sy))) := by
      simp only [visitedCells, Finset.mem_filter, gridFinset_mem]
      exact ⟨hpg, hpv⟩
    have hvc0 : visitedCells ((Maze.new w h).setVisitedAt (pidx w (sx, sy)))
        = insert (sx, sy) (visitedCells (Maze.new w h)) :=
      visitedCells_setVisitedAt (Maze.new w h) hp0 hlen
    rw [hvc0, visitedCells_new, Finset.mem_insert] at hpmem
    rcases hpmem with rfl | habs
    · exact List.mem_singleton_self _
    · exact absurd habs (Finset.not_mem_empty p)
  have hu0 : unvisitedCount ((Maze.new w h).setVisitedAt (pidx w (sx, sy)))
      + 1 = w * h := by
    have hs := unvisited_split ((Maze.new w h).setVisitedAt (pidx w (sx, sy)))
    have hvc0 : visitedCells ((Maze.new w h).setVisitedAt (pidx w (sx, sy)))
        = insert (sx, sy) (visitedCells (Maze.new w h)) :=
      visitedCells_setVisitedAt (Maze.new w h) hp0 hlen
    rw [hvc0, visitedCells_new] at hs
    simp only [Finset.card_insert_of_not_mem (Finset.not_mem_empty _),
      Finset.card_empty] at hs
    exact hs
  obtain ⟨m2, heq, hGT2, hvis2⟩ := primLoop_spec picks (2 * (w * h) + 1) 0
    ((Maze.new w h).setVisitedAt (pidx w (sx, sy))) [(sx, sy)]
    hGT0 hfr0 hclosed0 (by
      show 1 + 2 * unvisitedCount ((Maze.new w h).setVisitedAt
        (pidx w (sx, sy))) < 2 * (w * h) + 1
      have hwh : 1 ≤ w * h := Nat.one_le_iff_ne_zero.2 (by positivity)
      omega)
  obtain ⟨hperf, hcard, hwf2, hsym2, hbnd2, hdw2, hdh2⟩ :=
    GTInv_perfect hw hh hGT2 hvis2
  exact ⟨m2, heq, hperf, hcard, hwf2, hsym2, hbnd2, hdw2, hdh2⟩

theorem dfsNeighbors_mem {m : Maze} {x y : ℕ} {c : ℕ × ℕ} :
    c ∈ dfsNeighbors m x y ↔ ∃ i : Fin 4,
      (0 ≤ (x : ℤ) + (dirDelta i).1 ∧ (x : ℤ) + (dirDelta i).1 < (m.width : ℤ) ∧
       0 ≤ (y : ℤ) + (dirDelta i).2 ∧
       (y : ℤ) + (dirDelta i).2 < (m.height : ℤ)) ∧
      (m.cellAt ((x : ℤ) + (dirDelta i).1).toNat
        ((y : ℤ) + (dirDelta i).2).toNat).visited = false ∧
      c = (((x : ℤ) + (dirDelta i).1).toNat,
        ((y : ℤ) + (dirDelta i).2).toNat) := by
  unfold dfsNeighbors
  rw [List.mem_filterMap]
  constructor
  · rintro ⟨i, -, hf⟩
    dsimp only at hf
    split_ifs at hf with h1 h2
    rw [Option.some.injEq] at hf
    exact ⟨i, h1, h2, hf.symm⟩
  · rintro ⟨i, h1, h2, rfl⟩
    refine ⟨i, List.mem_finRange i, ?_⟩
    dsimp only
    rw [if_pos h1,
      if_pos (show (m.cells.getD (m.get_index ((x : ℤ) + (dirDelta i).1).toNat
        ((y : ℤ) + (dirDelta i).2).toNat) defaultCell).visited = false from h2)]

theorem dfsNeighbors_covers {w h : ℕ} {m : Maze} (hdw : m.width = w)
    (hdh : m.height = h) {x y : ℕ} {q : ℕ × ℕ}
    (hq : inGrid w h q) (hnbr : gridNbr (x, y) q)
    (hunv : (m.cellAt q.1 q.2).visited = false) :
    q ∈ dfsNeighbors m x y := by
  subst hdw
  subst hdh
  obtain ⟨i, e1, e2⟩ := hnbr
  have t1 : ((x : ℤ) + (dirDelta i).1).toNat = q.1 := by
    rw [e1]
    exact Int.toNat_natCast q.1
  have t2 : ((y : ℤ) + (dirDelta i).2).toNat = q.2 := by
    rw [e2]
    exact Int.toNat_natCast q.2
  rw [dfsNeighbors_mem]
  refine ⟨i, ⟨by rw [e1]; exact Int.natCast_nonneg q.1,
    by rw [e1]; exact_mod_cast hq.1,
    by rw [e2]; exact Int.natCast_nonneg q.2,
    by rw [e2]; exact_mod_cast hq.2⟩,
    by rw [t1, t2]; exact hunv,
    by rw [t1, t2]⟩

theorem dfs_choose {w h : ℕ} {m : Maze} (hdw : m.width = w) (hdh : m.height = h)
    {x y : ℕ} (k : ℕ) (hk : k < (dfsNeighbors m x y).length) :
    ∃ i : Fin 4, inGrid w h ((dfsNeighbors m x y).getD k (0, 0)) ∧
      adjDir (x, y) ((dfsNeighbors m x y).getD k (0, 0)) i ∧
      (m.cellAt ((dfsNeighbors m x y).getD k (0, 0)).1
        ((dfsNeighbors m x y).getD k (0, 0)).2).visited = false := by
  subst hdw
  subst hdh
  have hmem : (dfsNeighbors m x y).getD k (0, 0) ∈ dfsNeighbors m x y := by
    rw [List.getD_eq_getElem _ _ hk]
    exact List.getElem_mem hk
  obtain ⟨i, hb, hunv, hform⟩ := dfsNeighbors_mem.1 hmem
  obtain ⟨hb1, hb2, hb3, hb4⟩ := hb
  refine ⟨i, ?_, ?_, ?_⟩
  · rw [hform]
    constructor
    · show ((x : ℤ) + (dirDelta i).1).toNat < m.width
      omega
    · show ((y : ℤ) + (dirDelta i).2).toNat < m.height
      omega
  · rw [hform]
    exact adjDir_of_cand rfl hb1 hb3
  · rw [hform]
    exact hunv

theorem dfsLoop_spec {w h : ℕ} {p0 : ℕ × ℕ} (picks : ℕ → ℕ) :
    ∀ (fuel t : ℕ) (m : Maze) (stack : List (ℕ × ℕ)),
    GTInv w h p0 m →
    (∀ c ∈ stack, inGrid w h c ∧ (m.cellAt c.1 c.2).visited = true) →
    (∀ p : ℕ × ℕ, inGrid w h p → (m.cellAt p.1 p.2).visited = true →
      p ∉ stack → ∀ q, inGrid w h q → gridNbr p q →
        (m.cellAt q.1 q.2).visited = true) →
    stack.length + 2 * unvisitedCount m < fuel →
    ∃ m2, dfsLoop picks fuel t m stack = some m2 ∧ GTInv w h p0 m2 ∧
      ∀ p : ℕ × ℕ, inGrid w h p → (m2.cellAt p.1 p.2).visited = true := by
  intro fuel
  induction fuel with
  | zero =>
    intro t m stack _ _ _ hlt
    omega
  | succ f ih =>
    intro t m stack hGT hst hclosed hlt
    cases stack with
    | nil =>
      refine ⟨m, rfl, hGT, ?_⟩
      intro p hpg
      have hstart : inGrid w h p0 ∧ (m.cellAt p0.1 p0.2).visited = true := by
        have hs := hGT.start
        simp only [visitedCells, Finset.mem_filter, gridFinset_mem] at hs
        obtain ⟨hs1, hs2⟩ := hs
        rw [hGT.dw, hGT.dh] at hs1
        exact ⟨hs1, hs2⟩
      refine closed_under_grid_all (fun r => (m.cellAt r.1 r.2).visited = true)
        ?_ hstart.2 hstart.1 p hpg
      intro a b hva hstep
      exact hclosed a hstep.1 hva (List.not_mem_nil a) b hstep.2.1 hstep.2.2
    | cons hd rest =>
      obtain ⟨x, y⟩ := hd
      have hxyg : inGrid w h (x, y) := (hst (x, y) (List.mem_cons_self _ _)).1
      have hxyv : (m.cellAt x y).visited = true :=
        (hst (x, y) (List.mem_cons_self _ _)).2
      by_cases hemp : (dfsNeighbors m x y).isEmpty = true
      · have hclosed2 : ∀ p : ℕ × ℕ, inGrid w h p →
            (m.cellAt p.1 p.2).visited = true → p ∉ rest →
            ∀ q, inGrid w h q → gridNbr p q →
              (m.cellAt q.1 q.2).visited = true := by
          intro p hpg hpv hpnot q hqg hnbr
          by_cases hpx : p = (x, y)
          · subst hpx
            by_cases hqv : (m.cellAt q.1 q.2).visited = true
            · exact hqv
            · exfalso
              have hqunv : (m.cellAt q.1 q.2).visited = false := by
                cases hqq : (m.cellAt q.1 q.2).visited
                · rfl
                · exact absurd hqq hqv
              have hqmem := dfsNeighbors_covers hGT.dw hGT.dh hqg hnbr hqunv
              rw [List.isEmpty_iff.1 hemp] at hqmem
              exact List.not_mem_nil q hqmem
          · have hpns : p ∉ (x, y) :: rest := by
              intro hpc
              rcases List.mem_cons.1 hpc with hh | hh
              · exact hpx hh
              · exact hpnot hh
            exact hclosed p hpg hpv hpns q hqg hnbr
        have hlenr : ((x, y) :: rest).length = rest.length + 1 :=
          List.length_cons _ _
        obtain ⟨m2, heq2, hGT2, hvis2⟩ :=
          ih (t + 1) m rest hGT
            (fun c hc => hst c (List.mem_cons_of_mem _ hc))
            hclosed2 (by omega)
        refine ⟨m2, ?_, hGT2, hvis2⟩
        show dfsLoop picks (f + 1) t m ((x, y) :: rest) = some m2
        simp only [dfsLoop]
        rw [if_pos hemp]
        exact heq2
      · have hlen0 : 0 < (dfsNeighbors m x y).length := by
          cases hnn : dfsNeighbors m x y with
          | nil =>
            rw [hnn] at hemp
            exact absurd rfl hemp
          | cons a l =>
            simp
        have hk : picks t % (dfsNeighbors m x y).length
            < (dfsNeighbors m x y).length := Nat.mod_lt _ hlen0
        obtain ⟨i, hqg, hadj, hqunv⟩ := dfs_choose hGT.dw hGT.dh _ hk
        obtain ⟨hGT', hqvis', hmono', hopen', hucnt', hback'⟩ :=
          GTInv_extend hGT hxyg hqg hadj hxyv hqunv
        have hGTc : GTInv w h p0 ((m.remove_wall x y ((dfsNeighbors m x y).getD (picks t % (dfsNeighbors m x y).length) (0, 0)).1 ((dfsNeighbors m x y).getD (picks t % (dfsNeighbors m x y).length) (0, 0)).2).setVisitedAt (m.get_index ((dfsNeighbors m x y).getD (picks t % (dfsNeighbors m x y).length) (0, 0)).1 ((dfsNeighbors m x y).getD (picks t % (dfsNeighbors m x y).length) (0, 0)).2)) := hGT'
        have hucnt2 : unvisitedCount ((m.remove_wall x y ((dfsNeighbors m x y).getD (picks t % (dfsNeighbors m x y).length) (0, 0)).1 ((dfsNeighbors m x y).getD (picks t % (dfsNeighbors m x y).length) (0, 0)).2).setVisitedAt (m.get_index ((dfsNeighbors m x y).getD (picks t % (dfsNeighbors m x y).length) (0, 0)).1 ((dfsNeighbors m x y).getD (picks t % (dfsNeighbors m x y).length) (0, 0)).2)) + 1 = unvisitedCount m := hucnt'
        have hqvis2 : (((m.remove_wall x y ((dfsNeighbors m x y).getD (picks t % (dfsNeighbors m x y).length) (0, 0)).1 ((dfsNeighbors m x y).getD (picks t % (dfsNeighbors m x y).length) (0, 0)).2).setVisitedAt (m.get_index ((dfsNeighbors m x y).getD (picks t % (dfsNeighbors m x y).length) (0, 0)).1 ((dfsNeighbors m x y).getD (picks t % (dfsNeighbors m x y).length) (0, 0)).2)).cellAt ((dfsNeighbors m x y).getD (picks t % (dfsNeighbors m x y).length) (0, 0)).1 ((dfsNeighbors m x y).getD (picks t % (dfsNeighbors m x y).length) (0, 0)).2).visited = true := hqvis'
        have hmono2 : ∀ r : ℕ × ℕ, (m.cellAt r.1 r.2).visited = true →
            (((m.remove_wall x y ((dfsNeighbors m x y).getD (picks t % (dfsNeighbors m x y).length) (0, 0)).1 ((dfsNeighbors m x y).getD (picks t % (dfsNeighbors m x y).length) (0, 0)).2).setVisitedAt (m.get_index ((dfsNeighbors m x y).getD (picks t % (dfsNeighbors m x y).length) (0, 0)).1 ((dfsNeighbors m x y).getD (picks t % (dfsNeighbors m x y).length) (0, 0)).2)).cellAt r.1 r.2).visited = true := hmono'
        have hback2 : ∀ r : ℕ × ℕ, inGrid w h r →
            (((m.remove_wall x y ((dfsNeighbors m x y).getD (picks t % (dfsNeighbors m x y).length) (0, 0)).1 ((dfsNeighbors m x y).getD (picks t % (dfsNeighbors m x y).length) (0, 0)).2).setVisitedAt (m.get_index ((dfsNeighbors m x y).getD (picks t % (dfsNeighbors m x y).length) (0, 0)).1 ((dfsNeighbors m x y).getD (picks t % (dfsNeighbors m x y).length) (0, 0)).2)).cellAt r.1 r.2).visited = true →
            (m.cellAt r.1 r.2).visited = true ∨ r = (dfsNeighbors m x y).getD (picks t % (dfsNeighbors m x y).length) (0, 0) := hback'
        have hst2 : ∀ c ∈ ((dfsNeighbors m x y).getD (picks t % (dfsNeighbors m x y).length) (0, 0)) :: (x, y) :: rest,
            inGrid w h c ∧ (((m.remove_wall x y ((dfsNeighbors m x y).getD (picks t % (dfsNeighbors m x y).length) (0, 0)).1 ((dfsNeighbors m x y).getD (picks t % (dfsNeighbors m x y).length) (0, 0)).2).setVisitedAt (m.get_index ((dfsNeighbors m x y).getD (picks t % (dfsNeighbors m x y).length) (0, 0)).1 ((dfsNeighbors m x y).getD (picks t % (dfsNeighbors m x y).length) (0, 0)).2)).cellAt c.1 c.2).visited = true := by
          intro c hc
          rcases List.mem_cons.1 hc with rfl | hc2
          · exact ⟨hqg, hqvis2⟩
          · obtain ⟨hg, hv⟩ := hst c hc2
            exact ⟨hg, hmono2 c hv⟩
        have hclosed2 : ∀ p : ℕ × ℕ, inGrid w h p →
            (((m.remove_wall x y ((dfsNeighbors m x y).getD (picks t % (dfsNeighbors m x y).length) (0, 0)).1 ((dfsNeighbors m x y).getD (picks t % (dfsNeighbors m x y).length) (0, 0)).2).setVisitedAt (m.get_index ((dfsNeighbors m x y).getD (picks t % (dfsNeighbors m x y).length) (0, 0)).1 ((dfsNeighbors m x y).getD (picks t % (dfsNeighbors m x y).length) (0, 0)).2)).cellAt p.1 p.2).visited = true →
            p ∉ ((dfsNeighbors m x y).getD (picks t % (dfsNeighbors m x y).length) (0, 0)) :: (x, y) :: rest →
            ∀ q, inGrid w h q → gridNbr p q →
              (((m.remove_wall x y ((dfsNeighbors m x y).getD (picks t % (dfsNeighbors m x y).length) (0, 0)).1 ((dfsNeighbors m x y).getD (picks t % (dfsNeighbors m x y).length) (0, 0)).2).setVisitedAt (m.get_index ((dfsNeighbors m x y).getD (picks t % (dfsNeighbors m x y).length) (0, 0)).1 ((dfsNeighbors m x y).getD (picks t % (dfsNeighbors m x y).length) (0, 0)).2)).cellAt q.1 q.2).visited = true := by
          intro p hpg hpv hpnot q hqg2 hnbr
          have hpq : p ≠ (dfsNeighbors m x y).getD (picks t % (dfsNeighbors m x y).length) (0, 0) :=
            fun hh => hpnot (hh ▸ List.mem_cons_self _ _)
          have hpold : (m.cellAt p.1 p.2).visited = true := by
            rcases hback2 p hpg hpv with hh | hh
            · exact hh
            · exact absurd hh hpq
          have hpns : p ∉ (x, y) :: rest :=
            fun hh => hpnot (List.mem_cons_of_mem _ hh)
          exact hmono2 q (hclosed p hpg hpold hpns q hqg2 hnbr)
        obtain ⟨m2, heq2, hGT2, hvis2⟩ :=
          ih (t + 1) ((m.remove_wall x y ((dfsNeighbors m x y).getD (picks t % (dfsNeighbors m x y).length) (0, 0)).1 ((dfsNeighbors m x y).getD (picks t % (dfsNeighbors m x y).length) (0, 0)).2).setVisitedAt (m.get_index ((dfsNeighbors m x y).getD (picks t % (dfsNeighbors m x y).length) (0, 0)).1 ((dfsNeighbors m x y).getD (picks t % (dfsNeighbors m x y).length) (0, 0)).2)) (((dfsNeighbors m x y).getD (picks t % (dfsNeighbors m x y).length) (0, 0)) :: (x, y) :: rest) hGTc hst2 hclosed2 (by
            have hlen1 : (((dfsNeighbors m x y).getD (picks t % (dfsNeighbors m x y).length) (0, 0)) :: (x, y) :: rest).length
                = rest.length + 2 := by
              rw [List.length_cons, List.length_cons]
            have hlen3 : (((x, y) : ℕ × ℕ) :: rest).length = rest.length + 1 :=
              List.length_cons _ _
            omega)
        refine ⟨m2, ?_, hGT2, hvis2⟩
        show dfsLoop picks (f + 1) t m ((x, y) :: rest) = some m2
        simp only [dfsLoop]
        rw [if_neg hemp]
        exact heq2

theorem dfs_perfect {w h : ℕ} (hw : 1 ≤ w) (hh : 1 ≤ h) (picks : ℕ → ℕ) :
    ∃ m2, dfs (Maze.new w h) picks = some m2 ∧ IsPerfect m2 ∧
      (removedWalls m2).card = w * h - 1 ∧
      MazeWF m2 ∧ SymWalls m2 ∧ BoundaryClosed m2 ∧
      m2.width = w ∧ m2.height = h := by
  have hp0 : inGrid w h ((0, 0) : ℕ × ℕ) := ⟨hw, hh⟩
  have hlen : (Maze.new w h).cells.length = w * h := new_length w h
  have hpidx0 : pidx w ((0, 0) : ℕ × ℕ) = 0 := by
    show 0 * w + 0 = 0
    omega
  have hGT0 : GTInv w h (0, 0) ((Maze.new w h).setVisitedAt (pidx w (0, 0))) :=
    GTInv_start hp0
  rw [hpidx0] at hGT0
  have hvis1 : (((Maze.new w h).setVisitedAt (pidx w (0, 0))).cellAt
      0 0).visited = true :=
    setVisitedAt_visited_self (Maze.new w h) hp0 hlen
  rw [hpidx0] at hvis1
  have hvc0 : visitedCells ((Maze.new w h).setVisitedAt (pidx w (0, 0)))
      = insert (0, 0) (visitedCells (Maze.new w h)) :=
    visitedCells_setVisitedAt (Maze.new w h) hp0 hlen
  rw [hpidx0] at hvc0
  have hst0 : ∀ c ∈ [((0, 0) : ℕ × ℕ)], inGrid w h c ∧
      (((Maze.new w h).setVisitedAt 0).cellAt c.1 c.2).visited = true := by
    intro c hc
    rw [List.mem_singleton.1 hc]
    exact ⟨hp0, hvis1⟩
  have hclosed0 : ∀ p : ℕ × ℕ, inGrid w h p →
      (((Maze.new w h).setVisitedAt 0).cellAt p.1 p.2).visited = true →
      p ∉ [((0, 0) : ℕ × ℕ)] → ∀ q, inGrid w h q → gridNbr p q →
      (((Maze.new w h).setVisitedAt 0).cellAt q.1 q.2).visited = true := by
    intro p hpg hpv hpnot q _ _
    exfalso
    apply hpnot
    have hpmem : p ∈ visitedCells ((Maze.new w h).setVisitedAt 0) := by
      simp only [visitedCells, Finset.mem_filter, gridFinset_mem]
      exact ⟨hpg, hpv⟩
    rw [hvc0, visitedCells_new, Finset.mem_insert] at hpmem
    rcases hpmem with rfl | habs
    · exact List.mem_singleton_self _
    · exact absurd habs (Finset.not_mem_empty p)
  have hu0 : unvisitedCount ((Maze.new w h).setVisitedAt 0) + 1 = w * h := by
    have hs := unvisited_split ((Maze.new w h).setVisitedAt 0)
    rw [hvc0, visitedCells_new] at hs
    simp only [Finset.card_insert_of_not_mem (Finset.not_mem_empty _),
      Finset.card_empty] at hs
    exact hs
  obtain ⟨m2, heq, hGT2, hvis2⟩ := dfsLoop_spec picks (2 * (w * h) + 1) 0
    ((Maze.new w h).setVisitedAt 0) [(0, 0)] hGT0 hst0 hclosed0 (by
      show 1 + 2 * unvisitedCount ((Maze.new w h).setVisitedAt 0)
        < 2 * (w * h) + 1
      have hwh : 1 ≤ w * h := Nat.one_le_iff_ne_zero.2 (by positivity)
      omega)
  obtain ⟨hperf, hcard, hwf2, hsym2, hbnd2, hdw2, hdh2⟩ :=
    GTInv_perfect hw hh hGT2 hvis2
  exact ⟨m2, heq, hperf, hcard, hwf2, hsym2, hbnd2, hdw2, hdh2⟩

/-- Claim C1: for every `width ≥ 1` and `height ≥ 1` and every sequence of
random choices (a permutation of the candidate wall list for `kruskal`; an
in-grid start cell and frontier-pick sequence for `prim`; a neighbor-pick
sequence for `dfs`), each of the three generators, run on a freshly
constructed `Maze`, succeeds and produces a maze whose removed walls number
exactly `width*height - 1` and whose open-passage graph is connected and
acyclic (a spanning tree of the grid graph). -/
theorem claim_C1_spanning_tree (w h : ℕ) (hw : 1 ≤ w) (hh : 1 ≤ h)
    (shuffled : List (ℕ × ℕ × ℕ × ℕ)) (hperm : shuffled.Perm (wallList w h))
    (sx sy : ℕ) (hsx : sx < w) (hsy : sy < h) (pprim pdfs : ℕ → ℕ) :
    (∃ m2, kruskal (Maze.new w h) shuffled = some m2 ∧ IsPerfect m2 ∧
      (removedWalls m2).card = w * h - 1) ∧
    (∃ m2, prim (Maze.new w h) sx sy pprim = some m2 ∧ IsPerfect m2 ∧
      (removedWalls m2).card = w * h - 1) ∧
    (∃ m2, dfs (Maze.new w h) pdfs = some m2 ∧ IsPerfect m2 ∧
      (removedWalls m2).card = w * h - 1) := by
  obtain ⟨mk, hk1, hk2, hk3, -⟩ := kruskal_perfect hw hh hperm
  obtain ⟨mp, hp1, hp2, hp3, -⟩ := prim_perfect hw hh hsx hsy pprim
  obtain ⟨md, hd1, hd2, hd3, -⟩ := dfs_perfect hw hh pdfs
  exact ⟨⟨mk, hk1, hk2, hk3⟩, ⟨mp, hp1, hp2, hp3⟩, ⟨md, hd1, hd2, hd3⟩⟩

/-- Witness for C1 at the concrete instance `w = 2`, `h = 1` with the
identity shuffle, start cell `(0, 0)` and constant pick sequences. -/
theorem claim_C1_spanning_tree_witness :
    (1 ≤ 2) ∧ (1 ≤ 1) ∧ (0 < 2) ∧ (0 < 1) ∧
    ((∃ m2, kruskal (Maze.new 2 1) (wallList 2 1) = some m2 ∧ IsPerfect m2 ∧
      (removedWalls m2).card = 2 * 1 - 1) ∧
     (∃ m2, prim (Maze.new 2 1) 0 0 (fun _ => 0) = some m2 ∧ IsPerfect m2 ∧
      (removedWalls m2).card = 2 * 1 - 1) ∧
     (∃ m2, dfs (Maze.new 2 1) (fun _ => 0) = some m2 ∧ IsPerfect m2 ∧
      (removedWalls m2).card = 2 * 1 - 1)) :=
  ⟨by decide, by decide, by decide, by decide,
    claim_C1_spanning_tree 2 1 (by decide) (by decide) (wallList 2 1)
      (List.Perm.refl _) 0 0 (by decide) (by decide) (fun _ => 0) (fun _ => 0)⟩

theorem wallCount_split (c : Cell) :
    wallCount c
      + ((Finset.univ : Finset (Fin 4)).filter fun i => c.walls i = false).card
      = 4 := by
  have hgen : ∀ g : Fin 4 → Bool,
      (List.finRange 4).countP (fun i => g i)
        + ((Finset.univ : Finset (Fin 4)).filter fun i => g i = false).card
        = 4 := by
    decide
  exact hgen c.walls

theorem wallCount_le (c : Cell) : wallCount c ≤ 4 := by
  have hgen : ∀ g : Fin 4 → Bool, (List.finRange 4).countP (fun i => g i) ≤ 4 := by
    decide
  exact hgen c.walls

theorem openDirs_mem {m : Maze} {pi : (ℕ × ℕ) × Fin 4} :
    pi ∈ openDirs m ↔ inGrid m.width m.height pi.1 ∧
      (m.cellAt pi.1.1 pi.1.2).walls pi.2 = false := by
  unfold openDirs
  rw [Finset.mem_filter, Finset.mem_product, gridFinset_mem]
  constructor
  · rintro ⟨⟨hg, _⟩, hflag⟩
    exact ⟨hg, hflag⟩
  · rintro ⟨hg, hflag⟩
    exact ⟨⟨hg, Finset.mem_univ _⟩, hflag⟩

theorem sum_map_getD (f : Cell → ℕ) :
    ∀ l : List Cell, (l.map f).sum
      = ∑ j ∈ Finset.range l.length, f (l.getD j defaultCell) := by
  intro l
  induction l with
  | nil => simp
  | cons a t ih =>
    rw [List.map_cons, List.sum_cons, ih, List.length_cons,
      Finset.sum_range_succ']
    have hstep : ∀ j, f ((a :: t).getD (j + 1) defaultCell)
        = f (t.getD j defaultCell) := fun j => rfl
    rw [Finset.sum_congr rfl (fun j _ => hstep j)]
    have hzero : f ((a :: t).getD 0 defaultCell) = f a := rfl
    rw [hzero]
    omega

theorem sum_range_grid (w h : ℕ) (f : ℕ → ℕ) :
    ∑ j ∈ Finset.range (w * h), f j = ∑ p ∈ gridFinset w h, f (pidx w p) := by
  rcases Nat.eq_zero_or_pos w with hw0 | hwpos
  · subst hw0
    simp [gridFinset]
  apply Finset.sum_nbij' (fun j => (j % w, j / w)) (fun p => pidx w p)
  · intro j hj
    rw [Finset.mem_range] at hj
    rw [gridFinset_mem]
    exact ⟨Nat.mod_lt j hwpos, Nat.div_lt_of_lt_mul hj⟩
  · intro p hp
    rw [gridFinset_mem] at hp
    rw [Finset.mem_range]
    exact pidx_lt hp
  · intro j hj
    show pidx w (j % w, j / w) = j
    show j / w * w + j % w = j
    rw [Nat.mul_comm (j / w) w]
    exact Nat.div_add_mod j w
  · intro p hp
    rw [gridFinset_mem] at hp
    have hmod : pidx w p % w = p.1 ∧ pidx w p / w = p.2 := by
      constructor
      · show (p.2 * w + p.1) % w = p.1
        rw [Nat.mul_comm p.2 w, Nat.mul_add_mod]
        exact Nat.mod_eq_of_lt hp.1
      · show (p.2 * w + p.1) / w = p.2
        rw [Nat.mul_comm p.2 w, Nat.mul_add_div hwpos]
        rw [Nat.div_eq_of_lt hp.1]
        omega
    exact Prod.ext hmod.1 hmod.2
  · intro j hj
    have hpj : pidx w (j % w, j / w) = j := by
      show j / w * w + j % w = j
      rw [Nat.mul_comm (j / w) w]
      exact Nat.div_add_mod j w
    rw [hpj]

theorem totalBranches_sum {m : Maze} (hwf : MazeWF m) :
    m.totalBranches = ∑ p ∈ gridFinset m.width m.height,
      (4 - wallCount (m.cellAt p.1 p.2)) := by
  show (m.cells.map fun c => 4 - wallCount c).sum = _
  rw [sum_map_getD, hwf.len, sum_range_grid]
  rfl

theorem openDirs_card_sum (m : Maze) :
    (openDirs m).card = ∑ p ∈ gridFinset m.width m.height,
      ((Finset.univ : Finset (Fin 4)).filter
        fun i => (m.cellAt p.1 p.2).walls i = false).card := by
  rw [Finset.card_eq_sum_card_fiberwise
    (fun pi hpi => by
      rw [gridFinset_mem]
      exact (openDirs_mem.1 hpi).1)]
  apply Finset.sum_congr rfl
  intro p hp
  rw [gridFinset_mem] at hp
  have hfib : (openDirs m).filter (fun pi => pi.1 = p)
      = ({p} : Finset (ℕ × ℕ)) ×ˢ ((Finset.univ : Finset (Fin 4)).filter
        fun i => (m.cellAt p.1 p.2).walls i = false) := by
    apply Finset.ext
    rintro ⟨a, j⟩
    rw [Finset.mem_filter, Finset.mem_product, Finset.mem_singleton,
      Finset.mem_filter, openDirs_mem]
    constructor
    · rintro ⟨⟨hg, hflag⟩, rfl⟩
      exact ⟨rfl, Finset.mem_univ _, hflag⟩
    · rintro ⟨rfl, _, hflag⟩
      exact ⟨⟨hp, hflag⟩, rfl⟩
  rw [hfib, Finset.card_product, Finset.card_singleton, one_mul]

theorem totalBranches_openDirs {m : Maze} (hwf : MazeWF m) :
    m.totalBranches = (openDirs m).card := by
  rw [totalBranches_sum hwf, openDirs_card_sum]
  apply Finset.sum_congr rfl
  intro p _
  have hsplit := wallCount_split (m.cellAt p.1 p.2)
  omega

theorem adjDir_east (x y : ℕ) : adjDir (x, y) (x + 1, y) 1 := by
  refine ⟨?_, ?_⟩ <;> simp [dirDelta]

theorem adjDir_south (x y : ℕ) : adjDir (x, y) (x, y + 1) 2 := by
  refine ⟨?_, ?_⟩ <;> simp [dirDelta]

theorem openDirs_mapsto {m : Maze} (hsym : SymWalls m) (hbnd : BoundaryClosed m) :
    ∀ pi ∈ openDirs m, dirSlot pi ∈ removedWalls m := by
  rintro ⟨⟨x, y⟩, i⟩ hpi
  obtain ⟨hg, hflag⟩ := openDirs_mem.1 hpi
  obtain ⟨q, hqg, hadj⟩ := hbnd (x, y) i hg hflag
  have hqflag : (m.cellAt q.1 q.2).walls (oppDir i) = false := by
    rw [← hsym (x, y) q i hg hqg hadj]
    exact hflag
  have hopen : openAdj m (x, y) q := ⟨i, hadj, hflag, hqflag⟩
  rw [removedWalls_mem]
  fin_cases i
  · -- North: q = (x, y - 1), slot ((x, y-1), true)
    obtain ⟨e1, e2⟩ := hadj
    simp only [dirDelta] at e1 e2
    have hqe : q = (x, y - 1) := Prod.ext (by omega) (by omega)
    have hy1 : 1 ≤ y := by omega
    have hend : slotEnd (x, y - 1) true = (x, y) := by
      show ((x, y - 1).1, (x, y - 1).2 + 1) = (x, y)
      exact Prod.ext rfl (by omega)
    show inGrid m.width m.height (x, y - 1) ∧
      inGrid m.width m.height (slotEnd (x, y - 1) true) ∧
      openAdj m (x, y - 1) (slotEnd (x, y - 1) true)
    rw [hend]
    exact ⟨hqe ▸ hqg, hg, hqe ▸ openAdj_symm hopen⟩
  · -- East: q = (x + 1, y), slot ((x, y), false)
    obtain ⟨e1, e2⟩ := hadj
    simp only [dirDelta] at e1 e2
    have hqe : q = (x + 1, y) := Prod.ext (by omega) (by omega)
    show inGrid m.width m.height (x, y) ∧
      inGrid m.width m.height (slotEnd (x, y) false) ∧
      openAdj m (x, y) (slotEnd (x, y) false)
    have hend : slotEnd (x, y) false = (x + 1, y) := rfl
    rw [hend]
    exact ⟨hg, hqe ▸ hqg, hqe ▸ hopen⟩
  · -- South: q = (x, y + 1), slot ((x, y), true)
    obtain ⟨e1, e2⟩ := hadj
    simp only [dirDelta] at e1 e2
    have hqe : q = (x, y + 1) := Prod.ext (by omega) (by omega)
    show inGrid m.width m.height (x, y) ∧
      inGrid m.width m.height (slotEnd (x, y) true) ∧
      openAdj m (x, y) (slotEnd (x, y) true)
    have hend : slotEnd (x, y) true = (x, y + 1) := rfl
    rw [hend]
    exact ⟨hg, hqe ▸ hqg, hqe ▸ hopen⟩
  · -- West: q = (x - 1, y), slot ((x - 1, y), false)
    obtain ⟨e1, e2⟩ := hadj
    simp only [dirDelta] at e1 e2
    have hx1 : 1 ≤ x := by omega
    have hqe : q = (x - 1, y) := Prod.ext (by omega) (by omega)
    have hend : slotEnd (x - 1, y) false = (x, y) := by
      show ((x - 1, y).1 + 1, (x - 1, y).2) = (x, y)
      exact Prod.ext (by omega) rfl
    show inGrid m.width m.height (x - 1, y) ∧
      inGrid m.width m.height (slotEnd (x - 1, y) false) ∧
      openAdj m (x - 1, y) (slotEnd (x - 1, y) false)
    rw [hend]
    exact ⟨hqe ▸ hqg, hg, hqe ▸ openAdj_symm hopen⟩

theorem openDirs_fiber_false {m : Maze} (hbnd : BoundaryClosed m)
    {sx sy : ℕ} (hs : ((sx, sy), false) ∈ removedWalls m) :
    (openDirs m).filter (fun pi => dirSlot pi = ((sx, sy), false))
      = {((sx, sy), (1 : Fin 4)), ((sx + 1, sy), (3 : Fin 4))} := by
  obtain ⟨hg1, hg2, hopen⟩ := removedWalls_mem.1 hs
  have hg2' : inGrid m.width m.height (sx + 1, sy) := hg2
  obtain ⟨i0, hadj0, hf1, hf2⟩ := hopen
  have hi0 : i0 = 1 := adjDir_uniq hadj0 (adjDir_east sx sy)
  subst hi0
  have hf1' : (m.cellAt sx sy).walls 1 = false := hf1
  have hf2' : (m.cellAt (sx + 1) sy).walls 3 = false := hf2
  apply Finset.ext
  rintro ⟨⟨ax, ay⟩, j⟩
  rw [Finset.mem_filter, openDirs_mem, Finset.mem_insert, Finset.mem_singleton]
  constructor
  · rintro ⟨⟨hg, hflag⟩, hslot⟩
    fin_cases j
    · exact absurd (congrArg Prod.snd hslot) (by simp [dirSlot])
    · left
      have hax : ax = sx := congrArg (fun t => t.1.1) hslot
      have hay : ay = sy := congrArg (fun t => t.1.2) hslot
      rw [hax, hay]
      rfl
    · exact absurd (congrArg Prod.snd hslot) (by simp [dirSlot])
    · right
      obtain ⟨q, hqg, hadjq⟩ := hbnd (ax, ay) 3 hg hflag
      obtain ⟨e1, e2⟩ := hadjq
      simp only [dirDelta] at e1 e2
      have hax1 : 1 ≤ ax := by omega
      have hax : ax - 1 = sx := congrArg (fun t => t.1.1) hslot
      have hay : ay = sy := congrArg (fun t => t.1.2) hslot
      have : ax = sx + 1 := by omega
      rw [this, hay]
      rfl
  · rintro (heq | heq)
    · obtain ⟨h1, h2⟩ := Prod.mk.injEq .. ▸ heq
      refine ⟨⟨?_, ?_⟩, ?_⟩
      · rw [heq]
        exact hg1
      · rw [heq]
        exact hf1'
      · rw [heq]
        rfl
    · refine ⟨⟨?_, ?_⟩, ?_⟩
      · rw [heq]
        exact hg2'
      · rw [heq]
        exact hf2'
      · rw [heq]
        show ((sx + 1 - 1, sy), false) = ((sx, sy), false)
        have hst : sx + 1 - 1 = sx := by omega
        rw [hst]

theorem openDirs_fiber_true {m : Maze} (hbnd : BoundaryClosed m)
    {sx sy : ℕ} (hs : ((sx, sy), true) ∈ removedWalls m) :
    (openDirs m).filter (fun pi => dirSlot pi = ((sx, sy), true))
      = {((sx, sy), (2 : Fin 4)), ((sx, sy + 1), (0 : Fin 4))} := by
  obtain ⟨hg1, hg2, hopen⟩ := removedWalls_mem.1 hs
  have hg2' : inGrid m.width m.height (sx, sy + 1) := hg2
  obtain ⟨i0, hadj0, hf1, hf2⟩ := hopen
  have hi0 : i0 = 2 := adjDir_uniq hadj0 (adjDir_south sx sy)
  subst hi0
  have hf1' : (m.cellAt sx sy).walls 2 = false := hf1
  have hf2' : (m.cellAt sx (sy + 1)).walls 0 = false := hf2
  apply Finset.ext
  rintro ⟨⟨ax, ay⟩, j⟩
  rw [Finset.mem_filter, openDirs_mem, Finset.mem_insert, Finset.mem_singleton]
  constructor
  · rintro ⟨⟨hg, hflag⟩, hslot⟩
    fin_cases j
    · right
      obtain ⟨q, hqg, hadjq⟩ := hbnd (ax, ay) 0 hg hflag
      obtain ⟨e1, e2⟩ := hadjq
      simp only [dirDelta] at e1 e2
      have hay1 : 1 ≤ ay := by omega
      have hax : ax = sx := congrArg (fun t => t.1.1) hslot
      have hay : ay - 1 = sy := congrArg (fun t => t.1.2) hslot
      have hay2 : ay = sy + 1 := by omega
      rw [hax, hay2]
      rfl
    · exact absurd (congrArg Prod.snd hslot) (by simp [dirSlot])
    · left
      have hax : ax = sx := congrArg (fun t => t.1.1) hslot
      have hay : ay = sy := congrArg (fun t => t.1.2) hslot
      rw [hax, hay]
      rfl
    · exact absurd (congrArg Prod.snd hslot) (by simp [dirSlot])
  · rintro (heq | heq)
    · refine ⟨⟨?_, ?_⟩, ?_⟩
      · rw [heq]
        exact hg1
      · rw [heq]
        exact hf1'
      · rw [heq]
        rfl
    · refine ⟨⟨?_, ?_⟩, ?_⟩
      · rw [heq]
        exact hg2'
      · rw [heq]
        exact hf2'
      · rw [heq]
        show ((sx, sy + 1 - 1), true) = ((sx, sy), true)
        have hst : sy + 1 - 1 = sy := by omega
        rw [hst]

theorem totalBranches_eq {m : Maze} (hwf : MazeWF m) (hsym : SymWalls m)
    (hbnd : BoundaryClosed m) :
    m.totalBranches = 2 * (removedWalls m).card := by
  rw [totalBranches_openDirs hwf]
  rw [Finset.card_eq_sum_card_fiberwise (openDirs_mapsto hsym hbnd)]
  have hfib : ∀ s ∈ removedWalls m,
      ((openDirs m).filter fun pi => dirSlot pi = s).card = 2 := by
    rintro ⟨⟨sx, sy⟩, b⟩ hs
    cases b
    · rw [openDirs_fiber_false hbnd hs]
      rw [Finset.card_insert_of_not_mem (by
        rw [Finset.mem_singleton]
        intro hh
        have hcc := congrArg (fun t => t.1.1) hh
        dsimp only at hcc
        omega)]
      rw [Finset.card_singleton]
    · rw [openDirs_fiber_true hbnd hs]
      rw [Finset.card_insert_of_not_mem (by
        rw [Finset.mem_singleton]
        intro hh
        have hcc := congrArg (fun t => t.1.2) hh
        dsimp only at hcc
        omega)]
      rw [Finset.card_singleton]
  rw [Finset.sum_congr rfl hfib, Finset.sum_const, smul_eq_mul, Nat.mul_comm]

theorem branching_of_perfect {w h : ℕ} {m2 : Maze} (hw : 1 ≤ w) (hh : 1 ≤ h)
    (hwf : MazeWF m2) (hsym : SymWalls m2) (hbnd : BoundaryClosed m2)
    (hdw : m2.width = w) (hdh : m2.height = h)
    (hcard : (removedWalls m2).card = w * h - 1) :
    m2.totalBranches = 2 * (w * h - 1) ∧
    m2.calculate_branching_factor
      = ((2 * (w * h - 1) : ℕ) : ℚ) / ((w * h : ℕ) : ℚ) ∧
    0 ≤ m2.calculate_branching_factor ∧
    m2.calculate_branching_factor ≤ 4 := by
  have htb : m2.totalBranches = 2 * (w * h - 1) := by
    rw [totalBranches_eq hwf hsym hbnd, hcard]
  have hbf : m2.calculate_branching_factor
      = ((2 * (w * h - 1) : ℕ) : ℚ) / ((w * h : ℕ) : ℚ) := by
    unfold Maze.calculate_branching_factor
    rw [htb, hdw, hdh]
  refine ⟨htb, hbf, ?_, ?_⟩
  · rw [hbf]
    positivity
  · rw [hbf]
    have hwh1 : 1 ≤ w * h := Nat.one_le_iff_ne_zero.2 (by positivity)
    have hwh : (1 : ℚ) ≤ ((w * h : ℕ) : ℚ) := by exact_mod_cast hwh1
    rw [div_le_iff₀ (by linarith)]
    have hle : ((2 * (w * h - 1) : ℕ) : ℚ) ≤ 2 * ((w * h : ℕ) : ℚ) := by
      have hn : 2 * (w * h - 1) ≤ 2 * (w * h) := by omega
      calc ((2 * (w * h - 1) : ℕ) : ℚ) ≤ ((2 * (w * h) : ℕ) : ℚ) := by
            exact_mod_cast hn
        _ = 2 * ((w * h : ℕ) : ℚ) := by push_cast; ring
    linarith

/-- Claim C4: for every maze produced by any of the three generators on a
`width × height` grid (`width, height ≥ 1`), the total open-passage count
summed over all cells equals exactly `2*(width*height - 1)`, and
`calculate_branching_factor` returns exactly
`2*(width*height - 1)/(width*height)`, a value between `0` and `4`
inclusive. -/
theorem claim_C4_branching_factor (w h : ℕ) (hw : 1 ≤ w) (hh : 1 ≤ h)
    (shuffled : List (ℕ × ℕ × ℕ × ℕ)) (hperm : shuffled.Perm (wallList w h))
    (sx sy : ℕ) (hsx : sx < w) (hsy : sy < h) (pprim pdfs : ℕ → ℕ) :
    (∃ m2, kruskal (Maze.new w h) shuffled = some m2 ∧
      m2.totalBranches = 2 * (w * h - 1) ∧
      m2.calculate_branching_factor
        = ((2 * (w * h - 1) : ℕ) : ℚ) / ((w * h : ℕ) : ℚ) ∧
      0 ≤ m2.calculate_branching_factor ∧
      m2.calculate_branching_factor ≤ 4) ∧
    (∃ m2, prim (Maze.new w h) sx sy pprim = some m2 ∧
      m2.totalBranches = 2 * (w * h - 1) ∧
      m2.calculate_branching_factor
        = ((2 * (w * h - 1) : ℕ) : ℚ) / ((w * h : ℕ) : ℚ) ∧
      0 ≤ m2.calculate_branching_factor ∧
      m2.calculate_branching_factor ≤ 4) ∧
    (∃ m2, dfs (Maze.new w h) pdfs = some m2 ∧
      m2.totalBranches = 2 * (w * h - 1) ∧
      m2.calculate_branching_factor
        = ((2 * (w * h - 1) : ℕ) : ℚ) / ((w * h : ℕ) : ℚ) ∧
      0 ≤ m2.calculate_branching_factor ∧
      m2.calculate_branching_factor ≤ 4) := by
  obtain ⟨mk, hk1, -, hk3, hkwf, hksym, hkbnd, hkdw, hkdh⟩ :=
    kruskal_perfect hw hh hperm
  obtain ⟨mp, hp1, -, hp3, hpwf, hpsym, hpbnd, hpdw, hpdh⟩ :=
    prim_perfect hw hh hsx hsy pprim
  obtain ⟨md, hd1, -, hd3, hdwf, hdsym, hdbnd, hddw, hddh⟩ :=
    dfs_perfect hw hh pdfs
  exact ⟨⟨mk, hk1, branching_of_perfect hw hh hkwf hksym hkbnd hkdw hkdh hk3⟩,
    ⟨mp, hp1, branching_of_perfect hw hh hpwf hpsym hpbnd hpdw hpdh hp3⟩,
    ⟨md, hd1, branching_of_perfect hw hh hdwf hdsym hdbnd hddw hddh hd3⟩⟩

/-- Witness for C4 at the concrete instance `w = 2`, `h = 1`. -/
theorem claim_C4_branching_factor_witness :
    (1 ≤ 2) ∧ (1 ≤ 1) ∧
    ((∃ m2, kruskal (Maze.new 2 1) (wallList 2 1) = some m2 ∧
      m2.totalBranches = 2 * (2 * 1 - 1) ∧
      m2.calculate_branching_factor
        = ((2 * (2 * 1 - 1) : ℕ) : ℚ) / ((2 * 1 : ℕ) : ℚ) ∧
      0 ≤ m2.calculate_branching_factor ∧
      m2.calculate_branching_factor ≤ 4) ∧
    (∃ m2, prim (Maze.new 2 1) 0 0 (fun _ => 0) = some m2 ∧
      m2.totalBranches = 2 * (2 * 1 - 1) ∧
      m2.calculate_branching_factor
        = ((2 * (2 * 1 - 1) : ℕ) : ℚ) / ((2 * 1 : ℕ) : ℚ) ∧
      0 ≤ m2.calculate_branching_factor ∧
      m2.calculate_branching_factor ≤ 4) ∧
    (∃ m2, dfs (Maze.new 2 1) (fun _ => 0) = some m2 ∧
      m2.totalBranches = 2 * (2 * 1 - 1) ∧
      m2.calculate_branching_factor
        = ((2 * (2 * 1 - 1) : ℕ) : ℚ) / ((2 * 1 : ℕ) : ℚ) ∧
      0 ≤ m2.calculate_branching_factor ∧
      m2.calculate_branching_factor ≤ 4)) :=
  ⟨by decide, by decide,
    claim_C4_branching_factor 2 1 (by decide) (by decide) (wallList 2 1)
      (List.Perm.refl _) 0 0 (by decide) (by decide) (fun _ => 0) (fun _ => 0)⟩


set_option maxRecDepth 4000 in
theorem two_by_one_metrics {m2 : Maze} (hwf : MazeWF m2) (hsym : SymWalls m2)
    (hbnd : BoundaryClosed m2) (hdw : m2.width = 2) (hdh : m2.height = 1)
    (hcard : (removedWalls m2).card = 1) :
    removedWalls m2 = {((0, 0), false)} ∧
    m2.count_dead_ends = 2 ∧
    m2.measure_paths = some (1, 2, 2) ∧
    m2.calculate_branching_factor = 1 := by
  have hslots : slots m2.width m2.height = {((0, 0), false)} := by
    rw [hdw, hdh]
    decide
  have hsub : removedWalls m2 ⊆ {((0, 0), false)} := by
    rw [← hslots]
    exact Finset.filter_subset _ _
  have hrw : removedWalls m2 = {((0, 0), false)} :=
    Finset.eq_of_subset_of_card_le hsub (by
      rw [hcard, Finset.card_singleton])
  have hmem : ((0, 0), false) ∈ removedWalls m2 := by
    rw [hrw]
    exact Finset.mem_singleton_self _
  obtain ⟨hg1, hg2, hopen⟩ := removedWalls_mem.1 hmem
  obtain ⟨i0, hadj0, hf1, hf2⟩ := hopen
  have hi0 : i0 = 1 := adjDir_uniq hadj0 (adjDir_east 0 0)
  subst hi0
  have hf1' : (m2.cellAt 0 0).walls 1 = false := hf1
  have hf2' : (m2.cellAt 1 0).walls 3 = false := hf2
  have hfiber := openDirs_fiber_false hbnd hmem
  have htrue : ∀ (p : ℕ × ℕ) (i : Fin 4), inGrid m2.width m2.height p →
      ¬ ((p = (0, 0) ∧ i = 1) ∨ (p = (1, 0) ∧ i = 3)) →
      (m2.cellAt p.1 p.2).walls i = true := by
    intro p i hg hnot
    by_contra hne
    have hfalse : (m2.cellAt p.1 p.2).walls i = false := by
      cases hcc : (m2.cellAt p.1 p.2).walls i
      · rfl
      · exact absurd hcc hne
    have hpi : (p, i) ∈ openDirs m2 := openDirs_mem.2 ⟨hg, hfalse⟩
    have hslot : dirSlot (p, i) ∈ removedWalls m2 :=
      openDirs_mapsto hsym hbnd _ hpi
    rw [hrw, Finset.mem_singleton] at hslot
    have hfibmem : (p, i) ∈ (openDirs m2).filter
        (fun pi => dirSlot pi = ((0, 0), false)) :=
      Finset.mem_filter.2 ⟨hpi, hslot⟩
    rw [hfiber, Finset.mem_insert, Finset.mem_singleton] at hfibmem
    rcases hfibmem with hh | hh
    · exact hnot (Or.inl ⟨congrArg Prod.fst hh, congrArg Prod.snd hh⟩)
    · exact hnot (Or.inr ⟨congrArg Prod.fst hh, congrArg Prod.snd hh⟩)
  have hg00 : inGrid m2.width m2.height (0, 0) := by
    rw [hdw, hdh]
    exact ⟨by omega, by omega⟩
  have hg10 : inGrid m2.width m2.height (1, 0) := by
    rw [hdw, hdh]
    exact ⟨by omega, by omega⟩
  have hlen2 : m2.cells.length = 2 := by
    rw [hwf.len, hdw, hdh]
  obtain ⟨c0, c1, hcells⟩ := List.length_eq_two.1 hlen2
  have hidx0 : m2.get_index 0 0 = 0 := by
    show 0 * m2.width + 0 = 0
    omega
  have hidx1 : m2.get_index 1 0 = 1 := by
    show 0 * m2.width + 1 = 1
    omega
  have hc0 : m2.cellAt 0 0 = c0 := by
    show m2.cells.getD (m2.get_index 0 0) defaultCell = c0
    rw [hidx0, hcells]
    rfl
  have hc1 : m2.cellAt 1 0 = c1 := by
    show m2.cells.getD (m2.get_index 1 0) defaultCell = c1
    rw [hidx1, hcells]
    rfl
  have hcx0 : c0.x = 0 := by rw [← hc0]; exact hwf.coordX (0, 0) hg00
  have hcy0 : c0.y = 0 := by rw [← hc0]; exact hwf.coordY (0, 0) hg00
  have hcx1 : c1.x = 1 := by rw [← hc1]; exact hwf.coordX (1, 0) hg10
  have hcy1 : c1.y = 0 := by rw [← hc1]; exact hwf.coordY (1, 0) hg10
  have hw0 : c0.walls = fun i : Fin 4 => i != 1 := by
    funext i
    rw [← hc0]
    fin_cases i
    · exact htrue (0, 0) 0 hg00 (by decide)
    · exact hf1'
    · exact htrue (0, 0) 2 hg00 (by decide)
    · exact htrue (0, 0) 3 hg00 (by decide)
  have hw1 : c1.walls = fun i : Fin 4 => i != 3 := by
    funext i
    rw [← hc1]
    fin_cases i
    · exact htrue (1, 0) 0 hg10 (by decide)
    · exact htrue (1, 0) 1 hg10 (by decide)
    · exact htrue (1, 0) 2 hg10 (by decide)
    · exact hf2'
  refine ⟨hrw, ?_, ?_, ?_⟩ <;>
  · obtain ⟨c0x, c0y, c0v, c0w⟩ := c0
    obtain ⟨c1x, c1y, c1v, c1w⟩ := c1
    have e1 : c0x = 0 := hcx0
    have e2 : c0y = 0 := hcy0
    have e3 : c1x = 1 := hcx1
    have e4 : c1y = 0 := hcy1
    have e5 : c0w = fun i : Fin 4 => i != 1 := hw0
    have e6 : c1w = fun i : Fin 4 => i != 3 := hw1
    subst e1
    subst e2
    subst e3
    subst e4
    subst e5
    subst e6
    obtain ⟨mw, mh, mcells⟩ := m2
    have e7 : mw = 2 := hdw
    have e8 : mh = 1 := hdh
    subst e7
    subst e8
    have e9 : mcells = [⟨0, 0, c0v, fun i : Fin 4 => i != 1⟩,
        ⟨1, 0, c1v, fun i : Fin 4 => i != 3⟩] := hcells
    subst e9
    first
      | simp +decide [Maze.count_dead_ends, wallCount, finRange_four,
          List.countP, List.countP.go]
      | simp +decide [Maze.measure_paths, measurePathsAux,
          Maze.longest_path_from, dfsLP, dfsDirs, visSet, visGet, Maze.cellAt,
          Maze.get_index, dirDelta, defaultCell, finRange_four]
      | simp +decide [Maze.calculate_branching_factor, Maze.totalBranches,
          wallCount, finRange_four, List.countP, List.countP.go]

/-- Claim C8: on a `2 × 1` grid, every one of the three generators removes
exactly the single internal wall; afterwards `count_dead_ends` returns `2`,
`measure_paths` reports longest path length `1` (with path totals `2, 2`),
and the branching factor is exactly `1.0`. -/
theorem claim_C8_two_by_one (shuffled : List (ℕ × ℕ × ℕ × ℕ))
    (hperm : shuffled.Perm (wallList 2 1)) (sx sy : ℕ) (hsx : sx < 2)
    (hsy : sy < 1) (pprim pdfs : ℕ → ℕ) :
    (∃ m2, kruskal (Maze.new 2 1) shuffled = some m2 ∧
      removedWalls m2 = {((0, 0), false)} ∧ m2.count_dead_ends = 2 ∧
      m2.measure_paths = some (1, 2, 2) ∧
      m2.calculate_branching_factor = 1) ∧
    (∃ m2, prim (Maze.new 2 1) sx sy pprim = some m2 ∧
      removedWalls m2 = {((0, 0), false)} ∧ m2.count_dead_ends = 2 ∧
      m2.measure_paths = some (1, 2, 2) ∧
      m2.calculate_branching_factor = 1) ∧
    (∃ m2, dfs (Maze.new 2 1) pdfs = some m2 ∧
      removedWalls m2 = {((0, 0), false)} ∧ m2.count_dead_ends = 2 ∧
      m2.measure_paths = some (1, 2, 2) ∧
      m2.calculate_branching_factor = 1) := by
  obtain ⟨mk, hk1, -, hk3, hkwf, hksym, hkbnd, hkdw, hkdh⟩ :=
    kruskal_perfect (by omega) (by omega) hperm
  obtain ⟨mp, hp1, -, hp3, hpwf, hpsym, hpbnd, hpdw, hpdh⟩ :=
    prim_perfect (by omega) (by omega) hsx hsy pprim
  obtain ⟨md, hd1, -, hd3, hdwf, hdsym, hdbnd, hddw, hddh⟩ :=
    dfs_perfect (w := 2) (h := 1) (by omega) (by omega) pdfs
  exact ⟨⟨mk, hk1,
      two_by_one_metrics hkwf hksym hkbnd hkdw hkdh (by rw [hk3])⟩,
    ⟨mp, hp1,
      two_by_one_metrics hpwf hpsym hpbnd hpdw hpdh (by rw [hp3])⟩,
    ⟨md, hd1,
      two_by_one_metrics hdwf hdsym hdbnd hddw hddh (by rw [hd3])⟩⟩

/-- Witness for C8 with the identity shuffle, start `(0, 0)` and constant
pick sequences. -/
theorem claim_C8_two_by_one_witness :
    ((wallList 2 1).Perm (wallList 2 1)) ∧ (0 < 2) ∧ (0 < 1) ∧
    ((∃ m2, kruskal (Maze.new 2 1) (wallList 2 1) = some m2 ∧
      removedWalls m2 = {((0, 0), false)} ∧ m2.count_dead_ends = 2 ∧
      m2.measure_paths = some (1, 2, 2) ∧
      m2.calculate_branching_factor = 1) ∧
    (∃ m2, prim (Maze.new 2 1) 0 0 (fun _ => 0) = some m2 ∧
      removedWalls m2 = {((0, 0), false)} ∧ m2.count_dead_ends = 2 ∧
      m2.measure_paths = some (1, 2, 2) ∧
      m2.calculate_branching_factor = 1) ∧
    (∃ m2, dfs (Maze.new 2 1) (fun _ => 0) = some m2 ∧
      removedWalls m2 = {((0, 0), false)} ∧ m2.count_dead_ends = 2 ∧
      m2.measure_paths = some (1, 2, 2) ∧
      m2.calculate_branching_factor = 1)) :=
  ⟨List.Perm.refl _, by decide, by decide,
    claim_C8_two_by_one (wallList 2 1) (List.Perm.refl _) 0 0 (by decide)
      (by decide) (fun _ => 0) (fun _ => 0)⟩

/-- The `measure_paths` accumulator loop, stated against the per-start
results of `longest_path_from`: the fold computes the running maximum of the
first components, the sum of the first components and the sum of the second
components. -/
theorem measurePathsAux_fold (m : Maze) :
    ∀ (cs : List Cell) (rs : List (ℕ × ℕ)),
      List.Forall₂ (fun c r => m.longest_path_from c.x c.y = some r) cs rs →
      ∀ L T C, measurePathsAux m cs L T C =
        some ((rs.map Prod.fst).foldl max L,
          T + (rs.map Prod.fst).sum, C + (rs.map Prod.snd).sum) := by
  intro cs rs h
  induction h with
  | nil => intro L T C; simp [measurePathsAux]
  | @cons a b l₁ l₂ hab htail ih =>
    intro L T C
    obtain ⟨pl, pc⟩ := b
    show (match m.longest_path_from a.x a.y with
      | none => none
      | some (pl, pc) => measurePathsAux m l₁ (max L pl) (T + pl) (C + pc)) = _
    rw [hab]
    show measurePathsAux m l₁ (max L pl) (T + pl) (C + pc) = _
    rw [ih (max L pl) (T + pl) (C + pc)]
    simp [Nat.add_assoc]

/-- Claim C2, amended: `measure_paths` accumulates, over every start cell,
the *per-start result of `longest_path_from`*: `longest_path` is the global
maximum of the per-start path lengths, `total_path_length` is the sum of the
per-start *maximum* path lengths (one summand per start cell — not the sum of
the lengths of all terminal paths), and `total_paths` is the sum of the
per-start terminal-path counts; `avg_path_length` equals
`total_path_length / total_paths`. -/
theorem claim_C2_accumulation (m : Maze) (rs : List (ℕ × ℕ))
    (h : List.Forall₂ (fun c r => m.longest_path_from c.x c.y = some r) m.cells rs) :
    m.measure_paths =
      some ((rs.map Prod.fst).foldl max 0,
        (rs.map Prod.fst).sum, (rs.map Prod.snd).sum) ∧
    m.measure_quality = some
      { dead_ends := m.count_dead_ends
        longest_path := (rs.map Prod.fst).foldl max 0
        avg_path_length := ((rs.map Prod.fst).sum : ℚ) / ((rs.map Prod.snd).sum : ℚ)
        branching_factor := m.calculate_branching_factor } := by
  have h1 : m.measure_paths =
      some ((rs.map Prod.fst).foldl max 0,
        0 + (rs.map Prod.fst).sum, 0 + (rs.map Prod.snd).sum) :=
    measurePathsAux_fold m m.cells rs h 0 0 0
  constructor
  · rw [h1]; simp
  · show m.measure_paths.map _ = _
    rw [h1]
    simp

/-- Witness for the amended C2 on the 1×1 grid, whose single start cell has
`longest_path_from = some (0, 1)`. -/
theorem claim_C2_accumulation_witness :
    (Maze.new 1 1).measure_paths = some (0, 0, 1) := by
  have h : List.Forall₂
      (fun c r => (Maze.new 1 1).longest_path_from c.x c.y = some r)
      (Maze.new 1 1).cells [((0 : ℕ), (1 : ℕ))] := by
    simp [Maze.new, List.range_succ, List.forall₂_cons, Maze.longest_path_from,
      dfsLP, dfsDirs, visSet, visGet, Maze.cellAt, Maze.get_index, dirDelta,
      defaultCell, finRange_four]
  have hmain := claim_C2_accumulation (Maze.new 1 1) [(0, 1)] h
  simpa using hmain.1

set_option maxRecDepth 4000000 in
/-- Counterexample to the literal C2: on the fully open `3 × 1` maze the
terminal paths of the three start cells have lengths `{2}`, `{1, 1}` and
`{2}`, so the sum of the lengths of *all* terminal paths is `6`, while the
code's `total_path_length` (the middle component of `measure_paths`) is `5`
— the sum of the per-start maxima, not of all terminal-path lengths. -/
theorem claim_C2_counterexample :
    (((Maze.new 3 1).remove_wall 0 0 1 0).remove_wall 1 0 2 0).measure_paths
      = some (2, 5, 4) ∧
    sumAllTerminalLens (((Maze.new 3 1).remove_wall 0 0 1 0).remove_wall 1 0 2 0)
      = 6 ∧ (5 : ℕ) ≠ 6 := by
  refine ⟨?_, by decide, by decide⟩
  simp +decide [Maze.measure_paths, measurePathsAux, Maze.longest_path_from,
    dfsLP, dfsDirs, visSet, visGet, Maze.cellAt, Maze.get_index, dirDelta,
    defaultCell, finRange_four, Maze.new, Maze.remove_wall, Maze.clearWallAt,
    clearWall, Function.update, List.range_succ]
